import Mathlib

/-!
# Verification of the JPEG XL Modular sub-coder core

A shallow embedding of `src/jxl/modular/encoding/encoding.cc` (the Modular
sub-coder of libjxl): the MA-tree flattener `FilterTree`, the WP-only
fast-path range walks of `EncodeModularChannelMAANS` and
`DecodeModularChannelMAANS`, the shared channel-selection rule of
`ModularEncode`/`ModularDecode`, the sampling logic of `GatherTreeData`,
the degenerate case of `LearnTree`, and the top-level drivers.

Code of the repository that lives in headers not present in the source tree
(`ma.h`, `context_predict.h`, `modular/options.h`, the entropy-coder
collaborators) is modelled from the specification; every such definition is
marked `Modelled from the spec:` in its doc comment.  Machine integers are
modelled as `Int`/`Nat`; the places where C++ wraps or saturates are made
explicit.
-/

namespace JxlModular

/-! ## Constants

`kNumStaticProperties` and `kWPPropRange` appear literally in
`encoding.cc` (`kWPPropRange = 512`; the static properties are the channel
index and the group id).  -/

/-- Number of static properties (channel index, group id). -/
def kNumStaticProperties : Nat := 2

/-- Modelled from the spec: total number of non-reference properties
(`kNumNonrefProperties`, declared in `modular/options.h`, absent from the
source tree).  The spec fixes only its role (§3: the property vector has the
static block, then the spatial/WP block up to `K_nonref`). -/
def kNumNonrefProperties : Nat := 16

/-- Modelled from the spec: the weighted predictor exposes a single scalar
property (§4.B), so `weighted::kNumProperties = 1`. -/
def weightedKNumProperties : Nat := 1

/-- `kWPProp = kNumNonrefProperties - weighted::kNumProperties`
(from `encoding.cc`). -/
def kWPProp : Nat := kNumNonrefProperties - weightedKNumProperties

/-- `kWPPropRange = 512` (from `encoding.cc`). -/
def kWPPropRange : Int := 512

/-- Modelled from the spec: extra properties contributed per reference
channel (`kExtraPropsPerChannel`, declared in `modular/options.h`). -/
def kExtraPropsPerChannel : Nat := 4

/-- Modelled from the spec: the predictor enumeration is closed (§4.F);
`Zero` is the first entry and `Weighted` is the self-correcting predictor.
Predictors are encoded by their ordinal. -/
def predZero : Nat := 0

/-- Modelled from the spec: the ordinal of `Predictor::Weighted` in the
closed predictor enumeration. -/
def predWeighted : Nat := 6

/-- Modelled from the spec: ordinal of `Predictor::Gradient`. -/
def predGradient : Nat := 5

/-! ## Pixels and the zig-zag packing -/

/-- Lower bound of the pixel type (`pixel_type` is a 32-bit signed int). -/
def pixelMin : Int := -(2 ^ 31)

/-- Upper bound of the pixel type. -/
def pixelMax : Int := 2 ^ 31 - 1

/-- Clamp a wide value into the pixel range. -/
def clampPixel (v : Int) : Int := max pixelMin (min pixelMax v)

/-- Modelled from the spec (§9): `SaturatingAdd<pixel_type>` computes the
sum in a wider signed type and saturates to the pixel type. -/
def saturatingAdd (a b : Int) : Int := clampPixel (a + b)

/-- Modelled from the spec (§3): `PackSigned(x) = (x < 0) ? (-2*x - 1) : (2*x)`. -/
def packSigned (x : Int) : Nat := (if x < 0 then -2 * x - 1 else 2 * x).toNat

/-- Modelled from the spec (§3): `UnpackSigned` is the inverse of
`PackSigned`. -/
def unpackSigned (u : Nat) : Int :=
  if u % 2 = 1 then -(((u : Int) + 1) / 2) else (u : Int) / 2

/-! ## The MA tree (authoring form)

`PropertyDecisionNode` is declared in `ma.h` (absent from the source tree);
its fields are fixed by the uses in `encoding.cc` and by the spec (§3):
inner nodes carry `{property, splitval, lchild, rchild}`, leaves carry
`{predictor, predictor_offset, multiplier}` and store their context id in
`lchild`; `property == -1` marks a leaf. -/

/-- A node of the authoring tree. -/
structure PropertyDecisionNode where
  property : Int := -1
  splitval : Int := 0
  lchild : Nat := 0
  rchild : Nat := 0
  predictor : Nat := predZero
  predictor_offset : Int := 0
  multiplier : Int := 1
deriving Repr, DecidableEq

instance : Inhabited PropertyDecisionNode := ⟨{}⟩

/-- The authoring tree: a heap-allocated array of nodes, rooted at 0. -/
def Tree := List PropertyDecisionNode

instance : Inhabited Tree := ⟨([] : List PropertyDecisionNode)⟩

/-- Node access; C++ indexes the vector directly (in-range for well-formed
trees, which the theorems assume). -/
def treeAt (t : Tree) (i : Nat) : PropertyDecisionNode :=
  List.getD t i default

/-- A node of the decode-optimized flat tree (`FlatDecisionNode` of `ma.h`,
fields fixed by the uses in `encoding.cc` and the spec §3). -/
structure FlatDecisionNode where
  property0 : Int := -1
  splitval0 : Int := 0
  childID : Nat := 0
  properties : Int × Int := (0, 0)
  splitvals : Int × Int := (0, 0)
  predictor : Nat := predZero
  predictor_offset : Int := 0
  multiplier : Int := 1
deriving Repr, DecidableEq

instance : Inhabited FlatDecisionNode := ⟨{}⟩

/-- The flat tree. -/
def FlatTree := List FlatDecisionNode

instance : Inhabited FlatTree := ⟨([] : List FlatDecisionNode)⟩

/-- Flat node access. -/
def flatAt (F : FlatTree) (i : Nat) : FlatDecisionNode :=
  List.getD F i default

/-- The static property values of one channel: channel index and group id. -/
def StaticProps := Int × Int

/-- `static_props[property]` for `property ∈ {0, 1}`. -/
def staticAt (sp : StaticProps) (p : Int) : Int :=
  if p = 0 then sp.1 else sp.2

/-! ## FilterTree (from `encoding.cc`, lines 55–158)

The BFS visit is written with explicit fuel; `none` means the fuel ran out,
which is proved not to happen on well-formed trees. -/

/-- The inner `while` loops of `FilterTree`: skip nodes that are decided by
the static properties, descending to the appropriate child. -/
def skipStatic (t : Tree) (sp : StaticProps) : Nat → Nat → Option Nat
  | 0, _ => none
  | fuel + 1, cur =>
    let nd := treeAt t cur
    if nd.property < (kNumStaticProperties : Int) ∧ nd.property ≠ -1 then
      if staticAt sp nd.property > nd.splitval then
        skipStatic t sp fuel nd.lchild
      else
        skipStatic t sp fuel nd.rchild
    else
      some cur

/-- The accumulated outputs of `FilterTree`: the flat tree and the
`num_props` / `use_wp` / `wp_only` / `used_properties` accumulators. -/
structure FilterState where
  output : List FlatDecisionNode
  numProps : Nat
  useWp : Bool
  wpOnly : Bool
  used : Nat
deriving Repr, DecidableEq

/-- Initial accumulator of `FilterTree`. -/
def filterInit : FilterState :=
  { output := [], numProps := 0, useWp := false, wpOnly := true, used := 0 }

/-- Result of resolving one child of the current node: the recorded
`(properties[i], splitvals[i])` pair, the two queue entries to push, and the
`num_props` update. -/
def filterChild (t : Tree) (sp : StaticProps) (np : Nat) (child : Nat) :
    Option (Int × Int × List Nat × Nat) :=
  match skipStatic t sp (t.length + 1) child with
  | none => none
  | some c =>
    let nd := treeAt t c
    if nd.property = -1 then
      -- leaf child: dummy decision, leaf duplicated into both slots
      some (0, 0, [c, c], np)
    else
      some (nd.property, nd.splitval, [nd.lchild, nd.rchild],
        max (nd.property.toNat + 1) np)

/-- The BFS loop of `FilterTree`. -/
def filterGo (t : Tree) (sp : StaticProps) : Nat → List Nat → FilterState →
    Option FilterState
  | 0, _, _ => none
  | _ + 1, [], st => some st
  | fuel + 1, cur0 :: q, st =>
    match skipStatic t sp (t.length + 1) cur0 with
    | none => none
    | some cur =>
      let nd := treeAt t cur
      if nd.property = -1 then
        let flat : FlatDecisionNode :=
          { property0 := -1, childID := nd.lchild, predictor := nd.predictor,
            predictor_offset := nd.predictor_offset,
            multiplier := nd.multiplier }
        filterGo t sp fuel q
          { st with
            output := st.output ++ [flat],
            useWp := st.useWp || (nd.predictor == predWeighted),
            wpOnly := st.wpOnly && (nd.predictor == predWeighted) }
      else
        let np1 := max (nd.property.toNat + 1) st.numProps
        match filterChild t sp np1 nd.lchild with
        | none => none
        | some (propA, svA, pushA, np2) =>
          match filterChild t sp np2 nd.rchild with
          | none => none
          | some (propB, svB, pushB, np3) =>
            let flat : FlatDecisionNode :=
              { property0 := nd.property, splitval0 := nd.splitval,
                childID := st.output.length + q.length + 1,
                properties := (propA, propB), splitvals := (svA, svB) }
            let used1 :=
              if propA ≥ (kNumStaticProperties : Int) then
                st.used ||| (1 <<< propA.toNat) else st.used
            let used2 :=
              if propB ≥ (kNumStaticProperties : Int) then
                used1 ||| (1 <<< propB.toNat) else used1
            let used3 := used2 ||| (1 <<< nd.property.toNat)
            filterGo t sp fuel (q ++ pushA ++ pushB)
              { st with
                output := st.output ++ [flat],
                numProps := np3,
                used := used3 }

/-- `DivCeil` from `jxl/common.h`. -/
def divCeil (a b : Nat) : Nat := (a + b - 1) / b

/-- The final fixups of `FilterTree`: round `num_props` up, fold the
`used_properties` mask into `use_wp` and `wp_only`. -/
def filterFinish (st : FilterState) : FilterState :=
  { st with
    numProps :=
      if st.numProps > kNumNonrefProperties then
        divCeil (st.numProps - kNumNonrefProperties) kExtraPropsPerChannel *
            kExtraPropsPerChannel + kNumNonrefProperties
      else kNumNonrefProperties,
    useWp := st.useWp || (st.used &&& (1 <<< kWPProp) != 0),
    wpOnly := st.wpOnly && (st.used == 1 <<< kWPProp) }

/-- `FilterTree(global_tree, static_props, &num_props, &use_wp, &wp_only)`. -/
def filterTree (t : Tree) (sp : StaticProps) (fuel : Nat) :
    Option FilterState :=
  (filterGo t sp fuel [0] filterInit).map filterFinish

/-! ## Tree lookups -/

/-- What a leaf yields: predictor, predictor offset, multiplier, and the
context id. -/
structure LeafInfo where
  predictor : Nat
  predictor_offset : Int
  multiplier : Int
  ctx : Nat
deriving Repr, DecidableEq

/-- Naive descent of the authoring tree with a combined property vector
(static properties first): decision `static_props_and_props[property] >
splitval` routes to `lchild`, else `rchild` (spec §3); a leaf stores its
context id in `lchild`. -/
def descend (t : Tree) (c : Int → Int) : Nat → Nat → Option LeafInfo
  | 0, _ => none
  | fuel + 1, cur =>
    let nd := treeAt t cur
    if nd.property = -1 then
      some ⟨nd.predictor, nd.predictor_offset, nd.multiplier, nd.lchild⟩
    else if c nd.property > nd.splitval then
      descend t c fuel nd.lchild
    else
      descend t c fuel nd.rchild

/-- Modelled from the spec (§4.D) and the child order of `FilterTree`
(`MATreeLookup::Lookup` lives in `ma.h`, absent from the source tree):
descend the flat tree from a node; at an inner node evaluate the top
decision, then the corresponding child decision, and jump to
`childID + 2 * (top ? 0 : 1) + (sub ? 0 : 1)`, matching the push order
`[lchild.l, lchild.r, rchild.l, rchild.r]` of `FilterTree`. -/
def flatLookup (F : FlatTree) (c : Int → Int) : Nat → Nat → Option LeafInfo
  | 0, _ => none
  | fuel + 1, pos =>
    let nd := flatAt F pos
    if nd.property0 = -1 then
      some ⟨nd.predictor, nd.predictor_offset, nd.multiplier, nd.childID⟩
    else
      let off :=
        if c nd.property0 > nd.splitval0 then
          if c nd.properties.1 > nd.splitvals.1 then 0 else 1
        else
          if c nd.properties.2 > nd.splitvals.2 then 2 else 3
      flatLookup F c fuel (nd.childID + off)

end JxlModular

namespace JxlModular

/-! ## Well-formed authoring trees

Spec §3: node indices form a DAG that is in fact a tree rooted at index 0;
every path ends at a leaf; `property == -1` distinguishes leaves.  We use
the standard layout invariant of these trees: children have strictly larger
indices. -/

/-- Well-formedness of one node. -/
def WFNode (t : Tree) (i : Nat) : Prop :=
  (treeAt t i).property = -1 ∨
    (0 ≤ (treeAt t i).property ∧
      i < (treeAt t i).lchild ∧ (treeAt t i).lchild < t.length ∧
      i < (treeAt t i).rchild ∧ (treeAt t i).rchild < t.length)

instance (t : Tree) (i : Nat) : Decidable (WFNode t i) := by
  unfold WFNode; infer_instance

/-- Well-formedness of an authoring tree. -/
def WFTree (t : Tree) : Prop :=
  0 < t.length ∧ ∀ i, i < t.length → WFNode t i

instance (t : Tree) : Decidable (WFTree t) := by
  unfold WFTree; infer_instance

/-- The leaf data carried by an authoring node. -/
def leafInfoOf (nd : PropertyDecisionNode) : LeafInfo :=
  ⟨nd.predictor, nd.predictor_offset, nd.multiplier, nd.lchild⟩

/-- The leaf data carried by a flat node. -/
def flatLeafInfoOf (nd : FlatDecisionNode) : LeafInfo :=
  ⟨nd.predictor, nd.predictor_offset, nd.multiplier, nd.childID⟩

/-- `descend` reaches a leaf (for some fuel). -/
def DescReach (t : Tree) (c : Int → Int) (i : Nat) (l : LeafInfo) : Prop :=
  ∃ f, descend t c f i = some l

/-- `flatLookup` reaches a leaf (for some fuel). -/
def FlatReach (F : FlatTree) (c : Int → Int) (p : Nat) (l : LeafInfo) : Prop :=
  ∃ f, flatLookup F c f p = some l

theorem descend_mono (t : Tree) (c : Int → Int) :
    ∀ f f' i l, descend t c f i = some l → f ≤ f' →
      descend t c f' i = some l := by
  intro f
  induction f with
  | zero => intro f' i l h; simp [descend] at h
  | succ f ih =>
    intro f' i l h hle
    match f', hle with
    | f' + 1, hle =>
      simp only [descend] at h ⊢
      split <;> rename_i h1
      · rwa [if_pos h1] at h
      · rw [if_neg h1] at h
        split <;> rename_i h2
        · rw [if_pos h2] at h
          exact ih f' _ _ h (Nat.le_of_succ_le_succ hle)
        · rw [if_neg h2] at h
          exact ih f' _ _ h (Nat.le_of_succ_le_succ hle)

theorem flatLookup_mono (F : FlatTree) (c : Int → Int) :
    ∀ f f' p l, flatLookup F c f p = some l → f ≤ f' →
      flatLookup F c f' p = some l := by
  intro f
  induction f with
  | zero => intro f' p l h; simp [flatLookup] at h
  | succ f ih =>
    intro f' p l h hle
    match f', hle with
    | f' + 1, hle =>
      simp only [flatLookup] at h ⊢
      split <;> rename_i h1
      · rwa [if_pos h1] at h
      · rw [if_neg h1] at h
        exact ih f' _ _ h (Nat.le_of_succ_le_succ hle)

theorem descReach_det {t : Tree} {c : Int → Int} {i : Nat} {l l' : LeafInfo}
    (h : DescReach t c i l) (h' : DescReach t c i l') : l = l' := by
  obtain ⟨f, hf⟩ := h
  obtain ⟨g, hg⟩ := h'
  have h1 := descend_mono t c f (max f g) i l hf (Nat.le_max_left f g)
  have h2 := descend_mono t c g (max f g) i l' hg (Nat.le_max_right f g)
  rw [h1] at h2
  exact (Option.some.injEq _ _).mp h2

theorem flatReach_det {F : FlatTree} {c : Int → Int} {p : Nat}
    {l l' : LeafInfo} (h : FlatReach F c p l) (h' : FlatReach F c p l') :
    l = l' := by
  obtain ⟨f, hf⟩ := h
  obtain ⟨g, hg⟩ := h'
  have h1 := flatLookup_mono F c f (max f g) p l hf (Nat.le_max_left f g)
  have h2 := flatLookup_mono F c g (max f g) p l' hg (Nat.le_max_right f g)
  rw [h1] at h2
  exact (Option.some.injEq _ _).mp h2

theorem descReach_leaf {t : Tree} {c : Int → Int} {i : Nat}
    (h : (treeAt t i).property = -1) :
    ∀ l, DescReach t c i l ↔ l = leafInfoOf (treeAt t i) := by
  intro l
  constructor
  · rintro ⟨f, hf⟩
    match f with
    | 0 => simp [descend] at hf
    | f + 1 =>
      simp only [descend] at hf
      rw [if_pos h] at hf
      simp only [leafInfoOf]
      exact ((Option.some.injEq _ _).mp hf).symm
  · rintro rfl
    exact ⟨1, by simp [descend, h, leafInfoOf]⟩

theorem descReach_inner {t : Tree} {c : Int → Int} {i : Nat}
    (h : (treeAt t i).property ≠ -1) :
    ∀ l, DescReach t c i l ↔
      DescReach t c
        (if c (treeAt t i).property > (treeAt t i).splitval then
          (treeAt t i).lchild else (treeAt t i).rchild) l := by
  intro l
  constructor
  · rintro ⟨f, hf⟩
    match f with
    | 0 => simp [descend] at hf
    | f + 1 =>
      simp only [descend] at hf
      rw [if_neg h] at hf
      split at hf <;> rename_i hdec
      · exact ⟨f, by rw [if_pos hdec]; exact hf⟩
      · exact ⟨f, by rw [if_neg hdec]; exact hf⟩
  · rintro ⟨f, hf⟩
    refine ⟨f + 1, ?_⟩
    simp only [descend]
    rw [if_neg h]
    split <;> rename_i hdec
    · rw [if_pos hdec] at hf; exact hf
    · rw [if_neg hdec] at hf; exact hf

end JxlModular

namespace JxlModular

theorem flatReach_leaf {F : FlatTree} {c : Int → Int} {p : Nat}
    (h : (flatAt F p).property0 = -1) :
    ∀ l, FlatReach F c p l ↔ l = flatLeafInfoOf (flatAt F p) := by
  intro l
  constructor
  · rintro ⟨f, hf⟩
    match f with
    | 0 => simp [flatLookup] at hf
    | f + 1 =>
      simp only [flatLookup] at hf
      rw [if_pos h] at hf
      simp only [flatLeafInfoOf]
      exact ((Option.some.injEq _ _).mp hf).symm
  · rintro rfl
    exact ⟨1, by simp [flatLookup, h, flatLeafInfoOf]⟩

/-- The grand-child slot offset chosen by the flat lookup at an inner node. -/
def flatOff (nd : FlatDecisionNode) (c : Int → Int) : Nat :=
  if c nd.property0 > nd.splitval0 then
    if c nd.properties.1 > nd.splitvals.1 then 0 else 1
  else
    if c nd.properties.2 > nd.splitvals.2 then 2 else 3

theorem flatReach_inner {F : FlatTree} {c : Int → Int} {p : Nat}
    (h : (flatAt F p).property0 ≠ -1) :
    ∀ l, FlatReach F c p l ↔
      FlatReach F c ((flatAt F p).childID + flatOff (flatAt F p) c) l := by
  intro l
  constructor
  · rintro ⟨f, hf⟩
    match f with
    | 0 => simp [flatLookup] at hf
    | f + 1 =>
      simp only [flatLookup] at hf
      rw [if_neg h] at hf
      exact ⟨f, hf⟩
  · rintro ⟨f, hf⟩
    refine ⟨f + 1, ?_⟩
    simp only [flatLookup]
    rw [if_neg h]
    exact hf

theorem skipStatic_spec {t : Tree} {sp : StaticProps} (hWF : WFTree t) :
    ∀ f i cur, i < t.length → skipStatic t sp f i = some cur →
      i ≤ cur ∧ cur < t.length ∧
        ¬((treeAt t cur).property < (kNumStaticProperties : Int) ∧
          (treeAt t cur).property ≠ -1) := by
  intro f
  induction f with
  | zero => intro i cur _ h; simp [skipStatic] at h
  | succ f ih =>
    intro i cur hi h
    simp only [skipStatic] at h
    split at h <;> rename_i hcond
    · have hwn := hWF.2 i hi
      rcases hwn with hleaf | ⟨_, hll, hlb, hrl, hrb⟩
      · exact absurd hleaf hcond.2
      · split at h
        · obtain ⟨h1, h2, h3⟩ := ih _ _ hlb h
          exact ⟨Nat.le_trans (Nat.le_of_lt hll) h1, h2, h3⟩
        · obtain ⟨h1, h2, h3⟩ := ih _ _ hrb h
          exact ⟨Nat.le_trans (Nat.le_of_lt hrl) h1, h2, h3⟩
    · cases h
      exact ⟨Nat.le_refl _, hi, hcond⟩

theorem skipStatic_isSome {t : Tree} {sp : StaticProps} (hWF : WFTree t) :
    ∀ n i, i < t.length → t.length - i < n →
      (skipStatic t sp n i).isSome := by
  intro n
  induction n with
  | zero => intro i hi hn; omega
  | succ n ih =>
    intro i hi hn
    simp only [skipStatic]
    split <;> rename_i hcond
    · have hwn := hWF.2 i hi
      rcases hwn with hleaf | ⟨_, hll, hlb, hrl, hrb⟩
      · exact absurd hleaf hcond.2
      · split
        · exact ih _ hlb (by omega)
        · exact ih _ hrb (by omega)
    · rfl

theorem descReach_skip {t : Tree} {sp : StaticProps} {c : Int → Int}
    (hWF : WFTree t) (hc0 : c 0 = sp.1) (hc1 : c 1 = sp.2) :
    ∀ f i cur, i < t.length → skipStatic t sp f i = some cur →
      ∀ l, DescReach t c i l ↔ DescReach t c cur l := by
  intro f
  induction f with
  | zero => intro i cur _ h; simp [skipStatic] at h
  | succ f ih =>
    intro i cur hi h l
    simp only [skipStatic] at h
    split at h <;> rename_i hcond
    · have hwn := hWF.2 i hi
      rcases hwn with hleaf | ⟨hge0, hll, hlb, hrl, hrb⟩
      · exact absurd hleaf hcond.2
      · have hprop : (treeAt t i).property = 0 ∨ (treeAt t i).property = 1 := by
          have := hcond.1
          simp only [kNumStaticProperties] at this
          omega
        have hcv : c (treeAt t i).property = staticAt sp (treeAt t i).property := by
          rcases hprop with h0 | h0 <;>
            simp [h0, staticAt, hc0, hc1]
        rw [descReach_inner hcond.2 l, hcv]
        split at h <;> rename_i hdec
        · rw [if_pos hdec]
          exact ih _ _ hlb h l
        · rw [if_neg hdec]
          exact ih _ _ hrb h l
    · cases h
      exact Iff.rfl

theorem descReach_exists {t : Tree} {c : Int → Int} (hWF : WFTree t) :
    ∀ n i, i < t.length → t.length - i ≤ n → ∃ l, DescReach t c i l := by
  intro n
  induction n with
  | zero => intro i hi hn; omega
  | succ n ih =>
    intro i hi hn
    by_cases hleaf : (treeAt t i).property = -1
    · exact ⟨leafInfoOf (treeAt t i), (descReach_leaf hleaf _).mpr rfl⟩
    · have hwn := hWF.2 i hi
      rcases hwn with h | ⟨_, hll, hlb, hrl, hrb⟩
      · exact absurd h hleaf
      · by_cases hdec : c (treeAt t i).property > (treeAt t i).splitval
        · obtain ⟨l, hl⟩ := ih (treeAt t i).lchild hlb (by omega)
          exact ⟨l, (descReach_inner hleaf l).mpr (by rw [if_pos hdec]; exact hl)⟩
        · obtain ⟨l, hl⟩ := ih (treeAt t i).rchild hrb (by omega)
          exact ⟨l, (descReach_inner hleaf l).mpr (by rw [if_neg hdec]; exact hl)⟩

end JxlModular

namespace JxlModular

theorem flatAt_append_left {F tail : List FlatDecisionNode} {i : Nat}
    (h : i < F.length) : flatAt (F ++ tail) i = flatAt F i := by
  simp only [flatAt, List.getD_eq_getElem?_getD, List.getElem?_append_left h]

theorem flatAt_append_self {F : List FlatDecisionNode}
    {flat : FlatDecisionNode} : flatAt (F ++ [flat]) F.length = flat := by
  simp only [flatAt, List.getD_eq_getElem?_getD,
    List.getElem?_append_right (Nat.le_refl F.length)]
  simp

/-- Fuel measure of the BFS queue: pops are bounded by this sum. -/
def queueMeasure (t : Tree) (q : List Nat) : Nat :=
  (q.map (fun e => 5 ^ (t.length - e))).sum

theorem filterChild_spec {t : Tree} {sp : StaticProps} {np child : Nat}
    {pa sa : Int} {push : List Nat} {np' : Nat} (hWF : WFTree t)
    (hchild : child < t.length)
    (h : filterChild t sp np child = some (pa, sa, push, np')) :
    push.length = 2 ∧ ∀ e ∈ push, child ≤ e ∧ e < t.length := by
  rcases hskip : skipStatic t sp (t.length + 1) child with _ | c0
  · simp only [filterChild, hskip] at h
    exact Option.noConfusion h
  · simp only [filterChild, hskip] at h
    obtain ⟨hle, hlt, _⟩ := skipStatic_spec hWF _ _ _ hchild hskip
    by_cases hleaf : (treeAt t c0).property = -1
    · rw [if_pos hleaf, Option.some.injEq, Prod.mk.injEq, Prod.mk.injEq,
        Prod.mk.injEq] at h
      obtain ⟨-, -, hpush, -⟩ := h
      subst hpush
      refine ⟨rfl, ?_⟩
      intro e he
      simp only [List.mem_cons, List.not_mem_nil, or_false] at he
      rcases he with rfl | rfl <;> exact ⟨hle, hlt⟩
    · rw [if_neg hleaf, Option.some.injEq, Prod.mk.injEq, Prod.mk.injEq,
        Prod.mk.injEq] at h
      have hwn := hWF.2 c0 hlt
      rcases hwn with h0 | ⟨_, hll, hlb, hrl, hrb⟩
      · exact absurd h0 hleaf
      · obtain ⟨-, -, hpush, -⟩ := h
        subst hpush
        refine ⟨rfl, ?_⟩
        intro e he
        simp only [List.mem_cons, List.not_mem_nil, or_false] at he
        rcases he with rfl | rfl
        · exact ⟨Nat.le_trans hle (Nat.le_of_lt hll), hlb⟩
        · exact ⟨Nat.le_trans hle (Nat.le_of_lt hrl), hrb⟩

theorem filterChild_desc {t : Tree} {sp : StaticProps} {c : Int → Int}
    {np child : Nat} {pa sa : Int} {push : List Nat} {np' : Nat}
    (hWF : WFTree t) (hc0 : c 0 = sp.1) (hc1 : c 1 = sp.2)
    (hchild : child < t.length)
    (h : filterChild t sp np child = some (pa, sa, push, np')) :
    ∀ l, DescReach t c child l →
      DescReach t c (push.getD (if c pa > sa then 0 else 1) 0) l := by
  intro l hl
  rcases hskip : skipStatic t sp (t.length + 1) child with _ | c0
  · simp only [filterChild, hskip] at h
    exact Option.noConfusion h
  · simp only [filterChild, hskip] at h
    obtain ⟨hle, hlt, _⟩ := skipStatic_spec hWF _ _ _ hchild hskip
    have hl0 : DescReach t c c0 l :=
      (descReach_skip hWF hc0 hc1 _ _ _ hchild hskip l).mp hl
    by_cases hleaf : (treeAt t c0).property = -1
    · rw [if_pos hleaf, Option.some.injEq, Prod.mk.injEq, Prod.mk.injEq,
        Prod.mk.injEq] at h
      obtain ⟨-, -, hpush, -⟩ := h
      subst hpush
      split <;> exact hl0
    · rw [if_neg hleaf, Option.some.injEq, Prod.mk.injEq, Prod.mk.injEq,
        Prod.mk.injEq] at h
      obtain ⟨hpa, hsa, hpush, -⟩ := h
      subst hpa; subst hsa; subst hpush
      have := (descReach_inner hleaf l).mp hl0
      split at this <;> rename_i hdec
      · rw [if_pos hdec]; exact this
      · rw [if_neg hdec]; exact this

end JxlModular

namespace JxlModular

theorem queueMeasure_append (t : Tree) (a b : List Nat) :
    queueMeasure t (a ++ b) = queueMeasure t a + queueMeasure t b := by
  simp [queueMeasure]

theorem queueMeasure_cons (t : Tree) (e : Nat) (q : List Nat) :
    queueMeasure t (e :: q) = 5 ^ (t.length - e) + queueMeasure t q := by
  simp [queueMeasure]

theorem queueMeasure_push_le {t : Tree} {push : List Nat} {b : Nat}
    (hlen : push.length = 2) (hb : ∀ e ∈ push, b < e) :
    queueMeasure t push ≤ 2 * 5 ^ (t.length - b - 1) := by
  match push, hlen with
  | [e1, e2], _ =>
    have h1 := hb e1 (by simp)
    have h2 := hb e2 (by simp)
    have g1 : 5 ^ (t.length - e1) ≤ 5 ^ (t.length - b - 1) :=
      Nat.pow_le_pow_right (by omega) (by omega)
    have g2 : 5 ^ (t.length - e2) ≤ 5 ^ (t.length - b - 1) :=
      Nat.pow_le_pow_right (by omega) (by omega)
    simp only [queueMeasure, List.map_cons, List.map_nil, List.sum_cons,
      List.sum_nil]
    omega

theorem filterChild_isSome {t : Tree} {sp : StaticProps} {np child : Nat}
    (hWF : WFTree t) (h : child < t.length) :
    (filterChild t sp np child).isSome := by
  have hs := @skipStatic_isSome t sp hWF (t.length + 1) child h (by omega)
  rcases hskip : skipStatic t sp (t.length + 1) child with _ | c0
  · rw [hskip] at hs; simp at hs
  · simp only [filterChild, hskip]
    split <;> rfl

theorem filterGo_isSome {t : Tree} {sp : StaticProps} (hWF : WFTree t) :
    ∀ fuel q st, (∀ e ∈ q, e < t.length) →
      queueMeasure t q < fuel → (filterGo t sp fuel q st).isSome := by
  intro fuel
  induction fuel with
  | zero => intro q st _ hm; omega
  | succ fuel ih =>
    intro q st hq hm
    match q with
    | [] => simp [filterGo]
    | cur0 :: rest =>
      have hcur0 : cur0 < t.length := hq cur0 (by simp)
      have hskipS :=
        @skipStatic_isSome t sp hWF (t.length + 1) cur0 hcur0 (by omega)
      rcases hskip : skipStatic t sp (t.length + 1) cur0 with _ | cur
      · rw [hskip] at hskipS; simp at hskipS
      · obtain ⟨hle, hlt, _⟩ := skipStatic_spec hWF _ _ _ hcur0 hskip
        simp only [filterGo, hskip]
        have hmq := queueMeasure_cons t cur0 rest
        have hk : t.length - cur0 = (t.length - cur0 - 1) + 1 := by omega
        have hsplit : 5 ^ (t.length - cur0) = 5 ^ (t.length - cur0 - 1) * 5 := by
          conv_lhs => rw [hk]
          rw [pow_succ]
        have h1 : (1:Nat) ≤ 5 ^ (t.length - cur0 - 1) :=
          Nat.one_le_pow _ _ (by omega)
        by_cases hleaf : (treeAt t cur).property = -1
        · rw [if_pos hleaf]
          apply ih
          · intro e he; exact hq e (by simp [he])
          · omega
        · rw [if_neg hleaf]
          rcases hWF.2 cur hlt with h0 | ⟨_, hll, hlb, hrl, hrb⟩
          · exact absurd h0 hleaf
          have hA := @filterChild_isSome t sp
            (max ((treeAt t cur).property.toNat + 1) st.numProps) _ hWF hlb
          rcases hcA : filterChild t sp
              (max ((treeAt t cur).property.toNat + 1) st.numProps)
              (treeAt t cur).lchild with _ | resA
          · rw [hcA] at hA; simp at hA
          · obtain ⟨pa, sa, pushA, npA⟩ := resA
            have hB := @filterChild_isSome t sp npA _ hWF hrb
            rcases hcB : filterChild t sp npA (treeAt t cur).rchild with _ | resB
            · rw [hcB] at hB; simp at hB
            · obtain ⟨pb, sb, pushB, npB⟩ := resB
              simp only [hcA, hcB]
              obtain ⟨hlenA, hboundA⟩ := filterChild_spec hWF hlb hcA
              obtain ⟨hlenB, hboundB⟩ := filterChild_spec hWF hrb hcB
              have hmA : queueMeasure t pushA ≤
                  2 * 5 ^ (t.length - cur0 - 1) :=
                queueMeasure_push_le hlenA (fun e he => by
                  have := hboundA e he; omega)
              have hmB : queueMeasure t pushB ≤
                  2 * 5 ^ (t.length - cur0 - 1) :=
                queueMeasure_push_le hlenB (fun e he => by
                  have := hboundB e he; omega)
              apply ih
              · intro e he
                simp only [List.append_assoc, List.mem_append] at he
                rcases he with he | he | he
                · exact hq e (by simp [he])
                · exact (hboundA e he).2
                · exact (hboundB e he).2
              · rw [queueMeasure_append, queueMeasure_append]
                omega

end JxlModular

namespace JxlModular

theorem filterGo_output_extend {t : Tree} {sp : StaticProps} :
    ∀ fuel q st st', filterGo t sp fuel q st = some st' →
      ∃ tail, st'.output = st.output ++ tail := by
  intro fuel
  induction fuel with
  | zero => intro q st st' h; simp [filterGo] at h
  | succ fuel ih =>
    intro q st st' h
    match q with
    | [] =>
      simp only [filterGo, Option.some.injEq] at h
      exact ⟨[], by rw [← h]; simp⟩
    | cur0 :: rest =>
      rcases hskip : skipStatic t sp (t.length + 1) cur0 with _ | cur
      · simp only [filterGo, hskip] at h
        exact Option.noConfusion h
      · simp only [filterGo, hskip] at h
        split at h <;> rename_i hleaf
        · obtain ⟨tail, htail⟩ := ih _ _ _ h
          simp only at htail
          exact ⟨_, by rw [htail, List.append_assoc]⟩
        · rcases hcA : filterChild t sp
              (max ((treeAt t cur).property.toNat + 1) st.numProps)
              (treeAt t cur).lchild with _ | resA
          · simp only [hcA] at h
            exact Option.noConfusion h
          · obtain ⟨pa, sa, pushA, npA⟩ := resA
            simp only [hcA] at h
            rcases hcB : filterChild t sp npA (treeAt t cur).rchild
                with _ | resB
            · simp only [hcB] at h
              exact Option.noConfusion h
            · obtain ⟨pb, sb, pushB, npB⟩ := resB
              simp only [hcB] at h
              obtain ⟨tail, htail⟩ := ih _ _ _ h
              simp only at htail
              exact ⟨_, by rw [htail, List.append_assoc]⟩

theorem getD_append_pre {a b : List Nat} {j : Nat} (hj : j < a.length) :
    (a ++ b).getD j 0 = a.getD j 0 := by
  rw [List.getD_eq_getElem?_getD, List.getD_eq_getElem?_getD,
    List.getElem?_append_left hj]

theorem getD_append_mid1 {a b d : List Nat} {s : Nat} (hs : s < b.length) :
    ((a ++ b) ++ d).getD (a.length + s) 0 = b.getD s 0 := by
  rw [List.getD_eq_getElem?_getD, List.getD_eq_getElem?_getD,
    List.getElem?_append_left (by simp [hs] : a.length + s < (a ++ b).length),
    List.getElem?_append_right (by omega : a.length ≤ a.length + s)]
  congr 2
  omega

theorem getD_append_mid2 {a b d : List Nat} {s : Nat} :
    ((a ++ b) ++ d).getD (a.length + b.length + s) 0 = d.getD s 0 := by
  rw [List.getD_eq_getElem?_getD, List.getD_eq_getElem?_getD,
    List.getElem?_append_right
      (by simp : (a ++ b).length ≤ a.length + b.length + s)]
  congr 2
  simp

end JxlModular

namespace JxlModular


theorem flatReach_congr {F : FlatTree} {c : Int → Int} {p p' : Nat}
    {l : LeafInfo} (h : FlatReach F c p l) (hp : p = p') :
    FlatReach F c p' l := hp ▸ h

theorem filterGo_lookup {t : Tree} {sp : StaticProps} {c : Int → Int}
    (hWF : WFTree t) (hc0 : c 0 = sp.1) (hc1 : c 1 = sp.2) :
    ∀ fuel q st st', filterGo t sp fuel q st = some st' →
      (∀ e ∈ q, e < t.length) →
      ∀ j, j < q.length → ∀ l, DescReach t c (q.getD j 0) l →
        FlatReach st'.output c (st.output.length + j) l := by
  intro fuel
  induction fuel with
  | zero => intro q st st' h; simp [filterGo] at h
  | succ fuel ih =>
    intro q st st' h hq j hj l hdesc
    match q with
    | [] => simp at hj
    | cur0 :: rest =>
      have hcur0 : cur0 < t.length := hq cur0 (by simp)
      rcases hskip : skipStatic t sp (t.length + 1) cur0 with _ | cur
      · simp only [filterGo, hskip] at h
        exact Option.noConfusion h
      · simp only [filterGo, hskip] at h
        obtain ⟨hle, hlt, hpost⟩ := skipStatic_spec hWF _ _ _ hcur0 hskip
        split at h <;> rename_i hleaf
        · -- current node resolves to a leaf: a flat leaf is emitted
          match j with
          | 0 =>
            obtain ⟨tail, htail⟩ := filterGo_output_extend _ _ _ _ h
            simp only at htail
            have hdesc' : DescReach t c cur l :=
              (descReach_skip hWF hc0 hc1 _ _ _ hcur0 hskip l).mp
                (by simpa using hdesc)
            have hl : l = leafInfoOf (treeAt t cur) :=
              (descReach_leaf hleaf l).mp hdesc'
            have hnode : flatAt st'.output st.output.length =
                { property0 := -1, childID := (treeAt t cur).lchild,
                  predictor := (treeAt t cur).predictor,
                  predictor_offset := (treeAt t cur).predictor_offset,
                  multiplier := (treeAt t cur).multiplier } := by
              rw [htail, flatAt_append_left (by simp), flatAt_append_self]
            rw [Nat.add_zero]
            rw [flatReach_leaf (by rw [hnode]) l]
            rw [hnode, hl, leafInfoOf, flatLeafInfoOf]
          | j + 1 =>
            have hj' : j < rest.length := by simpa using hj
            have hpos := ih _ _ _ h
              (fun e he => hq e (List.mem_cons_of_mem _ he)) j hj' l
              (by simpa using hdesc)
            simp only [List.length_append, List.length_cons, List.length_nil]
              at hpos
            exact flatReach_congr hpos (by omega)
        · -- current node is a real decision: a flat inner node is emitted
          rcases hcA : filterChild t sp
              (max ((treeAt t cur).property.toNat + 1) st.numProps)
              (treeAt t cur).lchild with _ | resA
          · simp only [hcA] at h
            exact Option.noConfusion h
          · obtain ⟨pa, sa, pushA, npA⟩ := resA
            simp only [hcA] at h
            rcases hcB : filterChild t sp npA (treeAt t cur).rchild
                with _ | resB
            · simp only [hcB] at h
              exact Option.noConfusion h
            · obtain ⟨pb, sb, pushB, npB⟩ := resB
              simp only [hcB] at h
              rcases hWF.2 cur hlt with h0 | ⟨_, hll, hlb, hrl, hrb⟩
              · exact absurd h0 hleaf
              obtain ⟨hlenA, hboundA⟩ := filterChild_spec hWF hlb hcA
              obtain ⟨hlenB, hboundB⟩ := filterChild_spec hWF hrb hcB
              have hq' : ∀ e ∈ rest ++ pushA ++ pushB, e < t.length := by
                intro e he
                simp only [List.append_assoc, List.mem_append] at he
                rcases he with he | he | he
                · exact hq e (by simp [he])
                · exact (hboundA e he).2
                · exact (hboundB e he).2
              match j with
              | 0 =>
                obtain ⟨tail, htail⟩ := filterGo_output_extend _ _ _ _ h
                simp only at htail
                have hnode : flatAt st'.output st.output.length =
                    { property0 := (treeAt t cur).property,
                      splitval0 := (treeAt t cur).splitval,
                      childID := st.output.length + rest.length + 1,
                      properties := (pa, pb), splitvals := (sa, sb) } := by
                  rw [htail, flatAt_append_left (by simp), flatAt_append_self]
                have hdesc' : DescReach t c cur l :=
                  (descReach_skip hWF hc0 hc1 _ _ _ hcur0 hskip l).mp
                    (by simpa using hdesc)
                have hstep := (descReach_inner hleaf l).mp hdesc'
                rw [Nat.add_zero]
                rw [flatReach_inner (by rw [hnode]; exact hleaf) l, hnode]
                simp only [flatOff]
                by_cases htop :
                    c (treeAt t cur).property > (treeAt t cur).splitval
                · rw [if_pos htop] at hstep ⊢
                  have hreach := filterChild_desc hWF hc0 hc1 hlb hcA l hstep
                  have hs2 : (if c pa > sa then 0 else 1) < 2 := by
                    split <;> omega
                  have hidx := ih _ _ _ h hq'
                    (rest.length + (if c pa > sa then 0 else 1))
                    (by simp only [List.length_append]; omega) l
                    (by rw [getD_append_mid1 (by omega)]; exact hreach)
                  simp only [List.length_append, List.length_cons,
                    List.length_nil] at hidx
                  exact flatReach_congr hidx (by omega)
                · rw [if_neg htop] at hstep ⊢
                  have hreach := filterChild_desc hWF hc0 hc1 hrb hcB l hstep
                  have hidx := ih _ _ _ h hq'
                    (rest.length + pushA.length + (if c pb > sb then 0 else 1))
                    (by
                      simp only [List.length_append]
                      have : (if c pb > sb then 0 else 1) < 2 := by
                        split <;> omega
                      omega) l
                    (by rw [getD_append_mid2]; exact hreach)
                  simp only [List.length_append, List.length_cons,
                    List.length_nil] at hidx
                  have hoff : (if c pb > sb then (2:Nat) else 3) =
                      2 + (if c pb > sb then 0 else 1) := by
                    split <;> rfl
                  rw [hoff]
                  exact flatReach_congr hidx (by rw [hlenA] at hidx ⊢; omega)
              | j + 1 =>
                have hj' : j < rest.length := by simpa using hj
                have hpos := ih _ _ _ h hq' j
                  (by simp only [List.length_append]; omega) l
                  (by
                    rw [getD_append_pre (by simp; omega),
                      getD_append_pre hj']
                    simpa using hdesc)
                simp only [List.length_append, List.length_cons,
                  List.length_nil] at hpos
                exact flatReach_congr hpos (by omega)

end JxlModular

namespace JxlModular

/-- Every inner node of a flat tree points strictly forward (an invariant of
`FilterTree` output; crafted flat trees need not satisfy it). -/
def GoodFlat (F : FlatTree) : Prop :=
  ∀ k, k < F.length → (flatAt F k).property0 ≠ -1 → k < (flatAt F k).childID

theorem goodFlat_append {F : List FlatDecisionNode} {nd : FlatDecisionNode}
    (hF : GoodFlat F) (hnd : nd.property0 ≠ -1 → F.length < nd.childID) :
    GoodFlat (F ++ [nd]) := by
  intro k hk
  rw [List.length_append, List.length_cons, List.length_nil] at hk
  by_cases hlt : k < F.length
  · rw [flatAt_append_left hlt]
    exact hF k hlt
  · have hke : k = F.length := by omega
    subst hke
    rw [flatAt_append_self]
    exact hnd

theorem filterGo_goodFlat {t : Tree} {sp : StaticProps} :
    ∀ fuel q st st', filterGo t sp fuel q st = some st' →
      GoodFlat st.output → GoodFlat st'.output := by
  intro fuel
  induction fuel with
  | zero => intro q st st' h; simp [filterGo] at h
  | succ fuel ih =>
    intro q st st' h hG
    match q with
    | [] =>
      simp only [filterGo, Option.some.injEq] at h
      rw [← h]; exact hG
    | cur0 :: rest =>
      rcases hskip : skipStatic t sp (t.length + 1) cur0 with _ | cur
      · simp only [filterGo, hskip] at h
        exact Option.noConfusion h
      · simp only [filterGo, hskip] at h
        split at h <;> rename_i hleaf
        · exact ih _ _ _ h (goodFlat_append hG (fun hc => absurd rfl hc))
        · rcases hcA : filterChild t sp
              (max ((treeAt t cur).property.toNat + 1) st.numProps)
              (treeAt t cur).lchild with _ | resA
          · simp only [hcA] at h
            exact Option.noConfusion h
          · obtain ⟨pa, sa, pushA, npA⟩ := resA
            simp only [hcA] at h
            rcases hcB : filterChild t sp npA (treeAt t cur).rchild
                with _ | resB
            · simp only [hcB] at h
              exact Option.noConfusion h
            · obtain ⟨pb, sb, pushB, npB⟩ := resB
              simp only [hcB] at h
              exact ih _ _ _ h (goodFlat_append hG (fun _ => by
                show st.output.length < st.output.length + rest.length + 1
                omega))

theorem flatLookup_isSome {F : FlatTree} {c : Int → Int} (hG : GoodFlat F) :
    ∀ n pos, F.length - pos < n → (flatLookup F c n pos).isSome := by
  intro n
  induction n with
  | zero => intro pos h; omega
  | succ n ih =>
    intro pos h
    simp only [flatLookup]
    split <;> rename_i hleaf
    · rfl
    · have hpos : pos < F.length := by
        by_contra hge
        have : flatAt F pos = default := by
          simp only [flatAt]
          rw [List.getD_eq_getElem?_getD, List.getElem?_eq_none (by omega)]
          rfl
        rw [this] at hleaf
        exact hleaf rfl
      have hchild := hG pos hpos hleaf
      exact ih _ (by omega)

theorem descend_isSome {t : Tree} {c : Int → Int} (hWF : WFTree t) :
    ∀ n i, i < t.length → t.length - i < n → (descend t c n i).isSome := by
  intro n
  induction n with
  | zero => intro i hi h; omega
  | succ n ih =>
    intro i hi h
    simp only [descend]
    split <;> rename_i hleaf
    · rfl
    · rcases hWF.2 i hi with h0 | ⟨_, hll, hlb, hrl, hrb⟩
      · exact absurd h0 hleaf
      · split
        · exact ih _ hlb (by omega)
        · exact ih _ hrb (by omega)

/-- C2: for every well-formed authoring tree `T`, static property values
`sp`, and property vector `c` consistent with the statics (`c 0`, `c 1` are
the static values), descending the flat tree produced by `FilterTree` with
`c` reaches the same leaf — same predictor, predictor offset, multiplier
and context id — as naive descent of `T` with the combined vector `c`
(decision `c property > splitval`). -/
theorem flattener_equivalence {t : Tree} {sp : StaticProps} {c : Int → Int}
    {fuel : Nat} {st : FilterState}
    (hWF : WFTree t) (hc0 : c 0 = sp.1) (hc1 : c 1 = sp.2)
    (hrun : filterTree t sp fuel = some st) :
    (descend t c (t.length + 1) 0).isSome ∧
      flatLookup st.output c (st.output.length + 1) 0 =
        descend t c (t.length + 1) 0 := by
  simp only [filterTree, Option.map_eq_some'] at hrun
  obtain ⟨st0, hrun0, hfin⟩ := hrun
  have hout : st.output = st0.output := by rw [← hfin]; rfl
  have hsome : (descend t c (t.length + 1) 0).isSome :=
    descend_isSome hWF (t.length + 1) 0 hWF.1 (by omega)
  refine ⟨hsome, ?_⟩
  obtain ⟨l, hl⟩ := Option.isSome_iff_exists.mp hsome
  have hdesc : DescReach t c 0 l := ⟨t.length + 1, hl⟩
  have hflat : FlatReach st0.output c 0 l := by
    have := filterGo_lookup hWF hc0 hc1 fuel [0] filterInit st0 hrun0
      (by intro e he; simp at he; subst he; exact hWF.1) 0 (by simp) l
      (by simpa using hdesc)
    simpa [filterInit] using this
  have hG : GoodFlat st0.output :=
    filterGo_goodFlat fuel [0] filterInit st0 hrun0 (by intro k hk; simp [filterInit] at hk)
  have hlook : (flatLookup st0.output c (st0.output.length + 1) 0).isSome :=
    flatLookup_isSome hG (st0.output.length + 1) 0 (by omega)
  obtain ⟨l2, hl2⟩ := Option.isSome_iff_exists.mp hlook
  have : l2 = l := flatReach_det ⟨_, hl2⟩ hflat
  rw [hout, hl2, hl, this]

end JxlModular

namespace JxlModular

/-- Concrete authoring tree for witnesses: a static decision at the root
(property 0, the channel index), one branch a plain leaf, the other branch
two nested real decisions with leaves. -/
def wTreeA : Tree := [
  { property := 0, splitval := 0, lchild := 1, rchild := 2 },
  { property := -1, lchild := 7, predictor := 3 },
  { property := 9, splitval := 5, lchild := 3, rchild := 4 },
  { property := -1, lchild := 0, predictor := predWeighted,
    predictor_offset := 2 },
  { property := 10, splitval := -1, lchild := 5, rchild := 6 },
  { property := -1, lchild := 1, predictor := 1 },
  { property := -1, lchild := 2, predictor := 2 } ]

/-- Concrete combined property vector for witnesses. -/
def wPropsA : Int → Int := fun p => if p = 9 then 3 else if p = 10 then -5 else 0

/-- The filter output on `wTreeA` with statics `(0, 0)`. -/
def wStA : FilterState := (filterTree wTreeA (0, 0) 100).getD filterInit

theorem flattener_equivalence_witness :
    (WFTree wTreeA ∧ wPropsA 0 = (0 : Int) ∧ wPropsA 1 = (0 : Int) ∧
      filterTree wTreeA (0, 0) 100 = some wStA) ∧
      ((descend wTreeA wPropsA (List.length wTreeA + 1) 0).isSome ∧
        flatLookup wStA.output wPropsA (wStA.output.length + 1) 0 =
          descend wTreeA wPropsA (List.length wTreeA + 1) 0) :=
  ⟨⟨by decide, by decide, by decide, by decide⟩,
    @flattener_equivalence wTreeA (0, 0) wPropsA 100 wStA
      (by decide) (by decide) (by decide) (by decide)⟩

end JxlModular

namespace JxlModular

/-- The `used_properties` update contributed by one emitted flat node,
mirroring the updates in the BFS loop of `FilterTree`. -/
def maskStep (acc : Nat) (nd : FlatDecisionNode) : Nat :=
  if nd.property0 = -1 then acc
  else
    let u1 := if nd.properties.1 ≥ (kNumStaticProperties : Int) then
        acc ||| (1 <<< nd.properties.1.toNat) else acc
    let u2 := if nd.properties.2 ≥ (kNumStaticProperties : Int) then
        u1 ||| (1 <<< nd.properties.2.toNat) else u1
    u2 ||| (1 <<< nd.property0.toNat)

/-- Every leaf of a flat tree carries `Predictor::Weighted`. -/
def flatLeavesWeighted (F : List FlatDecisionNode) : Bool :=
  F.all fun nd => !(nd.property0 == -1) || (nd.predictor == predWeighted)

/-- The `used_properties` bitmask collected over a whole flat tree. -/
def flatUsedMask (F : List FlatDecisionNode) : Nat :=
  F.foldl maskStep 0

/-- Some leaf of a flat tree carries `Predictor::Weighted`. -/
def flatSomeLeafWeighted (F : List FlatDecisionNode) : Bool :=
  F.any fun nd => (nd.property0 == -1) && (nd.predictor == predWeighted)

theorem filterGo_flags {t : Tree} {sp : StaticProps} :
    ∀ fuel q st st', filterGo t sp fuel q st = some st' →
      ∃ tail, st'.output = st.output ++ tail ∧
        st'.wpOnly = (st.wpOnly && flatLeavesWeighted tail) ∧
        st'.used = tail.foldl maskStep st.used ∧
        st'.useWp = (st.useWp || flatSomeLeafWeighted tail) := by
  intro fuel
  induction fuel with
  | zero => intro q st st' h; simp [filterGo] at h
  | succ fuel ih =>
    intro q st st' h
    match q with
    | [] =>
      simp only [filterGo, Option.some.injEq] at h
      refine ⟨[], ?_, ?_, ?_, ?_⟩ <;>
        simp [← h, flatLeavesWeighted, flatSomeLeafWeighted]
    | cur0 :: rest =>
      rcases hskip : skipStatic t sp (t.length + 1) cur0 with _ | cur
      · simp only [filterGo, hskip] at h
        exact Option.noConfusion h
      · simp only [filterGo, hskip] at h
        split at h <;> rename_i hleaf
        · obtain ⟨tail, ho, hw, hu, hv⟩ := ih _ _ _ h
          simp only at ho hw hu hv
          refine
            ⟨({ property0 := -1,
                childID := (treeAt t cur).lchild,
                predictor := (treeAt t cur).predictor,
                predictor_offset := (treeAt t cur).predictor_offset,
                multiplier := (treeAt t cur).multiplier } :
                  FlatDecisionNode) :: tail, ?_, ?_, ?_, ?_⟩
          · rw [ho, List.append_assoc]; rfl
          · rw [hw]
            simp only [flatLeavesWeighted, List.all_cons]
            cases hst : st.wpOnly <;> simp [Bool.and_assoc]
          · rw [hu]
            simp only [List.foldl_cons]
            congr 1
          · rw [hv]
            simp only [flatSomeLeafWeighted, List.any_cons]
            cases hst : st.useWp <;> simp [Bool.or_assoc]
        · rcases hcA : filterChild t sp
              (max ((treeAt t cur).property.toNat + 1) st.numProps)
              (treeAt t cur).lchild with _ | resA
          · simp only [hcA] at h
            exact Option.noConfusion h
          · obtain ⟨pa, sa, pushA, npA⟩ := resA
            simp only [hcA] at h
            rcases hcB : filterChild t sp npA (treeAt t cur).rchild
                with _ | resB
            · simp only [hcB] at h
              exact Option.noConfusion h
            · obtain ⟨pb, sb, pushB, npB⟩ := resB
              simp only [hcB] at h
              obtain ⟨tail, ho, hw, hu, hv⟩ := ih _ _ _ h
              simp only at ho hw hu hv
              refine
                ⟨({ property0 := (treeAt t cur).property,
                    splitval0 := (treeAt t cur).splitval,
                    childID := st.output.length + rest.length + 1,
                    properties := (pa, pb),
                    splitvals := (sa, sb) } :
                      FlatDecisionNode) :: tail, ?_, ?_, ?_, ?_⟩
              · rw [ho, List.append_assoc]; rfl
              · rw [hw]
                simp only [flatLeavesWeighted, List.all_cons]
                congr 1
                simp [hleaf]
              · rw [hu]
                simp only [List.foldl_cons]
                congr 1
                simp only [maskStep]
                rw [if_neg hleaf]
              · rw [hv]
                simp only [flatSomeLeafWeighted, List.any_cons]
                congr 1
                simp [hleaf]

end JxlModular

namespace JxlModular

/-- C6 (amended): `FilterTree` returns `wp_only == true` exactly when every
leaf of the filtered output uses the Weighted predictor and the
used-properties bitmask collected from its decision nodes (the top
properties and the non-dummy sub-properties) equals exactly the WP-property
bit.  In particular a tree whose filtered form is a single leaf collects an
empty mask and gets `wp_only == false`, even when that leaf uses the
Weighted predictor. -/
theorem wp_only_characterization {t : Tree} {sp : StaticProps} {fuel : Nat}
    {st : FilterState} (hrun : filterTree t sp fuel = some st) :
    st.wpOnly = (flatLeavesWeighted st.output &&
      (flatUsedMask st.output == 1 <<< kWPProp)) := by
  simp only [filterTree, Option.map_eq_some'] at hrun
  obtain ⟨st0, hrun0, hfin⟩ := hrun
  obtain ⟨tail, ho, hw, hu, _⟩ := filterGo_flags fuel [0] filterInit st0 hrun0
  simp only [filterInit, List.nil_append, Bool.true_and] at ho hw hu
  have hout : st.output = st0.output := by rw [← hfin]; rfl
  have hwp : st.wpOnly = (st0.wpOnly && (st0.used == 1 <<< kWPProp)) := by
    rw [← hfin]; rfl
  rw [hwp, hw, hu, hout, ho, flatUsedMask]

/-- The specification's reading of `wp_only` (claim C6): every decision of
the filtered tree uses only the WP property (a sub-decision slot holding a
static property id is a dummy produced by the fold) and every leaf uses the
Weighted predictor. -/
def specWPOnly (F : List FlatDecisionNode) : Bool :=
  F.all fun nd =>
    if nd.property0 == -1 then nd.predictor == predWeighted
    else (nd.property0 == (kWPProp : Int)) &&
      (decide (nd.properties.1 < (kNumStaticProperties : Int)) ||
        nd.properties.1 == (kWPProp : Int)) &&
      (decide (nd.properties.2 < (kNumStaticProperties : Int)) ||
        nd.properties.2 == (kWPProp : Int))

/-- A tree that is a single Weighted leaf. -/
def cxTreeC6 : Tree :=
  [{ property := -1, lchild := 0, predictor := predWeighted }]

/-- The filter output of `cxTreeC6`. -/
def cxStC6 : FilterState := (filterTree cxTreeC6 (0, 0) 10).getD filterInit

/-- C6 counterexample: for the tree whose filtered form is a single leaf
with the Weighted predictor, the tree uses only the WP property for its
decisions (vacuously) and the Weighted predictor at its leaves, yet
`FilterTree` reports `wp_only == false` — refuting the claimed equivalence
at this concrete input. -/
theorem wp_only_counterexample :
    filterTree cxTreeC6 (0, 0) 10 = some cxStC6 ∧
      specWPOnly cxStC6.output = true ∧ cxStC6.wpOnly = false := by decide

theorem wp_only_characterization_witness :
    filterTree wTreeA (0, 0) 100 = some wStA ∧
      wStA.wpOnly = (flatLeavesWeighted wStA.output &&
        (flatUsedMask wStA.output == 1 <<< kWPProp)) :=
  ⟨by decide, @wp_only_characterization wTreeA (0, 0) 100 wStA (by decide)⟩

end JxlModular

namespace JxlModular

/-! ## Channel selection (`ModularEncode` lines 874–887, `ModularDecode`
lines 989–1001)

A channel is represented by its dimensions `(w, h)`; the loops only read
those. -/

/-- The channel loop of `ModularEncode` (lines 874–887): from index `i`
upward, skip empty channels, stop at the first channel at index
`≥ nb_meta_channels` wider or taller than `max_chan_size`, collect the
rest. -/
def encodeChannelLoop (dims : List (Nat × Nat)) (nbMeta maxSize i : Nat) :
    List Nat :=
  if hlt : i < dims.length then
    if (dims.getD i (0, 0)).1 = 0 ∨ (dims.getD i (0, 0)).2 = 0 then
      encodeChannelLoop dims nbMeta maxSize (i + 1)
    else if nbMeta ≤ i ∧
        ((dims.getD i (0, 0)).1 > maxSize ∨ (dims.getD i (0, 0)).2 > maxSize)
        then
      []
    else
      i :: encodeChannelLoop dims nbMeta maxSize (i + 1)
  else []
termination_by dims.length - i

/-- The channel loop of `ModularDecode` (lines 989–1001): textually the
same rule as the encoder's. -/
def decodeChannelLoop (dims : List (Nat × Nat)) (nbMeta maxSize i : Nat) :
    List Nat :=
  if hlt : i < dims.length then
    if (dims.getD i (0, 0)).1 = 0 ∨ (dims.getD i (0, 0)).2 = 0 then
      decodeChannelLoop dims nbMeta maxSize (i + 1)
    else if nbMeta ≤ i ∧
        ((dims.getD i (0, 0)).1 > maxSize ∨ (dims.getD i (0, 0)).2 > maxSize)
        then
      []
    else
      i :: decodeChannelLoop dims nbMeta maxSize (i + 1)
  else []
termination_by dims.length - i

/-- The ordered list of coded channels on the encode side. -/
def encodeCodedChannels (dims : List (Nat × Nat))
    (skipchannels nbMeta maxSize : Nat) : List Nat :=
  encodeChannelLoop dims nbMeta maxSize skipchannels

/-- The ordered list of coded channels on the decode side. -/
def decodeCodedChannels (dims : List (Nat × Nat))
    (skipchannels nbMeta maxSize : Nat) : List Nat :=
  decodeChannelLoop dims nbMeta maxSize skipchannels

/-- Non-empty channel at index `k`. -/
def chanNonEmpty (dims : List (Nat × Nat)) (k : Nat) : Prop :=
  (dims.getD k (0, 0)).1 ≠ 0 ∧ (dims.getD k (0, 0)).2 ≠ 0

instance (dims : List (Nat × Nat)) (k : Nat) :
    Decidable (chanNonEmpty dims k) := by
  unfold chanNonEmpty; infer_instance

/-- Channel at index `k` stops the iteration: non-empty (so it is not
skipped first), counted (`k ≥ nb_meta_channels`) and over-sized. -/
def chanStops (dims : List (Nat × Nat)) (nbMeta maxSize k : Nat) : Prop :=
  chanNonEmpty dims k ∧ nbMeta ≤ k ∧
    ((dims.getD k (0, 0)).1 > maxSize ∨ (dims.getD k (0, 0)).2 > maxSize)

instance (dims : List (Nat × Nat)) (nbMeta maxSize k : Nat) :
    Decidable (chanStops dims nbMeta maxSize k) := by
  unfold chanStops; infer_instance

/-- The channel list as the claim words it: iterate indices from
`skipchannels` upward, cut at the first stopping channel, keep the
non-empty ones. -/
def specChannelList (dims : List (Nat × Nat))
    (skipchannels nbMeta maxSize : Nat) : List Nat :=
  ((List.range' skipchannels (dims.length - skipchannels)).takeWhile
      fun k => !decide (chanStops dims nbMeta maxSize k)).filter
    fun k => decide (chanNonEmpty dims k)

theorem encode_decode_loop_eq (dims : List (Nat × Nat))
    (nbMeta maxSize : Nat) : ∀ i,
    encodeChannelLoop dims nbMeta maxSize i =
      decodeChannelLoop dims nbMeta maxSize i := by
  have H : ∀ n i, dims.length - i = n →
      encodeChannelLoop dims nbMeta maxSize i =
        decodeChannelLoop dims nbMeta maxSize i := by
    intro n
    induction n using Nat.strong_induction_on with
    | _ n ih =>
      intro i hn
      rw [encodeChannelLoop, decodeChannelLoop]
      split <;> rename_i hlt
      · have hrec := ih (dims.length - (i + 1)) (by omega) (i + 1) rfl
        split
        · exact hrec
        · split
          · rfl
          · rw [hrec]
      · rfl
  intro i
  exact H _ i rfl

theorem encode_loop_spec (dims : List (Nat × Nat)) (nbMeta maxSize : Nat) :
    ∀ i,
    encodeChannelLoop dims nbMeta maxSize i =
      ((List.range' i (dims.length - i)).takeWhile
          fun k => !decide (chanStops dims nbMeta maxSize k)).filter
        fun k => decide (chanNonEmpty dims k) := by
  suffices H : ∀ n i, dims.length - i = n →
      encodeChannelLoop dims nbMeta maxSize i =
        ((List.range' i (dims.length - i)).takeWhile
            fun k => !decide (chanStops dims nbMeta maxSize k)).filter
          fun k => decide (chanNonEmpty dims k) by
    intro i
    exact H _ i rfl
  intro n
  induction n using Nat.strong_induction_on with
  | _ n ih =>
    intro i hn
    rw [encodeChannelLoop]
    split <;> rename_i hlt
    · have hlen : dims.length - i = (dims.length - (i + 1)) + 1 := by omega
      rw [hlen, List.range'_succ]
      have hrec := ih (dims.length - (i + 1)) (by omega) (i + 1) rfl
      split <;> rename_i hempty
      · have hne : ¬chanNonEmpty dims i := by
          rcases hempty with h | h
          · exact fun hc => hc.1 h
          · exact fun hc => hc.2 h
        have hns : ¬chanStops dims nbMeta maxSize i :=
          fun hc => hne hc.1
        rw [List.takeWhile_cons, if_pos (by simp [hns]), List.filter_cons,
          if_neg (by simp [hne])]
        exact hrec
      · push_neg at hempty
        have hne : chanNonEmpty dims i := ⟨hempty.1, hempty.2⟩
        split <;> rename_i hbig
        · have hst : chanStops dims nbMeta maxSize i :=
            ⟨hne, hbig.1, hbig.2⟩
          rw [List.takeWhile_cons, if_neg (by simp [hst])]
          simp
        · have hns : ¬chanStops dims nbMeta maxSize i :=
            fun hc => hbig ⟨hc.2.1, hc.2.2⟩
          rw [List.takeWhile_cons, if_pos (by simp [hns]), List.filter_cons,
            if_pos (by simp [hne])]
          rw [hrec]
    · have hlen : dims.length - i = 0 := by omega
      rw [hlen]
      simp

/-- C3: the encoder's channel loop and the decoder's channel loop select
the identical ordered list of coded channel indices, and that list is: from
`skipchannels` upward, skipping channels with `w == 0` or `h == 0`, cut at
the first index `i ≥ nb_meta_channels` whose channel has
`w > max_chan_size` or `h > max_chan_size` (iteration stops there — the
too-large channel and everything after it are dropped, not skipped). -/
theorem channel_iteration_invariant (dims : List (Nat × Nat))
    (skipchannels nbMeta maxSize : Nat) :
    encodeCodedChannels dims skipchannels nbMeta maxSize =
        decodeCodedChannels dims skipchannels nbMeta maxSize ∧
      encodeCodedChannels dims skipchannels nbMeta maxSize =
        specChannelList dims skipchannels nbMeta maxSize := by
  refine ⟨encode_decode_loop_eq dims nbMeta maxSize skipchannels, ?_⟩
  exact encode_loop_spec dims nbMeta maxSize skipchannels

end JxlModular

namespace JxlModular

/-! ## GatherTreeData sampling (`encoding.cc` lines 589–653)

Per channel, `GatherTreeData` seeds a local xorshift128+ generator with
fixed constants and appends one sample row (all predictor residuals plus
the property vector) per pixel for which `use_sample()` returns true.
With `nb_repeats == 0`, `pixel_fraction` is exactly `0.0` (the
`pixel_fraction > 0` guard skips the 1024-sample floor) and
`threshold = (UINT64_MAX >> 32) * 0.0 = 0`. -/

/-- `2^64`, the modulus of the C++ `uint64_t` arithmetic. -/
def M64 : Nat := 2 ^ 64

/-- One call of the `use_sample` lambda's generator update: returns the
updated state `(s[0], s[1])` and the 64-bit `bits` value drawn. -/
def xsStep (s : Nat × Nat) : (Nat × Nat) × Nat :=
  let s1 := s.1
  let s0 := s.2
  let bits := (s1 + s0) % M64
  let s1a := s1 ^^^ (s1 <<< 23 % M64)
  let s1b := s1a ^^^ s0 ^^^ (s1a >>> 18) ^^^ (s0 >>> 5)
  ((s0, s1b), bits)

/-- The fixed seed `{0x94D049BB133111EB, 0xBF58476D1CE4E5B9}`. -/
def xsSeed : Nat × Nat := (0x94D049BB133111EB, 0xBF58476D1CE4E5B9)

/-- The `bits` value of the `n`-th `use_sample()` call starting from
state `s`. -/
def xsDrawFrom (s : Nat × Nat) : Nat → Nat
  | 0 => (xsStep s).2
  | n + 1 => xsDrawFrom (xsStep s).1 n

/-- The sampling decision of `use_sample()`: `(bits >> 32) <= threshold`. -/
def useSample (threshold bits : Nat) : Bool :=
  decide (bits >>> 32 ≤ threshold)

/-- Number of pixels sampled (sample rows appended to `props` and
`residuals`) among the first `n` pixels of a channel. -/
def gatherSampleCount (threshold : Nat) : Nat → (Nat × Nat) → Nat
  | 0, _ => 0
  | n + 1, s =>
    (if useSample threshold (xsStep s).2 then 1 else 0) +
      gatherSampleCount threshold n (xsStep s).1

theorem gatherSampleCount_zero_iff (threshold : Nat) :
    ∀ n s, gatherSampleCount threshold n s = 0 ↔
      ∀ k, k < n → useSample threshold (xsDrawFrom s k) = false := by
  intro n
  induction n with
  | zero => intro s; simp [gatherSampleCount]
  | succ n ih =>
    intro s
    simp only [gatherSampleCount]
    constructor
    · intro h k hk
      have h0 : useSample threshold (xsStep s).2 = false := by
        by_contra hc
        rw [Bool.not_eq_false] at hc
        rw [hc] at h
        simp at h
      have hrest : gatherSampleCount threshold n (xsStep s).1 = 0 := by
        rw [h0] at h
        simpa using h
      cases k with
      | zero => exact h0
      | succ k => exact (ih (xsStep s).1).mp hrest k (by omega)
    · intro h
      have h0 := h 0 (by omega)
      rw [show xsDrawFrom s 0 = (xsStep s).2 from rfl] at h0
      rw [h0, (ih (xsStep s).1).mpr (fun k hk => h (k + 1) (by omega))]
      simp

/-- C8: with `nb_repeats == 0` the threshold is 0, and `GatherTreeData`
appends no samples over a `w*h`-pixel channel exactly when none of the
first `w*h` draws of the fixed-seed xorshift128+ generator has its high
32 bits all zero — `use_sample` compares with `<=`, so a draw whose top
32 bits are zero IS sampled even at threshold 0.  (Externally computed,
the first such draw occurs at index 3464599878, so a channel with at
least 3464599879 pixels does get a sample appended.) -/
theorem gather_nb_repeats_zero_characterization (w h : Nat) :
    gatherSampleCount 0 (w * h) xsSeed = 0 ↔
      ∀ k, k < w * h → ((xsDrawFrom xsSeed k) >>> 32 ≠ 0) := by
  rw [gatherSampleCount_zero_iff 0 (w * h) xsSeed]
  constructor
  · intro h1 k hk
    have := h1 k hk
    simp only [useSample, decide_eq_false_iff_not, Nat.not_le] at this
    omega
  · intro h1 k hk
    have := h1 k hk
    simp only [useSample, decide_eq_false_iff_not, Nat.not_le]
    omega

end JxlModular

namespace JxlModular

/-! ## LearnTree (`encoding.cc` lines 657–734)

The quantizer and the greedy splitter (`ChooseAndQuantizeProperties`,
`ComputeBestTree`) are external collaborators; everything from the
`force_wp_only` clipping onward is abstracted as the `rest` continuation.
The `static_prop_range` fixup (lines 663–667) only rewrites that argument
and does not affect the early return. -/

/-- `Σ PackSigned(residual)` over one residual column (the cost used to
choose the base predictor). -/
def residualCost (rs : List Int) : Nat := (rs.map packSigned).sum

/-- The argmin scan of `LearnTree` (lines 669–680): the index of the
leftmost column with strictly minimal cost (`cost < base_pred_cost ||
i == 0`). -/
def basePred (residuals : List (List Int)) : Nat :=
  (List.range residuals.length).foldl
    (fun best i =>
      if residualCost (residuals.getD i []) <
          residualCost (residuals.getD best []) ∨ i = 0 then i else best) 0

/-- `std::swap(l[i], l[0])`. -/
def swapFront (l : List α) (i : Nat) (d : α) : List α :=
  (l.set i (l.getD 0 d)).set 0 (l.getD i d)

/-- `LearnTree`: swap the cheapest predictor into position 0 (only when
there are several residual columns and the first is non-empty), return a
single default leaf when no samples were gathered, and otherwise hand over
to the quantize-and-split collaborators (`rest`). -/
def learnTree (predictors : List Nat) (props residuals : List (List Int))
    (rest : List Nat → List (List Int) → List (List Int) → Tree) : Tree :=
  let pr :=
    if residuals.length > 1 ∧ residuals.getD 0 [] ≠ [] then
      (swapFront predictors (basePred residuals) 0,
        swapFront residuals (basePred residuals) [])
    else (predictors, residuals)
  if pr.2 = [] ∨ pr.2.getD 0 [] = [] then
    [{ property := -1,
       predictor := pr.1.getD (pr.1.length - 1) 0,
       predictor_offset := 0, multiplier := 1 }]
  else rest pr.1 props pr.2

/-- C10: whenever `LearnTree` is called with no gathered samples (the
residual table is empty, or its first column is empty), it returns a
single-leaf tree whose node has `property == -1`, predictor equal to the
last candidate in the `predictors` list, `predictor_offset == 0` and
`multiplier == 1` — independently of what the full learner would do. -/
theorem learnTree_no_samples (predictors : List Nat)
    (props residuals : List (List Int))
    (rest : List Nat → List (List Int) → List (List Int) → Tree)
    (hpred : predictors ≠ [])
    (hempty : residuals = [] ∨ residuals.getD 0 [] = []) :
    learnTree predictors props residuals rest =
      [{ property := -1, predictor := predictors.getLast hpred,
         predictor_offset := 0, multiplier := 1 }] := by
  have hguard : ¬(residuals.length > 1 ∧ residuals.getD 0 [] ≠ []) := by
    rcases hempty with h | h
    · subst h; simp
    · exact fun hc => hc.2 h
  rw [learnTree]
  simp only [if_neg hguard]
  rw [if_pos hempty]
  have hlast : predictors.getD (predictors.length - 1) 0 =
      predictors.getLast hpred := by
    rw [List.getLast_eq_getElem]
    rw [List.getD_eq_getElem?_getD, List.getElem?_eq_getElem
      (by cases predictors with
        | nil => exact absurd rfl hpred
        | cons a l => simp)]
    rfl
  rw [hlast]

/-- C10 witness at a concrete call: two candidate predictors, empty
residual table. -/
theorem learnTree_no_samples_witness :
    ((([5, predWeighted] : List Nat) ≠ []) ∧
      (([] : List (List Int)) = [] ∨
        ([] : List (List Int)).getD 0 [] = [])) ∧
      learnTree [5, predWeighted] [] [] (fun _ _ _ => []) =
        [{ property := -1, predictor := predWeighted,
           predictor_offset := 0, multiplier := 1 }] :=
  ⟨⟨by decide, Or.inl rfl⟩, by
    rw [learnTree_no_samples [5, predWeighted] [] []
      (fun _ _ _ => []) (by decide) (Or.inl rfl)]
    rfl⟩

end JxlModular

namespace JxlModular

/-! ## The WP-only fast-path range walks

`DecodeModularChannelMAANS` (lines 377–432) and
`EncodeModularChannelMAANS` (lines 192–245) each precompute, when the
filtered tree is WP-only, a lookup table indexed by the clamped WP
property, by walking the flat tree's decision regions as half-open
intervals `(begin, end]` kept on a LIFO stack.  The fields `writes`,
`visited` and `fuelOut` of the walk states are proof instrumentation
(write log, pop log, fuel-exhaustion marker); they mirror no C++ state. -/

/-- A `TreeRange` of the walks: `lo` is the C++ `begin` (excluded), `hi`
the C++ `end` (included), `pos` the flat node index. -/
structure TreeRange where
  lo : Int
  hi : Int
  pos : Nat
deriving Repr, DecidableEq

/-- The integers `i` with `lo < i ≤ hi` (the leaf write loop bounds). -/
def intRangeIdx (lo hi : Int) : List Int :=
  (List.range (hi - lo).toNat).map fun k => lo + 1 + Int.ofNat k

/-- The child ranges pushed for an inner node at region `cur`, in C++ push
order (the `> side of top node` first, then the `<= side`). -/
def walkPushes (node : FlatDecisionNode) (cur : TreeRange) : List TreeRange :=
  (if node.properties.1 ≥ (kNumStaticProperties : Int) then
    [⟨node.splitvals.1, cur.hi, node.childID⟩,
     ⟨node.splitval0, node.splitvals.1, node.childID + 1⟩]
  else
    [⟨node.splitval0, cur.hi, node.childID⟩]) ++
  (if node.properties.2 ≥ (kNumStaticProperties : Int) then
    [⟨node.splitvals.2, node.splitval0, node.childID + 2⟩,
     ⟨cur.lo, node.splitvals.2, node.childID + 3⟩]
  else
    [⟨cur.lo, node.splitval0, node.childID + 2⟩])

/-- The range check of both walks: a popped region fails when
`begin < -kWPPropRange - 1`, `begin >= kWPPropRange - 1`, or
`end > kWPPropRange - 1`. -/
def rangeFails (cur : TreeRange) : Prop :=
  cur.lo < -kWPPropRange - 1 ∨ cur.lo ≥ kWPPropRange - 1 ∨
    cur.hi > kWPPropRange - 1

instance (cur : TreeRange) : Decidable (rangeFails cur) := by
  unfold rangeFails; infer_instance

/-- State of the decoder's walk: the `is_wp_only` flag, the three tables
(indexed as in C++ by `i + kWPPropRange`), and ghost fields. -/
structure DecWalk where
  wpOnly : Bool
  ctxT : Int → Nat
  multT : Int → Int
  offT : Int → Int
  writes : List Int
  visited : List TreeRange
  fuelOut : Bool

/-- Initial decoder walk state: zeroed tables (the C++ arrays are
zero-initialized), `is_wp_only` true. -/
def decInit : DecWalk :=
  { wpOnly := true, ctxT := fun _ => 0, multT := fun _ => 0,
    offT := fun _ => 0, writes := [], visited := [], fuelOut := false }

/-- The decoder's range walk (lines 387–431). -/
def decWalk (F : FlatTree) : Nat → List TreeRange → DecWalk → DecWalk
  | 0, _, st => { st with fuelOut := true }
  | _ + 1, [], st => st
  | fuel + 1, cur :: ranges, st =>
    let st1 := { st with visited := st.visited ++ [cur] }
    if rangeFails cur then
      { st1 with wpOnly := false }
    else
      let node := flatAt F cur.pos
      if node.property0 = -1 then
        if node.predictor_offset < -128 ∨ node.predictor_offset > 127 then
          { st1 with wpOnly := false }
        else
          decWalk F fuel ranges
            { st1 with
              ctxT := fun p =>
                if cur.lo < p - kWPPropRange ∧ p - kWPPropRange ≤ cur.hi
                then node.childID else st1.ctxT p,
              multT := fun p =>
                if cur.lo < p - kWPPropRange ∧ p - kWPPropRange ≤ cur.hi
                then node.multiplier else st1.multT p,
              offT := fun p =>
                if cur.lo < p - kWPPropRange ∧ p - kWPPropRange ≤ cur.hi
                then node.predictor_offset else st1.offT p,
              writes := st1.writes ++
                (intRangeIdx cur.lo cur.hi).map fun i => i + kWPPropRange }
      else
        decWalk F fuel ((walkPushes node cur).reverse ++ ranges) st1

/-- State of the encoder's walk: only the context table is built. -/
structure EncWalk where
  wpOnly : Bool
  ctxT : Int → Nat
  writes : List Int
  visited : List TreeRange
  fuelOut : Bool

/-- Initial encoder walk state. -/
def encInit : EncWalk :=
  { wpOnly := true, ctxT := fun _ => 0, writes := [], visited := [],
    fuelOut := false }

/-- The encoder's range walk (lines 201–244); its leaf check additionally
requires `multiplier == 1` and `predictor_offset == 0`. -/
def encWalk (F : FlatTree) : Nat → List TreeRange → EncWalk → EncWalk
  | 0, _, st => { st with fuelOut := true }
  | _ + 1, [], st => st
  | fuel + 1, cur :: ranges, st =>
    let st1 := { st with visited := st.visited ++ [cur] }
    if rangeFails cur then
      { st1 with wpOnly := false }
    else
      let node := flatAt F cur.pos
      if node.property0 = -1 then
        if node.predictor_offset < -128 ∨ node.predictor_offset > 127 ∨
            node.multiplier ≠ 1 ∨ node.predictor_offset ≠ 0 then
          { st1 with wpOnly := false }
        else
          encWalk F fuel ranges
            { st1 with
              ctxT := fun p =>
                if cur.lo < p - kWPPropRange ∧ p - kWPPropRange ≤ cur.hi
                then node.childID else st1.ctxT p,
              writes := st1.writes ++
                (intRangeIdx cur.lo cur.hi).map fun i => i + kWPPropRange }
      else
        encWalk F fuel ((walkPushes node cur).reverse ++ ranges) st1

/-- The initial stack: `{-kWPPropRange - 1, kWPPropRange - 1, 0}`. -/
def initRange : TreeRange := ⟨-kWPPropRange - 1, kWPPropRange - 1, 0⟩

/-- The decoder's walk from the initial range. -/
def decWalkInit (F : FlatTree) (fuel : Nat) : DecWalk :=
  decWalk F fuel [initRange] decInit

/-- The encoder's walk from the initial range. -/
def encWalkInit (F : FlatTree) (fuel : Nat) : EncWalk :=
  encWalk F fuel [initRange] encInit

end JxlModular

namespace JxlModular

/-- Leaf acceptance of the decoder walk: the predictor offset fits in
`int8`. -/
def decLeafOk (F : FlatTree) (r : TreeRange) : Prop :=
  (flatAt F r.pos).property0 = -1 →
    ¬((flatAt F r.pos).predictor_offset < -128 ∨
      (flatAt F r.pos).predictor_offset > 127)

instance (F : FlatTree) (r : TreeRange) : Decidable (decLeafOk F r) := by
  unfold decLeafOk; infer_instance

/-- Leaf acceptance of the encoder walk: offset in `int8`, `multiplier`
one and offset zero. -/
def encLeafOk (F : FlatTree) (r : TreeRange) : Prop :=
  (flatAt F r.pos).property0 = -1 →
    ¬((flatAt F r.pos).predictor_offset < -128 ∨
      (flatAt F r.pos).predictor_offset > 127 ∨
      (flatAt F r.pos).multiplier ≠ 1 ∨
      (flatAt F r.pos).predictor_offset ≠ 0)

instance (F : FlatTree) (r : TreeRange) : Decidable (encLeafOk F r) := by
  unfold encLeafOk; infer_instance

/-- A popped region that keeps the decoder walk alive. -/
def decRangeOk (F : FlatTree) (r : TreeRange) : Prop :=
  ¬rangeFails r ∧ decLeafOk F r

instance (F : FlatTree) (r : TreeRange) : Decidable (decRangeOk F r) := by
  unfold decRangeOk; infer_instance

/-- A popped region that keeps the encoder walk alive. -/
def encRangeOk (F : FlatTree) (r : TreeRange) : Prop :=
  ¬rangeFails r ∧ encLeafOk F r

instance (F : FlatTree) (r : TreeRange) : Decidable (encRangeOk F r) := by
  unfold encRangeOk; infer_instance

theorem decWalk_spec (F : FlatTree) :
    ∀ fuel stack st, (decWalk F fuel stack st).fuelOut = false →
      ∃ d, (decWalk F fuel stack st).visited = st.visited ++ d ∧
        (decWalk F fuel stack st).wpOnly =
          (st.wpOnly && decide (∀ r ∈ d, decRangeOk F r)) := by
  intro fuel
  induction fuel with
  | zero =>
    intro stack st h
    simp [decWalk] at h
  | succ fuel ih =>
    intro stack st h
    match stack with
    | [] =>
      refine ⟨[], by simp [decWalk], ?_⟩
      simp [decWalk]
    | cur :: ranges =>
      simp only [decWalk] at h ⊢
      by_cases hrf : rangeFails cur
      · simp only [if_pos hrf] at h ⊢
        refine ⟨[cur], rfl, ?_⟩
        have hnot : ¬decRangeOk F cur := fun hc => hc.1 hrf
        simp [hnot]
      · simp only [if_neg hrf] at h ⊢
        by_cases hleaf : (flatAt F cur.pos).property0 = -1
        · simp only [if_pos hleaf] at h ⊢
          by_cases hoff : (flatAt F cur.pos).predictor_offset < -128 ∨
              (flatAt F cur.pos).predictor_offset > 127
          · simp only [if_pos hoff] at h ⊢
            refine ⟨[cur], rfl, ?_⟩
            have hnot : ¬decRangeOk F cur := fun hc => (hc.2 hleaf) hoff
            simp [hnot]
          · simp only [if_neg hoff] at h ⊢
            obtain ⟨d, hd, hw⟩ := ih _ _ h
            simp only at hd hw
            refine ⟨cur :: d, ?_, ?_⟩
            · rw [hd, List.append_assoc]; rfl
            · rw [hw]
              have hok : decRangeOk F cur := ⟨hrf, fun _ => hoff⟩
              by_cases hall : ∀ r ∈ d, decRangeOk F r
              · simp [hok, hall]
              · have hnall : ¬∀ r ∈ cur :: d, decRangeOk F r := by
                  intro hc
                  exact hall fun r hr => hc r (List.mem_cons_of_mem _ hr)
                simp [hall, hnall]
        · simp only [if_neg hleaf] at h ⊢
          obtain ⟨d, hd, hw⟩ := ih _ _ h
          simp only at hd hw
          refine ⟨cur :: d, ?_, ?_⟩
          · rw [hd, List.append_assoc]; rfl
          · rw [hw]
            have hok : decRangeOk F cur := ⟨hrf, fun hc => absurd hc hleaf⟩
            by_cases hall : ∀ r ∈ d, decRangeOk F r
            · simp [hok, hall]
            · have hnall : ¬∀ r ∈ cur :: d, decRangeOk F r := by
                intro hc
                exact hall fun r hr => hc r (List.mem_cons_of_mem _ hr)
              simp [hall, hnall]

theorem encWalk_spec (F : FlatTree) :
    ∀ fuel stack st, (encWalk F fuel stack st).fuelOut = false →
      ∃ d, (encWalk F fuel stack st).visited = st.visited ++ d ∧
        (encWalk F fuel stack st).wpOnly =
          (st.wpOnly && decide (∀ r ∈ d, encRangeOk F r)) := by
  intro fuel
  induction fuel with
  | zero =>
    intro stack st h
    simp [encWalk] at h
  | succ fuel ih =>
    intro stack st h
    match stack with
    | [] =>
      refine ⟨[], by simp [encWalk], ?_⟩
      simp [encWalk]
    | cur :: ranges =>
      simp only [encWalk] at h ⊢
      by_cases hrf : rangeFails cur
      · simp only [if_pos hrf] at h ⊢
        refine ⟨[cur], rfl, ?_⟩
        have hnot : ¬encRangeOk F cur := fun hc => hc.1 hrf
        simp [hnot]
      · simp only [if_neg hrf] at h ⊢
        by_cases hleaf : (flatAt F cur.pos).property0 = -1
        · simp only [if_pos hleaf] at h ⊢
          by_cases hoff : (flatAt F cur.pos).predictor_offset < -128 ∨
              (flatAt F cur.pos).predictor_offset > 127 ∨
              (flatAt F cur.pos).multiplier ≠ 1 ∨
              (flatAt F cur.pos).predictor_offset ≠ 0
          · simp only [if_pos hoff] at h ⊢
            refine ⟨[cur], rfl, ?_⟩
            have hnot : ¬encRangeOk F cur := fun hc => (hc.2 hleaf) hoff
            simp [hnot]
          · simp only [if_neg hoff] at h ⊢
            obtain ⟨d, hd, hw⟩ := ih _ _ h
            simp only at hd hw
            refine ⟨cur :: d, ?_, ?_⟩
            · rw [hd, List.append_assoc]; rfl
            · rw [hw]
              have hok : encRangeOk F cur := ⟨hrf, fun _ => hoff⟩
              by_cases hall : ∀ r ∈ d, encRangeOk F r
              · simp [hok, hall]
              · have hnall : ¬∀ r ∈ cur :: d, encRangeOk F r := by
                  intro hc
                  exact hall fun r hr => hc r (List.mem_cons_of_mem _ hr)
                simp [hall, hnall]
        · simp only [if_neg hleaf] at h ⊢
          obtain ⟨d, hd, hw⟩ := ih _ _ h
          simp only at hd hw
          refine ⟨cur :: d, ?_, ?_⟩
          · rw [hd, List.append_assoc]; rfl
          · rw [hw]
            have hok : encRangeOk F cur := ⟨hrf, fun hc => absurd hc hleaf⟩
            by_cases hall : ∀ r ∈ d, encRangeOk F r
            · simp [hok, hall]
            · have hnall : ¬∀ r ∈ cur :: d, encRangeOk F r := by
                intro hc
                exact hall fun r hr => hc r (List.mem_cons_of_mem _ hr)
              simp [hall, hnall]

end JxlModular

namespace JxlModular

theorem intRangeIdx_mem {lo hi i : Int} (h : i ∈ intRangeIdx lo hi) :
    lo < i ∧ i ≤ hi := by
  simp only [intRangeIdx, List.mem_map, List.mem_range,
    Int.ofNat_eq_natCast] at h
  obtain ⟨k, hk, rfl⟩ := h
  omega

theorem decWalk_writes_bounded (F : FlatTree) :
    ∀ fuel stack st,
      (∀ w ∈ st.writes, 0 ≤ w ∧ w < 2 * kWPPropRange) →
      ∀ w ∈ (decWalk F fuel stack st).writes, 0 ≤ w ∧ w < 2 * kWPPropRange := by
  intro fuel
  induction fuel with
  | zero => intro stack st hst; simpa [decWalk] using hst
  | succ fuel ih =>
    intro stack st hst
    match stack with
    | [] => simpa [decWalk] using hst
    | cur :: ranges =>
      simp only [decWalk]
      by_cases hrf : rangeFails cur
      · simp only [if_pos hrf]; exact hst
      · simp only [if_neg hrf]
        by_cases hleaf : (flatAt F cur.pos).property0 = -1
        · simp only [if_pos hleaf]
          by_cases hoff : (flatAt F cur.pos).predictor_offset < -128 ∨
              (flatAt F cur.pos).predictor_offset > 127
          · simp only [if_pos hoff]; exact hst
          · simp only [if_neg hoff]
            apply ih
            intro w hw
            simp only [List.mem_append] at hw
            rcases hw with hw | hw
            · exact hst w hw
            · simp only [List.mem_map] at hw
              obtain ⟨i, hi, rfl⟩ := hw
              have hb := intRangeIdx_mem hi
              unfold rangeFails at hrf
              push_neg at hrf
              simp only [kWPPropRange] at hrf hb ⊢
              omega
        · simp only [if_neg hleaf]
          exact ih _ _ hst

/-- Pairing invariant of the walk stack: every stacked region escaping
below the property range has, strictly deeper in the stack, a region whose
`begin` already violates the range check. -/
def PairInv (stack : List TreeRange) : Prop :=
  ∀ u r l, stack = u ++ r :: l → r.hi < -kWPPropRange - 1 →
    ∃ x ∈ l, x.lo < -kWPPropRange - 1

theorem pairInv_tail {x : TreeRange} {s : List TreeRange}
    (h : PairInv (x :: s)) : PairInv s :=
  fun u r l hs hr => h (x :: u) r l (by rw [hs]; rfl) hr

theorem pairInv_cons {x : TreeRange} {s : List TreeRange} (h : PairInv s)
    (hx : x.hi < -kWPPropRange - 1 → ∃ y ∈ s, y.lo < -kWPPropRange - 1) :
    PairInv (x :: s) := by
  intro u r l hs hr
  match u, hs with
  | [], hs =>
    injection hs with h1 h2
    subst h1; subst h2
    exact hx hr
  | u0 :: u', hs =>
    injection hs with h1 h2
    exact h u' r l h2 hr

theorem decWalk_doomed (F : FlatTree) :
    ∀ fuel stack st, (∃ r ∈ stack, r.lo < -kWPPropRange - 1) →
      (decWalk F fuel stack st).fuelOut = false →
      (decWalk F fuel stack st).wpOnly = false := by
  intro fuel
  induction fuel with
  | zero => intro stack st _ h; simp [decWalk] at h
  | succ fuel ih =>
    intro stack st hwit h
    match stack with
    | [] => simp at hwit
    | cur :: ranges =>
      simp only [decWalk] at h ⊢
      by_cases hrf : rangeFails cur
      · simp only [if_pos hrf]
      · simp only [if_neg hrf] at h ⊢
        have hwit' : ∃ r ∈ ranges, r.lo < -kWPPropRange - 1 := by
          obtain ⟨r, hr, hlo⟩ := hwit
          rcases List.mem_cons.mp hr with rfl | hr
          · exact absurd (Or.inl hlo) hrf
          · exact ⟨r, hr, hlo⟩
        by_cases hleaf : (flatAt F cur.pos).property0 = -1
        · simp only [if_pos hleaf] at h ⊢
          by_cases hoff : (flatAt F cur.pos).predictor_offset < -128 ∨
              (flatAt F cur.pos).predictor_offset > 127
          · simp only [if_pos hoff]
          · simp only [if_neg hoff] at h ⊢
            exact ih _ _ hwit' h
        · simp only [if_neg hleaf] at h ⊢
          apply ih _ _ ?_ h
          obtain ⟨r, hr, hlo⟩ := hwit'
          exact ⟨r, List.mem_append_right _ hr, hlo⟩

end JxlModular

namespace JxlModular

theorem pairInv_nil : PairInv [] := by
  intro u r l h _
  have := congrArg List.length h
  simp at this
  omega

theorem pairInv_pushes {node : FlatDecisionNode} {cur : TreeRange}
    {ranges : List TreeRange} (h : PairInv ranges)
    (hhi : ¬cur.hi < -kWPPropRange - 1) :
    PairInv ((walkPushes node cur).reverse ++ ranges) := by
  unfold walkPushes
  by_cases h1 : node.properties.1 ≥ (kNumStaticProperties : Int) <;>
    by_cases h2 : node.properties.2 ≥ (kNumStaticProperties : Int)
  · rw [if_pos h1, if_pos h2]
    simp only [List.reverse_append, List.reverse_cons, List.reverse_nil,
      List.nil_append, List.cons_append, List.append_assoc]
    exact
      pairInv_cons
        (pairInv_cons
          (pairInv_cons
            (pairInv_cons h (fun hc => absurd hc hhi))
            (fun hc =>
              ⟨⟨node.splitvals.1, cur.hi, node.childID⟩, by simp, hc⟩))
          (fun hc =>
            ⟨⟨node.splitval0, node.splitvals.1, node.childID + 1⟩,
              by simp, hc⟩))
        (fun hc =>
          ⟨⟨node.splitvals.2, node.splitval0, node.childID + 2⟩,
            by simp, hc⟩)
  · rw [if_pos h1, if_neg h2]
    simp only [List.reverse_append, List.reverse_cons, List.reverse_nil,
      List.nil_append, List.cons_append, List.append_assoc]
    exact
      pairInv_cons
        (pairInv_cons
          (pairInv_cons h (fun hc => absurd hc hhi))
          (fun hc =>
            ⟨⟨node.splitvals.1, cur.hi, node.childID⟩, by simp, hc⟩))
        (fun hc =>
          ⟨⟨node.splitval0, node.splitvals.1, node.childID + 1⟩,
            by simp, hc⟩)
  · rw [if_neg h1, if_pos h2]
    simp only [List.reverse_append, List.reverse_cons, List.reverse_nil,
      List.nil_append, List.cons_append, List.append_assoc]
    exact
      pairInv_cons
        (pairInv_cons
          (pairInv_cons h (fun hc => absurd hc hhi))
          (fun hc =>
            ⟨⟨node.splitval0, cur.hi, node.childID⟩, by simp, hc⟩))
        (fun hc =>
          ⟨⟨node.splitvals.2, node.splitval0, node.childID + 2⟩,
            by simp, hc⟩)
  · rw [if_neg h1, if_neg h2]
    simp only [List.reverse_append, List.reverse_cons, List.reverse_nil,
      List.nil_append, List.cons_append, List.append_assoc]
    exact
      pairInv_cons
        (pairInv_cons h (fun hc => absurd hc hhi))
        (fun hc =>
          ⟨⟨node.splitval0, cur.hi, node.childID⟩, by simp, hc⟩)

/-- A region whose two bounds lie within `[-kWPPropRange-1, kWPPropRange-1]`. -/
def RangeWithin (r : TreeRange) : Prop :=
  -kWPPropRange - 1 ≤ r.lo ∧ r.lo ≤ kWPPropRange - 1 ∧
    -kWPPropRange - 1 ≤ r.hi ∧ r.hi ≤ kWPPropRange - 1

instance (r : TreeRange) : Decidable (RangeWithin r) := by
  unfold RangeWithin; infer_instance

theorem decWalk_visited_ok (F : FlatTree) :
    ∀ fuel stack st, PairInv stack →
      (decWalk F fuel stack st).fuelOut = false →
      (decWalk F fuel stack st).wpOnly = true →
      ∀ r ∈ (decWalk F fuel stack st).visited,
        r ∈ st.visited ∨ RangeWithin r := by
  intro fuel
  induction fuel with
  | zero =>
    intro stack st _ h
    simp [decWalk] at h
  | succ fuel ih =>
    intro stack st hpair h hwp r hr
    match stack with
    | [] =>
      simp only [decWalk] at hr
      exact Or.inl hr
    | cur :: ranges =>
      simp only [decWalk] at h hwp hr
      by_cases hrf : rangeFails cur
      · rw [if_pos hrf] at hwp
        simp at hwp
      · rw [if_neg hrf] at h hwp hr
        by_cases hleaf : (flatAt F cur.pos).property0 = -1
        · rw [if_pos hleaf] at h hwp hr
          by_cases hoff : (flatAt F cur.pos).predictor_offset < -128 ∨
              (flatAt F cur.pos).predictor_offset > 127
          · rw [if_pos hoff] at hwp
            simp at hwp
          · rw [if_neg hoff] at h hwp hr
            have hhi : ¬cur.hi < -kWPPropRange - 1 := by
              intro hc
              obtain ⟨x, hx, hxlo⟩ := hpair [] cur ranges rfl hc
              have := decWalk_doomed F fuel ranges _ ⟨x, hx, hxlo⟩ h
              rw [this] at hwp
              exact Bool.noConfusion hwp
            have := ih ranges _ (pairInv_tail hpair) h hwp r hr
            rcases this with hin | hok
            · simp only [List.mem_append, List.mem_singleton] at hin
              rcases hin with hin | rfl
              · exact Or.inl hin
              · right
                unfold rangeFails at hrf
                push_neg at hrf
                exact ⟨hrf.1, by have := hrf.2.1; omega, by omega, hrf.2.2⟩
            · exact Or.inr hok
        · rw [if_neg hleaf] at h hwp hr
          have hhi : ¬cur.hi < -kWPPropRange - 1 := by
            intro hc
            obtain ⟨x, hx, hxlo⟩ := hpair [] cur ranges rfl hc
            have := decWalk_doomed F fuel
              ((walkPushes (flatAt F cur.pos) cur).reverse ++ ranges) _
              ⟨x, List.mem_append_right _ hx, hxlo⟩ h
            rw [this] at hwp
            exact Bool.noConfusion hwp
          have := ih _ _ (pairInv_pushes (pairInv_tail hpair) hhi) h hwp r hr
          rcases this with hin | hok
          · simp only [List.mem_append, List.mem_singleton] at hin
            rcases hin with hin | rfl
            · exact Or.inl hin
            · right
              unfold rangeFails at hrf
              push_neg at hrf
              exact ⟨hrf.1, by have := hrf.2.1; omega, by omega, hrf.2.2⟩
          · exact Or.inr hok

end JxlModular

namespace JxlModular

/-- **C7**: For every flat tree (including ones built from crafted
streams), the decoder's Path-1 range walk writes the
`context_lookup`/`multipliers`/`offsets` tables only at indices in
`[0, 2*kWPPropRange)`, and whenever the walk terminates with the fast
path still enabled every region it processed stayed inside
`[-kWPPropRange-1, kWPPropRange-1]`: a region escaping those bounds
forces `wp_only` off, so it disables the fast path before any
out-of-bounds write could occur. -/
theorem dec_walk_table_safety (F : FlatTree) (fuel : Nat)
    (hf : (decWalkInit F fuel).fuelOut = false) :
    (∀ w ∈ (decWalkInit F fuel).writes, 0 ≤ w ∧ w < 2 * kWPPropRange) ∧
      ((decWalkInit F fuel).wpOnly = true →
        ∀ r ∈ (decWalkInit F fuel).visited, RangeWithin r) := by
  constructor
  · exact decWalk_writes_bounded F fuel [initRange] decInit
      (by intro w hw; simp [decInit] at hw)
  · intro hwp r hr
    have hpair : PairInv [initRange] :=
      pairInv_cons pairInv_nil (fun hc => absurd hc (by decide))
    have := decWalk_visited_ok F fuel [initRange] decInit hpair hf hwp r hr
    rcases this with hin | hok
    · simp [decInit] at hin
    · exact hok

/-- A single-leaf flat tree used to instantiate the walk-safety theorem. -/
def wF7 : FlatTree := [{ property0 := -1 }]

theorem dec_walk_table_safety_witness :
    (decWalkInit wF7 10).fuelOut = false ∧
      (decWalkInit wF7 10).wpOnly = true ∧
      (∀ w ∈ (decWalkInit wF7 10).writes, 0 ≤ w ∧ w < 2 * kWPPropRange) ∧
      ∀ r ∈ (decWalkInit wF7 10).visited, RangeWithin r :=
  ⟨by decide, by decide,
    (dec_walk_table_safety wF7 10 (by decide)).1,
    (dec_walk_table_safety wF7 10 (by decide)).2 (by decide)⟩

end JxlModular

namespace JxlModular

/-! ## The encoder's WP-only fast path gate (`EncodeModularChannelMAANS`
lines 194–248) -/

/-- Authoring tree splitting on the WP property with two Weighted
zero-offset leaves. -/
def wT5 : Tree :=
  [{ property := 15, splitval := 0, lchild := 1, rchild := 2 },
   { property := -1, predictor := predWeighted },
   { property := -1, predictor := predWeighted }]

/-- The filter output of `wT5`. -/
def wSt5 : FilterState := (filterTree wT5 (0, 0) 10).getD filterInit

/-- Authoring tree splitting on the WP property with two Weighted leaves of
`predictor_offset` 5 (inside `[-128, 127]`) and `multiplier` 1. -/
def cxT5 : Tree :=
  [{ property := 15, splitval := 0, lchild := 1, rchild := 2 },
   { property := -1, predictor := predWeighted, predictor_offset := 5 },
   { property := -1, predictor := predWeighted, predictor_offset := 5 }]

/-- The filter output of `cxT5`. -/
def cxSt5 : FilterState := (filterTree cxT5 (0, 0) 10).getD filterInit

/-- C5 counterexample: on `cxT5` all four conditions of the claim hold —
the filtered tree has `wp_only == true`, every region of the encoder's
decision-range walk stays inside `[-kWPPropRange-1, kWPPropRange-1]`,
every leaf's `predictor_offset` lies in `[-128, 127]` and every leaf's
`multiplier` equals 1 — yet the encoder's walk clears `is_wp_only`
(its leaf check also requires `predictor_offset == 0`), so Path 1 is NOT
taken, refuting the claimed equivalence. -/
theorem enc_path1_counterexample :
    filterTree cxT5 (0, 0) 10 = some cxSt5 ∧
      cxSt5.wpOnly = true ∧
      (∀ r ∈ (encWalkInit cxSt5.output 20).visited, RangeWithin r) ∧
      (cxSt5.output.all fun nd => !(nd.property0 == -1) ||
        (decide (-128 ≤ nd.predictor_offset) &&
          decide (nd.predictor_offset ≤ 127) &&
          (nd.multiplier == 1))) = true ∧
      (encWalkInit cxSt5.output 20).fuelOut = false ∧
      (encWalkInit cxSt5.output 20).wpOnly = false := by decide

/-- **C5** (amended): on encode, `EncodeModularChannelMAANS` takes the
WP-only fast path (Path 1) for a channel exactly when the filtered tree
has `wp_only == true` and every region popped by the decision-range walk
passes the range check and, at a leaf, the leaf's `predictor_offset` fits
in `int8`, its `multiplier` equals 1 AND its `predictor_offset` equals 0
(`encRangeOk`); an in-range nonzero offset already disables the path. -/
theorem enc_path1_characterization (t : Tree) (sp : StaticProps)
    (ffuel fuel : Nat) (st : FilterState)
    (_hrun : filterTree t sp ffuel = some st)
    (hf : (encWalkInit st.output fuel).fuelOut = false) :
    (st.wpOnly && (encWalkInit st.output fuel).wpOnly) = true ↔
      (st.wpOnly = true ∧
        ∀ r ∈ (encWalkInit st.output fuel).visited,
          encRangeOk st.output r) := by
  obtain ⟨d, hd, hw⟩ := encWalk_spec st.output fuel [initRange] encInit hf
  have hv : encInit.visited = [] := rfl
  rw [hv, List.nil_append] at hd
  have hwp : encInit.wpOnly = true := rfl
  unfold encWalkInit
  rw [hd, hw, hwp, Bool.true_and, Bool.and_eq_true, decide_eq_true_iff]

theorem enc_path1_characterization_witness :
    filterTree wT5 (0, 0) 10 = some wSt5 ∧
      (encWalkInit wSt5.output 20).fuelOut = false ∧
      wSt5.wpOnly = true ∧
      ((wSt5.wpOnly && (encWalkInit wSt5.output 20).wpOnly) = true ↔
        (wSt5.wpOnly = true ∧
          ∀ r ∈ (encWalkInit wSt5.output 20).visited,
            encRangeOk wSt5.output r)) :=
  ⟨by decide, by decide, by decide,
    enc_path1_characterization wT5 (0, 0) 10 20 wSt5 (by decide) (by decide)⟩

end JxlModular

namespace JxlModular

/-! ## Entry checks of `ModularEncode` (lines 762–781) and
`ModularGenericCompress` (lines 1008–1016) -/

/-- Outcome of the encoder entry points: a failure status, an early
`return true` with nothing encoded, or falling through into the body. -/
inductive EncOutcome where
  | failure
  | emptySuccess
  | proceed
deriving Repr, DecidableEq

/-- The prologue of `ModularEncode`: `if (image.error) return
JXL_FAILURE("Invalid image"); ... if (nb_channels < 1) return true;`. -/
def modularEncodeEntry (error : Bool) (nbChannels : Nat) : EncOutcome :=
  if error then EncOutcome.failure
  else if nbChannels < 1 then EncOutcome.emptySuccess
  else EncOutcome.proceed

/-- The prologue of `ModularGenericCompress`: `if (image.w == 0 ||
image.h == 0) return true;` and then the call into `ModularEncode`. -/
def modularGenericCompress (w h : Nat) (error : Bool) (nbChannels : Nat) :
    EncOutcome :=
  if w = 0 ∨ h = 0 then EncOutcome.emptySuccess
  else modularEncodeEntry error nbChannels

/-- C9 counterexample: an image with `w == 0` (and even with the internal
error flag set) makes `ModularGenericCompress` return success with nothing
encoded, not a failure status, refuting the claim at this concrete
input. -/
theorem invalid_image_counterexample :
    modularGenericCompress 0 7 true 3 = EncOutcome.emptySuccess ∧
      modularGenericCompress 0 7 true 3 ≠ EncOutcome.failure := by decide

/-- **C9** (amended): `ModularGenericCompress` returns a failure status
exactly when both dimensions are nonzero and the image's internal error
flag is set (`ModularEncode` rejects it); an image with `w == 0` or
`h == 0` is instead short-circuited to SUCCESS with nothing encoded, as is
a nonzero-dimension error-free image with no channels. -/
theorem invalid_image_handling (w h : Nat) (error : Bool)
    (nbChannels : Nat) :
    (modularGenericCompress w h error nbChannels = EncOutcome.failure ↔
      w ≠ 0 ∧ h ≠ 0 ∧ error = true) ∧
    (modularGenericCompress w h error nbChannels =
        EncOutcome.emptySuccess ↔
      (w = 0 ∨ h = 0) ∨ (w ≠ 0 ∧ h ≠ 0 ∧ error = false ∧ nbChannels = 0)) := by
  unfold modularGenericCompress modularEncodeEntry
  by_cases h0 : w = 0 ∨ h = 0
  · rw [if_pos h0]
    refine ⟨⟨fun hc => EncOutcome.noConfusion hc, fun hc => ?_⟩,
            ⟨fun _ => Or.inl h0, fun _ => rfl⟩⟩
    rcases h0 with h | h
    · exact absurd h hc.1
    · exact absurd h hc.2.1
  · rw [if_neg h0]
    push_neg at h0
    cases error with
    | false =>
      rw [if_neg Bool.false_ne_true]
      by_cases hn : nbChannels < 1
      · rw [if_pos hn]
        refine ⟨⟨fun hc => EncOutcome.noConfusion hc,
                 fun hc => Bool.noConfusion hc.2.2⟩,
                ⟨fun _ => Or.inr ⟨h0.1, h0.2, rfl, by omega⟩, fun _ => rfl⟩⟩
      · rw [if_neg hn]
        refine ⟨⟨fun hc => EncOutcome.noConfusion hc,
                 fun hc => Bool.noConfusion hc.2.2⟩,
                ⟨fun hc => EncOutcome.noConfusion hc, fun hc => ?_⟩⟩
        rcases hc with hc | hc
        · rcases hc with h | h
          · exact absurd h h0.1
          · exact absurd h h0.2
        · exact absurd hc.2.2.2 (by omega)
    | true =>
      rw [if_pos rfl]
      refine ⟨⟨fun _ => ⟨h0.1, h0.2, rfl⟩, fun _ => rfl⟩,
              ⟨fun hc => EncOutcome.noConfusion hc, fun hc => ?_⟩⟩
      rcases hc with hc | hc
      · rcases hc with h | h
        · exact absurd h h0.1
        · exact absurd h h0.2
      · exact absurd hc.2.2.1 (fun hcc => Bool.noConfusion hcc)

end JxlModular

namespace JxlModular

/-! ## Pixel reconstruction in the decode paths of
`DecodeModularChannelMAANS` -/

/-- WP fast track (line 457): `SaturatingAdd<pixel_type>(UnpackSigned(v) *
multipliers[pos] + offsets[pos], guess)`. -/
def reconWPFast (v : Nat) (mult off guess : Int) : Int :=
  saturatingAdd (unpackSigned v * mult + off) guess

/-- Fastest/Fast tracks (lines 476, 489): single-leaf tree with the Zero
predictor, `SaturatingAdd<pixel_type>(UnpackSigned(v) * multiplier,
offset)`. -/
def reconSingleZero (v : Nat) (mult off : Int) : Int :=
  saturatingAdd (unpackSigned v * mult) off

/-- Quite fast / Somewhat fast tracks (lines 503–506, 521–524):
single-leaf tree, `g = guess + offset` then
`SaturatingAdd<pixel_type>(UnpackSigned(v) * multiplier, g)`. -/
def reconSingleGuess (v : Nat) (mult off guess : Int) : Int :=
  saturatingAdd (unpackSigned v * mult) (guess + off)

/-- Slow / Slowest tracks (lines 545, 565): `SaturatingAdd<pixel_type>(
UnpackSigned(v) * res.multiplier, res.guess)`; modelled from the spec:
`PredictTreeNoWP`/`PredictTreeWP` return `res.guess` equal to the raw
prediction plus the leaf's `predictor_offset`. -/
def reconTree (v : Nat) (mult resGuess : Int) : Int :=
  saturatingAdd (unpackSigned v * mult) resGuess

/-- **C4**: In every decode path of `DecodeModularChannelMAANS`, the
reconstructed pixel equals the saturating add, in the pixel type, of
`UnpackSigned(symbol) * leaf.multiplier` and
`leaf.predictor_offset + prediction`: the Zero-predictor tracks
instantiate it with prediction 0, the guess-plus-offset tracks and the
tree tracks with their respective groupings, and the WP fast track's
grouping `sat_add(UnpackSigned(v) * mult + offset, guess)` yields the
same value. -/
theorem decode_reconstruction_unified (v : Nat) (mult off pred : Int) :
    reconWPFast v mult off pred =
      saturatingAdd (unpackSigned v * mult) (off + pred) ∧
    reconSingleZero v mult off =
      saturatingAdd (unpackSigned v * mult) (off + 0) ∧
    reconSingleGuess v mult off pred =
      saturatingAdd (unpackSigned v * mult) (off + pred) ∧
    reconTree v mult (pred + off) =
      saturatingAdd (unpackSigned v * mult) (off + pred) := by
  refine ⟨?_, ?_, ?_, ?_⟩
  · unfold reconWPFast saturatingAdd
    exact congrArg clampPixel (by ring)
  · unfold reconSingleZero saturatingAdd
    exact congrArg clampPixel (by ring)
  · unfold reconSingleGuess saturatingAdd
    exact congrArg clampPixel (by ring)
  · unfold reconTree saturatingAdd
    exact congrArg clampPixel (by ring)

end JxlModular

namespace JxlModular

/-! ## Round trip: pixel-level core -/

theorem unpack_pack (x : Int) : unpackSigned (packSigned x) = x := by
  unfold packSigned unpackSigned
  by_cases hx : x < 0
  · rw [if_pos hx]
    have hcast : (((-2 * x - 1).toNat : Nat) : Int) = -2 * x - 1 :=
      Int.toNat_of_nonneg (by omega)
    have hodd : (-2 * x - 1).toNat % 2 = 1 := by omega
    rw [if_pos hodd]
    omega
  · rw [if_neg hx]
    have hcast : (((2 * x).toNat : Nat) : Int) = 2 * x :=
      Int.toNat_of_nonneg (by omega)
    have heven : ¬(2 * x).toNat % 2 = 1 := by omega
    rw [if_neg heven]
    omega

/-- Reconstruction inverts residual coding exactly: when the residual is
divisible by the multiplier and the pixel lies in the pixel range, the
decoder's saturating reconstruction returns the original pixel. -/
theorem recon_exact {p g m o gg : Int} (hdvd : m ∣ (p - g))
    (hlo : pixelMin ≤ p) (hhi : p ≤ pixelMax) (ho : o + gg = g) :
    saturatingAdd (unpackSigned (packSigned ((p - g) / m)) * m + o) gg = p := by
  rw [unpack_pack, Int.ediv_mul_cancel hdvd]
  unfold saturatingAdd clampPixel
  have hv : p - g + o + gg = p := by omega
  rw [hv, min_eq_right hhi, max_eq_right hlo]

/-! ## Token transport

Modelled from the spec (§6, out-of-scope collaborators): the ANS entropy
coder transports a sequence of `(context, value)` tokens exactly; a value
written under unclustered context `c` is returned by a read performed with
the clustered context `cmap c`.  Reading with any other context id has no
guaranteed result and is modelled as failure. -/
structure Token where
  ctx : Nat
  val : Nat
deriving Repr, DecidableEq

/-- One read from the token stream with clustered context `c`. -/
def readTok (cmap : Nat → Nat) (c : Nat) (ts : List Token) :
    Option (Nat × List Token) :=
  match ts with
  | [] => none
  | t :: r => if cmap t.ctx = c then some (t.val, r) else none

/-! ## The per-channel coding engine

Both sides of every path of `EncodeModularChannelMAANS` /
`DecodeModularChannelMAANS` are per-pixel loops in raster order; the paths
differ only in how the per-pixel `(context, guess, multiplier, offset)`
selection is computed.  We factor each loop over a selector that maps the
already-coded pixel prefix and the pixel index to that selection. -/

/-- Encoder selector: `(context, guess, multiplier)` per pixel. -/
def EncSel := List Int → Nat → Nat × Int × Int

/-- Decoder selector: `(context, multiplier, offset, guess)` per pixel. -/
def DecSel := List Int → Nat → Nat × Int × Int × Int

/-- The token the encoder emits for pixel `k`: context from the selector,
value `PackSigned((pixel - guess) / multiplier)` (the paths with
multiplier 1 divide by 1). -/
def encTok (s : EncSel) (px : List Int) (k : Nat) : Token :=
  ⟨(s (px.take k) k).1,
    packSigned ((px.getD k 0 - (s (px.take k) k).2.1) / (s (px.take k) k).2.2)⟩

/-- Encoder loop from pixel `j` on. -/
def encFrom (s : EncSel) (px : List Int) (j : Nat) : List Token :=
  if h : j < px.length then encTok s px j :: encFrom s px (j + 1) else []
termination_by px.length - j

/-- The decoder's reconstruction of one pixel:
`sat_add(unpack(v) * multiplier + offset, guess)`. -/
def decStepVal (r : Nat × Int × Int × Int) (v : Nat) : Int :=
  saturatingAdd (unpackSigned v * r.2.1 + r.2.2.1) r.2.2.2

/-- Decoder loop: reconstruct `n` pixels onto the accumulator. -/
def decChanGo (cmap : Nat → Nat) (s : DecSel) :
    Nat → List Token → List Int → Option (List Int × List Token)
  | 0, ts, acc => some (acc, ts)
  | n + 1, ts, acc =>
    match readTok cmap (s acc acc.length).1 ts with
    | none => none
    | some (v, ts2) =>
      decChanGo cmap s n ts2 (acc ++ [decStepVal (s acc acc.length) v])

theorem take_succ_getD {px : List Int} {j : Nat} (h : j < px.length) :
    px.take (j + 1) = px.take j ++ [px.getD j 0] := by
  rw [List.take_succ]
  congr 1
  rw [List.getElem?_eq_getElem h]
  simp [List.getD_eq_getElem?_getD, List.getElem?_eq_getElem h]

/-- Engine round trip: if at every pixel the decoder selector's context is
the clustered encoder context and reconstruction inverts the emitted
token, the decoder returns the original pixels and the untouched rest of
the stream. -/
theorem engine_roundtrip (cmap : Nat → Nat) (es : EncSel) (ds : DecSel)
    (px : List Int) {rest : List Token}
    (hrel : ∀ k, k < px.length →
      (ds (px.take k) k).1 = cmap ((es (px.take k) k).1) ∧
      decStepVal (ds (px.take k) k)
        (packSigned ((px.getD k 0 - (es (px.take k) k).2.1) /
          (es (px.take k) k).2.2)) = px.getD k 0) :
    decChanGo cmap ds px.length (encFrom es px 0 ++ rest) [] =
      some (px, rest) := by
  have main : ∀ n j, j + n = px.length →
      decChanGo cmap ds n (encFrom es px j ++ rest) (px.take j) =
        some (px, rest) := by
    intro n
    induction n with
    | zero =>
      intro j hj
      have hje : j = px.length := by omega
      subst hje
      rw [encFrom]
      rw [dif_neg (by omega)]
      simp [decChanGo, List.take_length]
    | succ n ih =>
      intro j hj
      have hjl : j < px.length := by omega
      rw [encFrom, dif_pos hjl]
      have hlen : (px.take j).length = j := by
        rw [List.length_take]
        omega
      obtain ⟨hctx, hval⟩ := hrel j hjl
      simp only [decChanGo, List.cons_append, readTok, hlen, encTok]
      rw [hctx, if_pos rfl]
      show decChanGo cmap ds n (encFrom es px (j + 1) ++ rest)
        (px.take j ++ [decStepVal (ds (px.take j) j)
          (packSigned ((px.getD j 0 - (es (px.take j) j).2.1) /
            (es (px.take j) j).2.2))]) = some (px, rest)
      rw [hval, ← take_succ_getD hjl]
      exact ih (j + 1) (by omega)
  exact main px.length 0 (by omega)

end JxlModular

namespace JxlModular

/-! ## Decoder-side context clustering

`DecodeModularChannelMAANS` (lines 362–366) remaps the `childID` of every
leaf of the flat tree through the context map before any lookup, so that
tree lookup directly yields clustered context ids. -/

/-- Remap leaf context ids of a flat tree through the context map. -/
def remapFlat (cmap : Nat → Nat) (F : FlatTree) : FlatTree :=
  F.map fun nd =>
    if nd.property0 = -1 then { nd with childID := cmap nd.childID } else nd

/-- Every inner node's four grand-child slots lie inside the tree (an
invariant of `FilterTree` output). -/
def BoundedFlat (F : FlatTree) : Prop :=
  ∀ k, k < F.length → (flatAt F k).property0 ≠ -1 →
    (flatAt F k).childID + 3 < F.length

theorem remapFlat_length (cmap : Nat → Nat) (F : FlatTree) :
    (remapFlat cmap F).length = F.length := by
  simp [remapFlat]

theorem flatAt_remap (cmap : Nat → Nat) {F : FlatTree} {p : Nat}
    (h : p < F.length) :
    flatAt (remapFlat cmap F) p =
      (if (flatAt F p).property0 = -1 then
        { flatAt F p with childID := cmap (flatAt F p).childID }
      else flatAt F p) := by
  unfold flatAt remapFlat
  rw [List.getD_eq_getElem?_getD, List.getD_eq_getElem?_getD,
    List.getElem?_map, List.getElem?_eq_getElem h]
  rfl

/-- The remapped leaf data of a lookup result. -/
def remapLeaf (cmap : Nat → Nat) (L : LeafInfo) : LeafInfo :=
  ⟨L.predictor, L.predictor_offset, L.multiplier, cmap L.ctx⟩

theorem flatLookup_remap (cmap : Nat → Nat) {F : FlatTree} {c : Int → Int}
    (hB : BoundedFlat F) :
    ∀ n pos, pos < F.length →
      flatLookup (remapFlat cmap F) c n pos =
        (flatLookup F c n pos).map (remapLeaf cmap) := by
  intro n
  induction n with
  | zero => intro pos _; simp [flatLookup]
  | succ n ih =>
    intro pos hpos
    simp only [flatLookup]
    rw [flatAt_remap cmap hpos]
    by_cases hleaf : (flatAt F pos).property0 = -1
    · rw [if_pos hleaf]
      simp only [hleaf, if_pos rfl, Option.map_some]
      rfl
    · rw [if_neg hleaf]
      simp only [if_neg hleaf]
      have hb := hB pos hpos hleaf
      apply ih
      have : (if c (flatAt F pos).property0 > (flatAt F pos).splitval0 then
          if c (flatAt F pos).properties.1 > (flatAt F pos).splitvals.1
          then 0 else 1
        else
          if c (flatAt F pos).properties.2 > (flatAt F pos).splitvals.2
          then 2 else 3) ≤ 3 := by
        split <;> split <;> omega
      omega

end JxlModular

namespace JxlModular

theorem intRangeIdx_complete {lo hi v : Int} (h1 : lo < v) (h2 : v ≤ hi) :
    v ∈ intRangeIdx lo hi := by
  simp only [intRangeIdx, List.mem_map, List.mem_range, Int.ofNat_eq_natCast]
  exact ⟨(v - lo - 1).toNat, by omega, by omega⟩


theorem remap_property0 (cmap : Nat → Nat) {F : FlatTree} {p : Nat}
    (h : p < F.length) :
    (flatAt (remapFlat cmap F) p).property0 = (flatAt F p).property0 := by
  rw [flatAt_remap cmap h]
  split <;> rfl

theorem remap_offset (cmap : Nat → Nat) {F : FlatTree} {p : Nat}
    (h : p < F.length) :
    (flatAt (remapFlat cmap F) p).predictor_offset =
      (flatAt F p).predictor_offset := by
  rw [flatAt_remap cmap h]
  split <;> rfl

theorem remap_mult (cmap : Nat → Nat) {F : FlatTree} {p : Nat}
    (h : p < F.length) :
    (flatAt (remapFlat cmap F) p).multiplier = (flatAt F p).multiplier := by
  rw [flatAt_remap cmap h]
  split <;> rfl

theorem remap_predictor (cmap : Nat → Nat) {F : FlatTree} {p : Nat}
    (h : p < F.length) :
    (flatAt (remapFlat cmap F) p).predictor = (flatAt F p).predictor := by
  rw [flatAt_remap cmap h]
  split <;> rfl

theorem remap_inner (cmap : Nat → Nat) {F : FlatTree} {p : Nat}
    (h : p < F.length) (hin : (flatAt F p).property0 ≠ -1) :
    flatAt (remapFlat cmap F) p = flatAt F p := by
  rw [flatAt_remap cmap h, if_neg hin]

theorem remap_leaf_childID (cmap : Nat → Nat) {F : FlatTree} {p : Nat}
    (h : p < F.length) (hl : (flatAt F p).property0 = -1) :
    (flatAt (remapFlat cmap F) p).childID = cmap ((flatAt F p).childID) := by
  rw [flatAt_remap cmap h, if_pos hl]

end JxlModular

namespace JxlModular

/-- Lockstep correspondence of the encoder's and the decoder's Path-1
range walks: when the encoder's walk (on the unclustered flat tree)
completes with the fast path enabled, the decoder's walk on the
leaf-remapped tree completes too, writes the same table positions, and its
tables hold the clustered context, multiplier 1 and offset 0 wherever the
encoder's table was written. -/
theorem walk_lockstep (F : FlatTree) (cmap : Nat → Nat)
    (hB : BoundedFlat F) :
    ∀ fuel stack se sd,
      (∀ r ∈ stack, r.pos < F.length) →
      (encWalk F fuel stack se).fuelOut = false →
      (encWalk F fuel stack se).wpOnly = true →
      sd.wpOnly = true → sd.fuelOut = false →
      sd.writes = se.writes →
      (∀ p : Int, p ∈ se.writes →
        sd.ctxT p = cmap (se.ctxT p) ∧ sd.multT p = 1 ∧ sd.offT p = 0) →
      (decWalk (remapFlat cmap F) fuel stack sd).fuelOut = false ∧
      (decWalk (remapFlat cmap F) fuel stack sd).wpOnly = true ∧
      (decWalk (remapFlat cmap F) fuel stack sd).writes =
        (encWalk F fuel stack se).writes ∧
      (∀ p : Int, p ∈ (encWalk F fuel stack se).writes →
        (decWalk (remapFlat cmap F) fuel stack sd).ctxT p =
          cmap ((encWalk F fuel stack se).ctxT p) ∧
        (decWalk (remapFlat cmap F) fuel stack sd).multT p = 1 ∧
        (decWalk (remapFlat cmap F) fuel stack sd).offT p = 0) := by
  intro fuel
  induction fuel with
  | zero =>
    intro stack se sd _ hf
    simp [encWalk] at hf
  | succ fuel ih =>
    intro stack se sd hstk hf hwp hdw hdf hwr hrel
    match stack with
    | [] =>
      simp only [encWalk, decWalk] at hf hwp ⊢
      exact ⟨hdf, hdw, hwr, hrel⟩
    | cur :: ranges =>
      have hpos : cur.pos < F.length := hstk cur (by simp)
      simp only [encWalk, decWalk] at hf hwp ⊢
      by_cases hrf : rangeFails cur
      · simp only [if_pos hrf] at hwp
        simp at hwp
      · simp only [if_neg hrf] at hf hwp ⊢
        rw [remap_property0 cmap hpos]
        by_cases hleaf : (flatAt F cur.pos).property0 = -1
        · simp only [if_pos hleaf] at hf hwp ⊢
          by_cases hok : (flatAt F cur.pos).predictor_offset < -128 ∨
              (flatAt F cur.pos).predictor_offset > 127 ∨
              (flatAt F cur.pos).multiplier ≠ 1 ∨
              (flatAt F cur.pos).predictor_offset ≠ 0
          · simp only [if_pos hok] at hwp
            simp at hwp
          · simp only [if_neg hok] at hf hwp ⊢
            push_neg at hok
            obtain ⟨ho1, ho2, hm1, ho0⟩ := hok
            rw [remap_offset cmap hpos, remap_mult cmap hpos,
              remap_leaf_childID cmap hpos hleaf]
            rw [if_neg (by omega :
              ¬((flatAt F cur.pos).predictor_offset < -128 ∨
                (flatAt F cur.pos).predictor_offset > 127))]
            apply ih
            · intro r hr; exact hstk r (by simp [hr])
            · exact hf
            · exact hwp
            · exact hdw
            · exact hdf
            · simp only []
              rw [hwr]
            · intro p hp
              simp only [List.mem_append] at hp
              by_cases hin : cur.lo < p - kWPPropRange ∧
                  p - kWPPropRange ≤ cur.hi
              · simp only [if_pos hin]
                exact ⟨by trivial, hm1, ho0⟩
              · simp only [if_neg hin]
                rcases hp with hp | hp
                · exact hrel p hp
                · exfalso
                  simp only [List.mem_map] at hp
                  obtain ⟨i, hi, hie⟩ := hp
                  have := intRangeIdx_mem hi
                  exact hin ⟨by omega, by omega⟩
        · simp only [if_neg hleaf] at hf hwp ⊢
          rw [remap_inner cmap hpos hleaf]
          apply ih
          · intro r hr
            simp only [List.mem_append] at hr
            rcases hr with hr | hr
            · rw [List.mem_reverse] at hr
              have hb := hB cur.pos hpos hleaf
              unfold walkPushes at hr
              simp only [List.mem_append] at hr
              rcases hr with hr | hr <;> split at hr <;>
                simp only [List.mem_cons, List.not_mem_nil, or_false] at hr <;>
                rcases hr with rfl | rfl <;> simp only [] <;> omega
            · exact hstk r (by simp [hr])
          · exact hf
          · exact hwp
          · exact hdw
          · exact hdf
          · exact hwr
          · exact hrel

end JxlModular

namespace JxlModular

theorem encWalk_writes_mono (F : FlatTree) :
    ∀ fuel stack st w, w ∈ st.writes →
      w ∈ (encWalk F fuel stack st).writes := by
  intro fuel
  induction fuel with
  | zero => intro stack st w hw; simpa [encWalk] using hw
  | succ fuel ih =>
    intro stack st w hw
    match stack with
    | [] => simpa [encWalk] using hw
    | cur :: ranges =>
      simp only [encWalk]
      by_cases hrf : rangeFails cur
      · simp only [if_pos hrf]; exact hw
      · simp only [if_neg hrf]
        by_cases hleaf : (flatAt F cur.pos).property0 = -1
        · simp only [if_pos hleaf]
          by_cases hok : (flatAt F cur.pos).predictor_offset < -128 ∨
              (flatAt F cur.pos).predictor_offset > 127 ∨
              (flatAt F cur.pos).multiplier ≠ 1 ∨
              (flatAt F cur.pos).predictor_offset ≠ 0
          · simp only [if_pos hok]; exact hw
          · simp only [if_neg hok]
            exact ih _ _ w (by simp [hw])
        · simp only [if_neg hleaf]
          exact ih _ _ w hw

theorem walkPushes_cover {node : FlatDecisionNode} {cur : TreeRange}
    {i : Int} (h1 : cur.lo < i) (h2 : i ≤ cur.hi) :
    ∃ r ∈ walkPushes node cur, r.lo < i ∧ i ≤ r.hi := by
  unfold walkPushes
  by_cases htop : i > node.splitval0
  · by_cases hp1 : node.properties.1 ≥ (kNumStaticProperties : Int)
    · rw [if_pos hp1]
      by_cases hs1 : i > node.splitvals.1
      · exact ⟨⟨node.splitvals.1, cur.hi, node.childID⟩,
          by simp, by simp; omega⟩
      · exact ⟨⟨node.splitval0, node.splitvals.1, node.childID + 1⟩,
          by simp, by simp; omega⟩
    · rw [if_neg hp1]
      exact ⟨⟨node.splitval0, cur.hi, node.childID⟩,
        by simp, by simp; omega⟩
  · by_cases hp2 : node.properties.2 ≥ (kNumStaticProperties : Int)
    · rw [if_pos hp2]
      by_cases hs2 : i > node.splitvals.2
      · exact ⟨⟨node.splitvals.2, node.splitval0, node.childID + 2⟩,
          by simp, by simp; omega⟩
      · exact ⟨⟨cur.lo, node.splitvals.2, node.childID + 3⟩,
          by simp, by simp; omega⟩
    · rw [if_neg hp2]
      exact ⟨⟨cur.lo, node.splitval0, node.childID + 2⟩,
        by simp, by simp; omega⟩

/-- A successful encoder walk fills every table position covered by a
stacked region. -/
theorem encWalk_coverage (F : FlatTree) :
    ∀ fuel stack st,
      (encWalk F fuel stack st).fuelOut = false →
      (encWalk F fuel stack st).wpOnly = true →
      ∀ i : Int, (∃ r ∈ stack, r.lo < i ∧ i ≤ r.hi) →
        (i + kWPPropRange) ∈ (encWalk F fuel stack st).writes := by
  intro fuel
  induction fuel with
  | zero =>
    intro stack st hf
    simp [encWalk] at hf
  | succ fuel ih =>
    intro stack st hf hwp i hwit
    match stack with
    | [] => simp at hwit
    | cur :: ranges =>
      simp only [encWalk] at hf hwp ⊢
      by_cases hrf : rangeFails cur
      · simp only [if_pos hrf] at hwp
        simp at hwp
      · simp only [if_neg hrf] at hf hwp ⊢
        by_cases hleaf : (flatAt F cur.pos).property0 = -1
        · simp only [if_pos hleaf] at hf hwp ⊢
          by_cases hok : (flatAt F cur.pos).predictor_offset < -128 ∨
              (flatAt F cur.pos).predictor_offset > 127 ∨
              (flatAt F cur.pos).multiplier ≠ 1 ∨
              (flatAt F cur.pos).predictor_offset ≠ 0
          · simp only [if_pos hok] at hwp
            simp at hwp
          · simp only [if_neg hok] at hf hwp ⊢
            obtain ⟨r, hr, hrlo, hrhi⟩ := hwit
            rcases List.mem_cons.mp hr with rfl | hr
            · apply encWalk_writes_mono
              simp only [List.mem_append]
              right
              simp only [List.mem_map]
              exact ⟨i, intRangeIdx_complete hrlo hrhi, rfl⟩
            · exact ih _ _ hf hwp i ⟨r, hr, hrlo, hrhi⟩
        · simp only [if_neg hleaf] at hf hwp ⊢
          obtain ⟨r, hr, hrlo, hrhi⟩ := hwit
          rcases List.mem_cons.mp hr with rfl | hr
          · obtain ⟨r2, hr2, hr2a, hr2b⟩ := walkPushes_cover hrlo hrhi
            exact ih _ _ hf hwp i
              ⟨r2, List.mem_append_left _ (List.mem_reverse.mpr hr2),
                hr2a, hr2b⟩
          · exact ih _ _ hf hwp i
              ⟨r, List.mem_append_right _ hr, hrlo, hrhi⟩

end JxlModular

namespace JxlModular

/-! ## Structural invariants of `FilterTree` output -/

/-- Local field invariants of every inner node that `FilterTree` emits:
the top property is non-static, and a dummy sub-decision is exactly
`properties[i] = 0, splitvals[i] = 0`. -/
def ShapeLocal (F : FlatTree) : Prop :=
  ∀ k, k < F.length → (flatAt F k).property0 ≠ -1 →
    (kNumStaticProperties : Int) ≤ (flatAt F k).property0 ∧
    ((flatAt F k).properties.1 < (kNumStaticProperties : Int) →
      (flatAt F k).properties.1 = 0 ∧ (flatAt F k).splitvals.1 = 0) ∧
    ((flatAt F k).properties.2 < (kNumStaticProperties : Int) →
      (flatAt F k).properties.2 = 0 ∧ (flatAt F k).splitvals.2 = 0)

theorem shapeLocal_append {F : List FlatDecisionNode} {nd : FlatDecisionNode}
    (hF : ShapeLocal F)
    (hnd : nd.property0 ≠ -1 →
      (kNumStaticProperties : Int) ≤ nd.property0 ∧
      (nd.properties.1 < (kNumStaticProperties : Int) →
        nd.properties.1 = 0 ∧ nd.splitvals.1 = 0) ∧
      (nd.properties.2 < (kNumStaticProperties : Int) →
        nd.properties.2 = 0 ∧ nd.splitvals.2 = 0)) :
    ShapeLocal (F ++ [nd]) := by
  intro k hk
  rw [List.length_append, List.length_cons, List.length_nil] at hk
  by_cases hlt : k < F.length
  · rw [flatAt_append_left hlt]
    exact hF k hlt
  · have hke : k = F.length := by omega
    subst hke
    rw [flatAt_append_self]
    exact hnd

/-- A dummy sub-decision of `filterChild` comes from a leaf child: the
emitted pair is `(0, 0)` and the push list duplicates the leaf. -/
theorem filterChild_dummy {t : Tree} {sp : StaticProps} {np child : Nat}
    {pa sa : Int} {push : List Nat} {np' : Nat} (hWF : WFTree t)
    (hchild : child < t.length)
    (h : filterChild t sp np child = some (pa, sa, push, np'))
    (hdum : pa < (kNumStaticProperties : Int)) :
    pa = 0 ∧ sa = 0 ∧
      ∃ c, push = [c, c] ∧ c < t.length ∧ (treeAt t c).property = -1 := by
  rcases hskip : skipStatic t sp (t.length + 1) child with _ | c0
  · simp only [filterChild, hskip] at h
    exact Option.noConfusion h
  · simp only [filterChild, hskip] at h
    obtain ⟨hle, hlt, hpost⟩ := skipStatic_spec hWF _ _ _ hchild hskip
    by_cases hleaf : (treeAt t c0).property = -1
    · rw [if_pos hleaf, Option.some.injEq, Prod.mk.injEq, Prod.mk.injEq,
        Prod.mk.injEq] at h
      obtain ⟨h1, h2, h3, -⟩ := h
      exact ⟨h1.symm, h2.symm, c0, h3.symm, hlt, hleaf⟩
    · rw [if_neg hleaf, Option.some.injEq, Prod.mk.injEq, Prod.mk.injEq,
        Prod.mk.injEq] at h
      obtain ⟨h1, -, -, -⟩ := h
      exfalso
      rw [← h1] at hdum
      exact hpost ⟨hdum, hleaf⟩

/-- A real sub-decision of `filterChild` carries a non-static property. -/
theorem filterChild_real {t : Tree} {sp : StaticProps} {np child : Nat}
    {pa sa : Int} {push : List Nat} {np' : Nat} (hWF : WFTree t)
    (hchild : child < t.length)
    (h : filterChild t sp np child = some (pa, sa, push, np')) :
    pa = 0 ∨ (kNumStaticProperties : Int) ≤ pa := by
  rcases hskip : skipStatic t sp (t.length + 1) child with _ | c0
  · simp only [filterChild, hskip] at h
    exact Option.noConfusion h
  · simp only [filterChild, hskip] at h
    obtain ⟨hle, hlt, hpost⟩ := skipStatic_spec hWF _ _ _ hchild hskip
    by_cases hleaf : (treeAt t c0).property = -1
    · rw [if_pos hleaf, Option.some.injEq, Prod.mk.injEq, Prod.mk.injEq,
        Prod.mk.injEq] at h
      exact Or.inl h.1.symm
    · rw [if_neg hleaf, Option.some.injEq, Prod.mk.injEq, Prod.mk.injEq,
        Prod.mk.injEq] at h
      right
      rw [← h.1]
      by_contra hc
      push_neg at hc
      exact hpost ⟨hc, hleaf⟩

theorem filterGo_shapeLocal {t : Tree} {sp : StaticProps} (hWF : WFTree t) :
    ∀ fuel q st st', filterGo t sp fuel q st = some st' →
      (∀ e ∈ q, e < t.length) →
      ShapeLocal st.output → ShapeLocal st'.output := by
  intro fuel
  induction fuel with
  | zero => intro q st st' h; simp [filterGo] at h
  | succ fuel ih =>
    intro q st st' h hq hS
    match q with
    | [] =>
      simp only [filterGo, Option.some.injEq] at h
      rw [← h]; exact hS
    | cur0 :: rest =>
      have hcur0 : cur0 < t.length := hq cur0 (by simp)
      rcases hskip : skipStatic t sp (t.length + 1) cur0 with _ | cur
      · simp only [filterGo, hskip] at h
        exact Option.noConfusion h
      · simp only [filterGo, hskip] at h
        obtain ⟨hle, hlt, hpost⟩ := skipStatic_spec hWF _ _ _ hcur0 hskip
        split at h <;> rename_i hleaf
        · exact ih _ _ _ h (fun e he => hq e (by simp [he]))
            (shapeLocal_append hS (fun hc => absurd rfl hc))
        · rcases hcA : filterChild t sp
              (max ((treeAt t cur).property.toNat + 1) st.numProps)
              (treeAt t cur).lchild with _ | resA
          · simp only [hcA] at h
            exact Option.noConfusion h
          · obtain ⟨pa, sa, pushA, npA⟩ := resA
            simp only [hcA] at h
            rcases hcB : filterChild t sp npA (treeAt t cur).rchild
                with _ | resB
            · simp only [hcB] at h
              exact Option.noConfusion h
            · obtain ⟨pb, sb, pushB, npB⟩ := resB
              simp only [hcB] at h
              rcases hWF.2 cur hlt with h0 | ⟨hp0, hll, hlb, hrl, hrb⟩
              · exact absurd h0 hleaf
              obtain ⟨hlenA, hboundA⟩ := filterChild_spec hWF hlb hcA
              obtain ⟨hlenB, hboundB⟩ := filterChild_spec hWF hrb hcB
              apply ih _ _ _ h
              · intro e he
                simp only [List.append_assoc, List.mem_append] at he
                rcases he with he | he | he
                · exact hq e (by simp [he])
                · exact (hboundA e he).2
                · exact (hboundB e he).2
              · apply shapeLocal_append hS
                intro _
                refine ⟨?_, ?_, ?_⟩
                · simp only []
                  by_contra hc
                  push_neg at hc
                  exact hpost ⟨hc, hleaf⟩
                · intro hdum
                  simp only [] at hdum ⊢
                  obtain ⟨h1, h2, -⟩ := filterChild_dummy hWF hlb hcA hdum
                  exact ⟨h1, h2⟩
                · intro hdum
                  simp only [] at hdum ⊢
                  obtain ⟨h1, h2, -⟩ := filterChild_dummy hWF hrb hcB hdum
                  exact ⟨h1, h2⟩

end JxlModular

namespace JxlModular

theorem filterGo_length {t : Tree} {sp : StaticProps} :
    ∀ fuel q st st', filterGo t sp fuel q st = some st' →
      st.output.length + q.length ≤ st'.output.length := by
  intro fuel
  induction fuel with
  | zero => intro q st st' h; simp [filterGo] at h
  | succ fuel ih =>
    intro q st st' h
    match q with
    | [] =>
      simp only [filterGo, Option.some.injEq] at h
      rw [← h]; simp
    | cur0 :: rest =>
      rcases hskip : skipStatic t sp (t.length + 1) cur0 with _ | cur
      · simp only [filterGo, hskip] at h
        exact Option.noConfusion h
      · simp only [filterGo, hskip] at h
        split at h <;> rename_i hleaf
        · have := ih _ _ _ h
          simp only [List.length_append, List.length_cons,
            List.length_nil] at this ⊢
          omega
        · rcases hcA : filterChild t sp
              (max ((treeAt t cur).property.toNat + 1) st.numProps)
              (treeAt t cur).lchild with _ | resA
          · simp only [hcA] at h
            exact Option.noConfusion h
          · obtain ⟨pa, sa, pushA, npA⟩ := resA
            simp only [hcA] at h
            rcases hcB : filterChild t sp npA (treeAt t cur).rchild
                with _ | resB
            · simp only [hcB] at h
              exact Option.noConfusion h
            · obtain ⟨pb, sb, pushB, npB⟩ := resB
              simp only [hcB] at h
              have := ih _ _ _ h
              simp only [List.length_append, List.length_cons,
                List.length_nil] at this ⊢
              omega

theorem filterGo_bounded {t : Tree} {sp : StaticProps} (hWF : WFTree t) :
    ∀ fuel q st st', filterGo t sp fuel q st = some st' →
      (∀ e ∈ q, e < t.length) →
      (∀ k, k < st.output.length → (flatAt st.output k).property0 ≠ -1 →
        (flatAt st.output k).childID + 3 <
          st.output.length + q.length) →
      BoundedFlat st'.output := by
  intro fuel
  induction fuel with
  | zero => intro q st st' h; simp [filterGo] at h
  | succ fuel ih =>
    intro q st st' h hq hP
    match q with
    | [] =>
      simp only [filterGo, Option.some.injEq] at h
      rw [← h]
      intro k hk hkin
      have := hP k hk hkin
      simp only [List.length_nil] at this
      omega
    | cur0 :: rest =>
      have hcur0 : cur0 < t.length := hq cur0 (by simp)
      rcases hskip : skipStatic t sp (t.length + 1) cur0 with _ | cur
      · simp only [filterGo, hskip] at h
        exact Option.noConfusion h
      · simp only [filterGo, hskip] at h
        obtain ⟨hle, hlt, hpost⟩ := skipStatic_spec hWF _ _ _ hcur0 hskip
        split at h <;> rename_i hleaf
        · apply ih _ _ _ h (fun e he => hq e (by simp [he]))
          intro k hk hkin
          simp only [List.length_append, List.length_cons,
            List.length_nil] at hk ⊢
          by_cases hklt : k < st.output.length
          · rw [flatAt_append_left hklt] at hkin ⊢
            have := hP k hklt hkin
            simp only [List.length_cons] at this
            omega
          · have hke : k = st.output.length := by omega
            subst hke
            rw [flatAt_append_self] at hkin
            exact absurd rfl hkin
        · rcases hcA : filterChild t sp
              (max ((treeAt t cur).property.toNat + 1) st.numProps)
              (treeAt t cur).lchild with _ | resA
          · simp only [hcA] at h
            exact Option.noConfusion h
          · obtain ⟨pa, sa, pushA, npA⟩ := resA
            simp only [hcA] at h
            rcases hcB : filterChild t sp npA (treeAt t cur).rchild
                with _ | resB
            · simp only [hcB] at h
              exact Option.noConfusion h
            · obtain ⟨pb, sb, pushB, npB⟩ := resB
              simp only [hcB] at h
              rcases hWF.2 cur hlt with h0 | ⟨hp0, hll, hlb, hrl, hrb⟩
              · exact absurd h0 hleaf
              obtain ⟨hlenA, hboundA⟩ := filterChild_spec hWF hlb hcA
              obtain ⟨hlenB, hboundB⟩ := filterChild_spec hWF hrb hcB
              apply ih _ _ _ h
              · intro e he
                simp only [List.append_assoc, List.mem_append] at he
                rcases he with he | he | he
                · exact hq e (by simp [he])
                · exact (hboundA e he).2
                · exact (hboundB e he).2
              · intro k hk hkin
                simp only [List.length_append, List.length_cons,
                  List.length_nil] at hk ⊢
                by_cases hklt : k < st.output.length
                · rw [flatAt_append_left hklt] at hkin ⊢
                  have := hP k hklt hkin
                  simp only [List.length_cons] at this
                  omega
                · have hke : k = st.output.length := by omega
                  subst hke
                  rw [flatAt_append_self] at hkin ⊢
                  simp only []
                  omega

end JxlModular

namespace JxlModular

theorem maskStep_mono {acc : Nat} {nd : FlatDecisionNode} {i : Nat}
    (h : acc.testBit i = true) : (maskStep acc nd).testBit i = true := by
  unfold maskStep
  split
  · exact h
  · simp only [Nat.testBit_or]
    split <;> split <;> simp [h]

theorem maskFold_mono {F : List FlatDecisionNode} {acc : Nat} {i : Nat}
    (h : acc.testBit i = true) :
    (F.foldl maskStep acc).testBit i = true := by
  induction F generalizing acc with
  | nil => exact h
  | cons nd rest ih => exact ih (maskStep_mono h)

theorem maskStep_prop0 {acc : Nat} {nd : FlatDecisionNode}
    (hin : nd.property0 ≠ -1) :
    (maskStep acc nd).testBit nd.property0.toNat = true := by
  unfold maskStep
  rw [if_neg hin]
  simp only [Nat.testBit_or, Nat.shiftLeft_eq, one_mul,
    Nat.testBit_two_pow]
  simp

theorem maskStep_sub1 {acc : Nat} {nd : FlatDecisionNode}
    (hin : nd.property0 ≠ -1)
    (hreal : nd.properties.1 ≥ (kNumStaticProperties : Int)) :
    (maskStep acc nd).testBit nd.properties.1.toNat = true := by
  unfold maskStep
  rw [if_neg hin, if_pos hreal]
  simp only [Nat.testBit_or, Nat.shiftLeft_eq, one_mul,
    Nat.testBit_two_pow]
  split <;> simp

theorem maskStep_sub2 {acc : Nat} {nd : FlatDecisionNode}
    (hin : nd.property0 ≠ -1)
    (hreal : nd.properties.2 ≥ (kNumStaticProperties : Int)) :
    (maskStep acc nd).testBit nd.properties.2.toNat = true := by
  unfold maskStep
  rw [if_neg hin]
  simp only [Nat.testBit_or, Nat.shiftLeft_eq, one_mul,
    Nat.testBit_two_pow]
  rw [if_pos hreal]
  simp only [Nat.testBit_or, Nat.shiftLeft_eq, one_mul,
    Nat.testBit_two_pow]
  simp

theorem maskFold_node {F : List FlatDecisionNode} {acc : Nat}
    {nd : FlatDecisionNode} (hmem : nd ∈ F) (hin : nd.property0 ≠ -1) :
    (F.foldl maskStep acc).testBit nd.property0.toNat = true ∧
    (nd.properties.1 ≥ (kNumStaticProperties : Int) →
      (F.foldl maskStep acc).testBit nd.properties.1.toNat = true) ∧
    (nd.properties.2 ≥ (kNumStaticProperties : Int) →
      (F.foldl maskStep acc).testBit nd.properties.2.toNat = true) := by
  induction F generalizing acc with
  | nil => simp at hmem
  | cons hd rest ih =>
    simp only [List.foldl_cons]
    rcases List.mem_cons.mp hmem with rfl | hmem
    · refine ⟨maskFold_mono (maskStep_prop0 hin), fun hr =>
        maskFold_mono (maskStep_sub1 hin hr), fun hr =>
        maskFold_mono (maskStep_sub2 hin hr)⟩
    · exact ih hmem

/-- When the used-property mask of a flat tree is exactly the WP bit,
every real decision of the tree tests the WP property. -/
theorem mask_shape {F : List FlatDecisionNode}
    (hm : flatUsedMask F = 1 <<< kWPProp) (hS : ShapeLocal F) :
    ∀ k, k < F.length → (flatAt F k).property0 ≠ -1 →
      (flatAt F k).property0 = (kWPProp : Int) ∧
      ((flatAt F k).properties.1 ≥ (kNumStaticProperties : Int) →
        (flatAt F k).properties.1 = (kWPProp : Int)) ∧
      ((flatAt F k).properties.2 ≥ (kNumStaticProperties : Int) →
        (flatAt F k).properties.2 = (kWPProp : Int)) := by
  intro k hk hin
  have hmem : flatAt F k ∈ F := by
    unfold flatAt
    rw [List.getD_eq_getElem?_getD, List.getElem?_eq_getElem hk]
    exact List.getElem_mem hk
  obtain ⟨hb0, hb1, hb2⟩ := @maskFold_node F 0 _ hmem hin
  unfold flatUsedMask at hm
  rw [hm] at hb0 hb1 hb2
  simp only [Nat.shiftLeft_eq, one_mul, Nat.testBit_two_pow,
    decide_eq_true_eq] at hb0 hb1 hb2
  obtain ⟨hge, -, -⟩ := hS k hk hin
  refine ⟨by omega, fun hr => ?_, fun hr => ?_⟩
  · have := hb1 hr
    omega
  · have := hb2 hr
    omega

end JxlModular

namespace JxlModular

/-! ## Leaf duplication in `FilterTree` output -/

theorem skipStatic_leaf {t : Tree} {sp : StaticProps} {c : Nat}
    (hleaf : (treeAt t c).property = -1) :
    skipStatic t sp (t.length + 1) c = some c := by
  simp only [skipStatic]
  rw [if_neg (by
    intro hc
    exact hc.2 hleaf)]

/-- A queue entry that resolves to a leaf produces exactly that flat leaf
at its output slot. -/
theorem filterGo_leaf_at {t : Tree} {sp : StaticProps} (hWF : WFTree t) :
    ∀ fuel q st st', filterGo t sp fuel q st = some st' →
      (∀ e ∈ q, e < t.length) →
      ∀ j, j < q.length → ∀ cur,
        skipStatic t sp (t.length + 1) (q.getD j 0) = some cur →
        (treeAt t cur).property = -1 →
        flatAt st'.output (st.output.length + j) =
          { property0 := -1, childID := (treeAt t cur).lchild,
            predictor := (treeAt t cur).predictor,
            predictor_offset := (treeAt t cur).predictor_offset,
            multiplier := (treeAt t cur).multiplier } := by
  intro fuel
  induction fuel with
  | zero => intro q st st' h; simp [filterGo] at h
  | succ fuel ih =>
    intro q st st' h hq j hj cur hsk hleafc
    match q with
    | [] => simp at hj
    | cur0 :: rest =>
      have hcur0 : cur0 < t.length := hq cur0 (by simp)
      rcases hskip : skipStatic t sp (t.length + 1) cur0 with _ | curP
      · simp only [filterGo, hskip] at h
        exact Option.noConfusion h
      · simp only [filterGo, hskip] at h
        obtain ⟨hle, hlt, hpost⟩ := skipStatic_spec hWF _ _ _ hcur0 hskip
        split at h <;> rename_i hleafP
        · match j with
          | 0 =>
            simp only [List.getD_cons_zero] at hsk
            rw [hskip] at hsk
            injection hsk with hsk
            subst hsk
            obtain ⟨tail, htail⟩ := filterGo_output_extend _ _ _ _ h
            simp only at htail
            rw [Nat.add_zero, htail, flatAt_append_left (by simp),
              flatAt_append_self]
          | j + 1 =>
            have hj2 : j < rest.length := by simpa using hj
            have := ih _ _ _ h (fun e he => hq e (by simp [he])) j hj2 cur
              (by simpa using hsk) hleafc
            simp only [List.length_append, List.length_cons,
              List.length_nil] at this
            rw [show st.output.length + (j + 1) =
              st.output.length + 1 + j by omega]
            exact this
        · rcases hcA : filterChild t sp
              (max ((treeAt t curP).property.toNat + 1) st.numProps)
              (treeAt t curP).lchild with _ | resA
          · simp only [hcA] at h
            exact Option.noConfusion h
          · obtain ⟨pa, sa, pushA, npA⟩ := resA
            simp only [hcA] at h
            rcases hcB : filterChild t sp npA (treeAt t curP).rchild
                with _ | resB
            · simp only [hcB] at h
              exact Option.noConfusion h
            · obtain ⟨pb, sb, pushB, npB⟩ := resB
              simp only [hcB] at h
              rcases hWF.2 curP hlt with h0 | ⟨hp0, hll, hlb, hrl, hrb⟩
              · exact absurd h0 hleafP
              obtain ⟨hlenA, hboundA⟩ := filterChild_spec hWF hlb hcA
              obtain ⟨hlenB, hboundB⟩ := filterChild_spec hWF hrb hcB
              have hq2 : ∀ e ∈ rest ++ pushA ++ pushB, e < t.length := by
                intro e he
                simp only [List.append_assoc, List.mem_append] at he
                rcases he with he | he | he
                · exact hq e (by simp [he])
                · exact (hboundA e he).2
                · exact (hboundB e he).2
              match j with
              | 0 =>
                simp only [List.getD_cons_zero] at hsk
                rw [hskip] at hsk
                injection hsk with hsk
                subst hsk
                exact absurd hleafc hleafP
              | j + 1 =>
                have hj2 : j < rest.length := by simpa using hj
                have := ih _ _ _ h hq2 j
                  (by simp only [List.length_append]; omega) cur
                  (by
                    rw [getD_append_pre (by simp; omega : j <
                      (rest ++ pushA).length), getD_append_pre hj2]
                    simpa using hsk) hleafc
                simp only [List.length_append, List.length_cons,
                  List.length_nil] at this
                rw [show st.output.length + (j + 1) =
                  st.output.length + 1 + j by omega]
                exact this

end JxlModular

namespace JxlModular

/-- Leaf duplication: a dummy sub-decision of an inner flat node has the
same leaf in both of its grand-child slots. -/
def DupF (F : FlatTree) : Prop :=
  ∀ k, k < F.length → (flatAt F k).property0 ≠ -1 →
    ((flatAt F k).properties.1 < (kNumStaticProperties : Int) →
      flatAt F ((flatAt F k).childID) =
        flatAt F ((flatAt F k).childID + 1) ∧
      (flatAt F ((flatAt F k).childID)).property0 = -1) ∧
    ((flatAt F k).properties.2 < (kNumStaticProperties : Int) →
      flatAt F ((flatAt F k).childID + 2) =
        flatAt F ((flatAt F k).childID + 3) ∧
      (flatAt F ((flatAt F k).childID + 2)).property0 = -1)

theorem filterGo_dupF {t : Tree} {sp : StaticProps} (hWF : WFTree t) :
    ∀ fuel q st st', filterGo t sp fuel q st = some st' →
      (∀ e ∈ q, e < t.length) →
      ∀ k, st.output.length ≤ k → k < st'.output.length →
        (flatAt st'.output k).property0 ≠ -1 →
        ((flatAt st'.output k).properties.1 <
            (kNumStaticProperties : Int) →
          flatAt st'.output ((flatAt st'.output k).childID) =
            flatAt st'.output ((flatAt st'.output k).childID + 1) ∧
          (flatAt st'.output ((flatAt st'.output k).childID)).property0 =
            -1) ∧
        ((flatAt st'.output k).properties.2 <
            (kNumStaticProperties : Int) →
          flatAt st'.output ((flatAt st'.output k).childID + 2) =
            flatAt st'.output ((flatAt st'.output k).childID + 3) ∧
          (flatAt st'.output
            ((flatAt st'.output k).childID + 2)).property0 = -1) := by
  intro fuel
  induction fuel with
  | zero => intro q st st' h; simp [filterGo] at h
  | succ fuel ih =>
    intro q st st' h hq k hk1 hk2 hkin
    match q with
    | [] =>
      simp only [filterGo, Option.some.injEq] at h
      subst h
      omega
    | cur0 :: rest =>
      have hcur0 : cur0 < t.length := hq cur0 (by simp)
      rcases hskip : skipStatic t sp (t.length + 1) cur0 with _ | curP
      · simp only [filterGo, hskip] at h
        exact Option.noConfusion h
      · simp only [filterGo, hskip] at h
        obtain ⟨hle, hlt, hpost⟩ := skipStatic_spec hWF _ _ _ hcur0 hskip
        split at h <;> rename_i hleafP
        · by_cases hke : k = st.output.length
          · subst hke
            obtain ⟨tail, htail⟩ := filterGo_output_extend _ _ _ _ h
            simp only at htail
            rw [htail, flatAt_append_left (by simp), flatAt_append_self]
              at hkin
            exact absurd rfl hkin
          · exact ih _ _ _ h (fun e he => hq e (by simp [he])) k
              (by simp; omega) hk2 hkin
        · rcases hcA : filterChild t sp
              (max ((treeAt t curP).property.toNat + 1) st.numProps)
              (treeAt t curP).lchild with _ | resA
          · simp only [hcA] at h
            exact Option.noConfusion h
          · obtain ⟨pa, sa, pushA, npA⟩ := resA
            simp only [hcA] at h
            rcases hcB : filterChild t sp npA (treeAt t curP).rchild
                with _ | resB
            · simp only [hcB] at h
              exact Option.noConfusion h
            · obtain ⟨pb, sb, pushB, npB⟩ := resB
              simp only [hcB] at h
              rcases hWF.2 curP hlt with h0 | ⟨hp0, hll, hlb, hrl, hrb⟩
              · exact absurd h0 hleafP
              obtain ⟨hlenA, hboundA⟩ := filterChild_spec hWF hlb hcA
              obtain ⟨hlenB, hboundB⟩ := filterChild_spec hWF hrb hcB
              have hq2 : ∀ e ∈ rest ++ pushA ++ pushB, e < t.length := by
                intro e he
                simp only [List.append_assoc, List.mem_append] at he
                rcases he with he | he | he
                · exact hq e (by simp [he])
                · exact (hboundA e he).2
                · exact (hboundB e he).2
              by_cases hke : k = st.output.length
              · subst hke
                obtain ⟨tail, htail⟩ := filterGo_output_extend _ _ _ _ h
                simp only at htail
                have hnode : flatAt st'.output st.output.length =
                    { property0 := (treeAt t curP).property,
                      splitval0 := (treeAt t curP).splitval,
                      childID := st.output.length + rest.length + 1,
                      properties := (pa, pb), splitvals := (sa, sb) } := by
                  rw [htail, flatAt_append_left (by simp), flatAt_append_self]
                rw [hnode]
                constructor
                · intro hdum
                  simp only [] at hdum ⊢
                  obtain ⟨-, -, c, hpushA, hcb, hcleaf⟩ :=
                    filterChild_dummy hWF hlb hcA hdum
                  subst hpushA
                  have e1 := filterGo_leaf_at hWF _ _ _ _ h hq2
                    rest.length
                    (by simp only [List.length_append]; simp; omega) c
                    (by
                      rw [show rest.length = rest.length + 0 by omega,
                        getD_append_mid1 (by simp)]
                      exact skipStatic_leaf hcleaf) hcleaf
                  have e2 := filterGo_leaf_at hWF _ _ _ _ h hq2
                    (rest.length + 1)
                    (by simp only [List.length_append]; simp; omega) c
                    (by
                      rw [getD_append_mid1 (by simp)]
                      exact skipStatic_leaf hcleaf) hcleaf
                  simp only [List.length_append, List.length_cons,
                    List.length_nil] at e1 e2
                  rw [show st.output.length + rest.length + 1 =
                    st.output.length + 1 + rest.length by omega]
                  rw [show st.output.length + 1 + rest.length + 1 =
                    st.output.length + 1 + (rest.length + 1) by omega]
                  rw [e1, e2]
                  exact ⟨rfl, rfl⟩
                · intro hdum
                  simp only [] at hdum ⊢
                  obtain ⟨-, -, c, hpushB, hcb, hcleaf⟩ :=
                    filterChild_dummy hWF hrb hcB hdum
                  subst hpushB
                  have e1 := filterGo_leaf_at hWF _ _ _ _ h hq2
                    (rest.length + 2)
                    (by simp only [List.length_append]
                        rw [hlenA]; simp) c
                    (by
                      rw [show rest.length + 2 =
                        rest.length + pushA.length + 0 by omega,
                        getD_append_mid2]
                      exact skipStatic_leaf hcleaf) hcleaf
                  have e2 := filterGo_leaf_at hWF _ _ _ _ h hq2
                    (rest.length + 3)
                    (by simp only [List.length_append]
                        rw [hlenA]; simp) c
                    (by
                      rw [show rest.length + 3 =
                        rest.length + pushA.length + 1 by omega,
                        getD_append_mid2]
                      exact skipStatic_leaf hcleaf) hcleaf
                  simp only [List.length_append, List.length_cons,
                    List.length_nil, Nat.zero_add] at e1 e2
                  rw [show st.output.length + rest.length + 1 + 2 =
                    st.output.length + 1 + (rest.length + 2) by omega]
                  rw [show st.output.length + rest.length + 1 + 3 =
                    st.output.length + 1 + (rest.length + 3) by omega]
                  rw [e1, e2]
                  exact ⟨rfl, rfl⟩
              · exact ih _ _ _ h hq2 k (by simp; omega) hk2 hkin

/-- `FilterTree` output satisfies leaf duplication. -/
theorem filterTree_dupF {t : Tree} {sp : StaticProps} {fuel : Nat}
    {st : FilterState} (hWF : WFTree t)
    (hrun : filterTree t sp fuel = some st) : DupF st.output := by
  unfold filterTree at hrun
  rcases hgo : filterGo t sp fuel [0] filterInit with _ | st0
  · rw [hgo] at hrun; exact Option.noConfusion hrun
  · rw [hgo] at hrun
    simp only [Option.map] at hrun
    injection hrun with hrun
    subst hrun
    intro k hk hkin
    have : st0.output = (filterFinish st0).output := rfl
    exact filterGo_dupF hWF _ _ _ _ hgo
      (by intro e he; simp at he; subst he; exact hWF.1) k
      (by simp [filterInit]) (by simpa using hk) hkin

end JxlModular

namespace JxlModular

theorem remap_goodFlat (cmap : Nat → Nat) {F : FlatTree}
    (hG : GoodFlat F) : GoodFlat (remapFlat cmap F) := by
  intro k hk hkin
  rw [remapFlat_length] at hk
  rw [remap_property0 cmap hk] at hkin
  rw [remap_inner cmap hk hkin]
  exact hG k hk hkin

theorem remap_boundedFlat (cmap : Nat → Nat) {F : FlatTree}
    (hB : BoundedFlat F) : BoundedFlat (remapFlat cmap F) := by
  intro k hk hkin
  rw [remapFlat_length] at hk ⊢
  rw [remap_property0 cmap hk] at hkin
  rw [remap_inner cmap hk hkin]
  exact hB k hk hkin

/-- Modelled from the spec (§4.H): the learner produces nested splits, so
along every path of the flat tree the decision regions refine each other.
`nestedOk` checks this interval discipline by recursion, mirroring the
region construction of the Path-1 walks. -/
def nestedOk (G : FlatTree) : Nat → Nat → Int → Int → Bool
  | 0, _, _, _ => false
  | n + 1, pos, lo, hi =>
    let nd := flatAt G pos
    if nd.property0 = -1 then true
    else
      decide (lo ≤ nd.splitval0 ∧ nd.splitval0 ≤ hi) &&
      (if nd.properties.1 ≥ (kNumStaticProperties : Int) then
        decide (nd.splitval0 ≤ nd.splitvals.1 ∧ nd.splitvals.1 ≤ hi) &&
        nestedOk G n nd.childID nd.splitvals.1 hi &&
        nestedOk G n (nd.childID + 1) nd.splitval0 nd.splitvals.1
      else nestedOk G n nd.childID nd.splitval0 hi) &&
      (if nd.properties.2 ≥ (kNumStaticProperties : Int) then
        decide (lo ≤ nd.splitvals.2 ∧ nd.splitvals.2 ≤ nd.splitval0) &&
        nestedOk G n (nd.childID + 2) nd.splitvals.2 nd.splitval0 &&
        nestedOk G n (nd.childID + 3) lo nd.splitvals.2
      else nestedOk G n (nd.childID + 2) lo nd.splitval0)

/-- Nestedness with unconstrained recursion depth. -/
def NestedP (G : FlatTree) (pos : Nat) (lo hi : Int) : Prop :=
  ∃ n, nestedOk G n pos lo hi = true

/-- Membership of a property value in a (begin-excluded) region. -/
def memR (v : Int) (r : TreeRange) : Prop := r.lo < v ∧ v ≤ r.hi

instance (v : Int) (r : TreeRange) : Decidable (memR v r) := by
  unfold memR; infer_instance

/-- Interval disjointness of two regions. -/
def DisjR (r1 r2 : TreeRange) : Prop := ∀ v : Int, ¬(memR v r1 ∧ memR v r2)

end JxlModular

namespace JxlModular

/-- Unfolding of `NestedP` at an inner node: the split value lies in the
region and each pushed child region is nested. -/
theorem nestedP_inner {G : FlatTree} {pos : Nat} {lo hi : Int}
    (hN : NestedP G pos lo hi) (hin : (flatAt G pos).property0 ≠ -1) :
    (lo ≤ (flatAt G pos).splitval0 ∧ (flatAt G pos).splitval0 ≤ hi) ∧
    (if (flatAt G pos).properties.1 ≥ (kNumStaticProperties : Int) then
      ((flatAt G pos).splitval0 ≤ (flatAt G pos).splitvals.1 ∧
        (flatAt G pos).splitvals.1 ≤ hi) ∧
      NestedP G (flatAt G pos).childID (flatAt G pos).splitvals.1 hi ∧
      NestedP G ((flatAt G pos).childID + 1) (flatAt G pos).splitval0
        (flatAt G pos).splitvals.1
    else
      NestedP G (flatAt G pos).childID (flatAt G pos).splitval0 hi) ∧
    (if (flatAt G pos).properties.2 ≥ (kNumStaticProperties : Int) then
      (lo ≤ (flatAt G pos).splitvals.2 ∧
        (flatAt G pos).splitvals.2 ≤ (flatAt G pos).splitval0) ∧
      NestedP G ((flatAt G pos).childID + 2) (flatAt G pos).splitvals.2
        (flatAt G pos).splitval0 ∧
      NestedP G ((flatAt G pos).childID + 3) lo (flatAt G pos).splitvals.2
    else
      NestedP G ((flatAt G pos).childID + 2) lo
        (flatAt G pos).splitval0) := by
  obtain ⟨n, hn⟩ := hN
  match n with
  | 0 => simp [nestedOk] at hn
  | n + 1 =>
    simp only [nestedOk] at hn
    rw [if_neg hin] at hn
    simp only [Bool.and_eq_true, decide_eq_true_eq] at hn
    obtain ⟨⟨h0, hside1⟩, hside2⟩ := hn
    refine ⟨h0, ?_, ?_⟩
    · by_cases hr : (flatAt G pos).properties.1 ≥ (kNumStaticProperties : Int)
      · rw [if_pos hr]
        rw [if_pos hr] at hside1
        simp only [Bool.and_eq_true, decide_eq_true_eq] at hside1
        exact ⟨hside1.1.1, ⟨n, hside1.1.2⟩, ⟨n, hside1.2⟩⟩
      · rw [if_neg hr]
        rw [if_neg hr] at hside1
        exact ⟨n, hside1⟩
    · by_cases hr : (flatAt G pos).properties.2 ≥ (kNumStaticProperties : Int)
      · rw [if_pos hr]
        rw [if_pos hr] at hside2
        simp only [Bool.and_eq_true, decide_eq_true_eq] at hside2
        exact ⟨hside2.1.1, ⟨n, hside2.1.2⟩, ⟨n, hside2.2⟩⟩
      · rw [if_neg hr]
        rw [if_neg hr] at hside2
        exact ⟨n, hside2⟩

end JxlModular

namespace JxlModular

theorem disjR_left {r1 r2 : TreeRange} (h : r1.hi ≤ r2.lo) : DisjR r1 r2 := by
  intro v hv
  obtain ⟨⟨-, h1⟩, ⟨h2, -⟩⟩ := hv
  omega

theorem disjR_right {r1 r2 : TreeRange} (h : r2.hi ≤ r1.lo) :
    DisjR r1 r2 := by
  intro v hv
  obtain ⟨⟨h1, -⟩, ⟨-, h2⟩⟩ := hv
  omega

theorem disjR_subset {cur a b : TreeRange} (h1 : cur.lo ≤ a.lo)
    (h2 : a.hi ≤ cur.hi) (h : DisjR cur b) : DisjR a b := by
  intro v hv
  obtain ⟨⟨ha1, ha2⟩, hb⟩ := hv
  exact h v ⟨⟨by omega, by omega⟩, hb⟩

theorem flatLookup_leaf_succ {G : FlatTree} {c : Int → Int} {n p : Nat}
    (hleaf : (flatAt G p).property0 = -1) :
    flatLookup G c (n + 1) p = some (flatLeafInfoOf (flatAt G p)) := by
  simp only [flatLookup, if_pos hleaf]
  rfl

theorem flatLookup_fuel_succ {G : FlatTree} {c : Int → Int} {p : Nat}
    (hG : GoodFlat G) (hlen : 0 < G.length) (hp : 1 ≤ p) :
    flatLookup G c G.length p = flatLookup G c (G.length + 1) p := by
  have hs := @flatLookup_isSome G c hG G.length p (by omega)
  rcases hl : flatLookup G c G.length p with _ | l
  · rw [hl] at hs; simp at hs
  · exact (flatLookup_mono G c _ _ _ _ hl (by omega)).symm

end JxlModular

namespace JxlModular

theorem disjR_symm {r1 r2 : TreeRange} (h : DisjR r1 r2) : DisjR r2 r1 :=
  fun v hv => h v ⟨hv.2, hv.1⟩

/-- The regions pushed at an inner node by the Path-1 walks are nested in
the current region, carry nested subtrees, point inside the tree, and are
pairwise disjoint. -/
theorem pushes_invariants {G : FlatTree} {cur : TreeRange}
    (hpos : cur.pos < G.length) (hB : BoundedFlat G)
    (hleaf : (flatAt G cur.pos).property0 ≠ -1)
    (hN : NestedP G cur.pos cur.lo cur.hi) :
    (∀ r ∈ walkPushes (flatAt G cur.pos) cur,
      r.pos < G.length ∧ NestedP G r.pos r.lo r.hi ∧
      cur.lo ≤ r.lo ∧ r.hi ≤ cur.hi) ∧
    List.Pairwise DisjR (walkPushes (flatAt G cur.pos) cur) := by
  obtain ⟨⟨hs0lo, hs0hi⟩, hside1, hside2⟩ := nestedP_inner hN hleaf
  have hb := hB cur.pos hpos hleaf
  unfold walkPushes
  by_cases hr1 : (flatAt G cur.pos).properties.1 ≥ (kNumStaticProperties : Int)
    <;> by_cases hr2 : (flatAt G cur.pos).properties.2 ≥
      (kNumStaticProperties : Int)
  · rw [if_pos hr1] at hside1 ⊢
    rw [if_pos hr2] at hside2 ⊢
    obtain ⟨⟨hv1a, hv1b⟩, hn1, hn2⟩ := hside1
    obtain ⟨⟨hv2a, hv2b⟩, hn3, hn4⟩ := hside2
    constructor
    · intro r hr
      simp only [List.cons_append, List.nil_append, List.mem_cons,
        List.not_mem_nil, or_false] at hr
      rcases hr with rfl | rfl | rfl | rfl
      · exact ⟨by dsimp only; omega, hn1, by dsimp only; omega, by dsimp only; omega⟩
      · exact ⟨by dsimp only; omega, hn2, by dsimp only; omega, by dsimp only; omega⟩
      · exact ⟨by dsimp only; omega, hn3, by dsimp only; omega, by dsimp only; omega⟩
      · exact ⟨by dsimp only; omega, hn4, by dsimp only; omega, by dsimp only; omega⟩
    · simp only [List.cons_append, List.nil_append]
      refine List.Pairwise.cons ?_ (List.Pairwise.cons ?_
        (List.Pairwise.cons ?_ (List.Pairwise.cons (by simp)
          List.Pairwise.nil)))
      · intro b hb2
        simp only [List.mem_cons, List.not_mem_nil, or_false] at hb2
        rcases hb2 with rfl | rfl | rfl <;>
          · intro v hv
            simp only [memR] at hv
            omega
      · intro b hb2
        simp only [List.mem_cons, List.not_mem_nil, or_false] at hb2
        rcases hb2 with rfl | rfl <;>
          · intro v hv
            simp only [memR] at hv
            omega
      · intro b hb2
        simp only [List.mem_cons, List.not_mem_nil, or_false] at hb2
        rcases hb2 with rfl <;>
          · intro v hv
            simp only [memR] at hv
            omega
  · rw [if_pos hr1] at hside1 ⊢
    rw [if_neg hr2] at hside2 ⊢
    obtain ⟨⟨hv1a, hv1b⟩, hn1, hn2⟩ := hside1
    constructor
    · intro r hr
      simp only [List.cons_append, List.nil_append, List.mem_cons,
        List.not_mem_nil, or_false] at hr
      rcases hr with rfl | rfl | rfl
      · exact ⟨by dsimp only; omega, hn1, by dsimp only; omega, by dsimp only; omega⟩
      · exact ⟨by dsimp only; omega, hn2, by dsimp only; omega, by dsimp only; omega⟩
      · exact ⟨by dsimp only; omega, hside2, by dsimp only; omega, by dsimp only; omega⟩
    · simp only [List.cons_append, List.nil_append]
      refine List.Pairwise.cons ?_ (List.Pairwise.cons ?_
        (List.Pairwise.cons (by simp) List.Pairwise.nil))
      · intro b hb2
        simp only [List.mem_cons, List.not_mem_nil, or_false] at hb2
        rcases hb2 with rfl | rfl <;>
          · intro v hv
            simp only [memR] at hv
            omega
      · intro b hb2
        simp only [List.mem_cons, List.not_mem_nil, or_false] at hb2
        rcases hb2 with rfl <;>
          · intro v hv
            simp only [memR] at hv
            omega
  · rw [if_neg hr1] at hside1 ⊢
    rw [if_pos hr2] at hside2 ⊢
    obtain ⟨⟨hv2a, hv2b⟩, hn3, hn4⟩ := hside2
    constructor
    · intro r hr
      simp only [List.cons_append, List.nil_append, List.mem_cons,
        List.not_mem_nil, or_false] at hr
      rcases hr with rfl | rfl | rfl
      · exact ⟨by dsimp only; omega, hside1, by dsimp only; omega, by dsimp only; omega⟩
      · exact ⟨by dsimp only; omega, hn3, by dsimp only; omega, by dsimp only; omega⟩
      · exact ⟨by dsimp only; omega, hn4, by dsimp only; omega, by dsimp only; omega⟩
    · simp only [List.cons_append, List.nil_append]
      refine List.Pairwise.cons ?_ (List.Pairwise.cons ?_
        (List.Pairwise.cons (by simp) List.Pairwise.nil))
      · intro b hb2
        simp only [List.mem_cons, List.not_mem_nil, or_false] at hb2
        rcases hb2 with rfl | rfl <;>
          · intro v hv
            simp only [memR] at hv
            omega
      · intro b hb2
        simp only [List.mem_cons, List.not_mem_nil, or_false] at hb2
        rcases hb2 with rfl <;>
          · intro v hv
            simp only [memR] at hv
            omega
  · rw [if_neg hr1] at hside1 ⊢
    rw [if_neg hr2] at hside2 ⊢
    constructor
    · intro r hr
      simp only [List.cons_append, List.nil_append, List.mem_cons,
        List.not_mem_nil, or_false] at hr
      rcases hr with rfl | rfl
      · exact ⟨by dsimp only; omega, hside1, by dsimp only; omega, by dsimp only; omega⟩
      · exact ⟨by dsimp only; omega, hside2, by dsimp only; omega, by dsimp only; omega⟩
    · simp only [List.cons_append, List.nil_append]
      refine List.Pairwise.cons ?_ (List.Pairwise.cons (by simp)
        List.Pairwise.nil)
      intro b hb2
      simp only [List.mem_cons, List.not_mem_nil, or_false] at hb2
      rcases hb2 with rfl <;>
        · intro v hv
          simp only [memR] at hv
          omega

end JxlModular

namespace JxlModular

/-- Routing: a property value inside the current region falls into the
pushed region whose leaf the flat lookup reaches with any vector carrying
that value in the WP slot. -/
theorem pushes_route {G : FlatTree} {cur : TreeRange} {c : Int → Int}
    {v : Int} (hleaf : (flatAt G cur.pos).property0 ≠ -1)
    (hp15 : (flatAt G cur.pos).property0 = (kWPProp : Int))
    (hp1 : (flatAt G cur.pos).properties.1 ≥ (kNumStaticProperties : Int) →
      (flatAt G cur.pos).properties.1 = (kWPProp : Int))
    (hp2 : (flatAt G cur.pos).properties.2 ≥ (kNumStaticProperties : Int) →
      (flatAt G cur.pos).properties.2 = (kWPProp : Int))
    (hd1 : (flatAt G cur.pos).properties.1 < (kNumStaticProperties : Int) →
      flatAt G ((flatAt G cur.pos).childID) =
        flatAt G ((flatAt G cur.pos).childID + 1) ∧
      (flatAt G ((flatAt G cur.pos).childID)).property0 = -1)
    (hd2 : (flatAt G cur.pos).properties.2 < (kNumStaticProperties : Int) →
      flatAt G ((flatAt G cur.pos).childID + 2) =
        flatAt G ((flatAt G cur.pos).childID + 3) ∧
      (flatAt G ((flatAt G cur.pos).childID + 2)).property0 = -1)
    (hc : c (kWPProp : Int) = v) (hmem : memR v cur) :
    ∃ r2 ∈ walkPushes (flatAt G cur.pos) cur, memR v r2 ∧
      ∀ L, FlatReach G c r2.pos L → FlatReach G c cur.pos L := by
  have hcp : c (flatAt G cur.pos).property0 = v := by rw [hp15]; exact hc
  obtain ⟨hmlo, hmhi⟩ := hmem
  unfold walkPushes
  by_cases htop : v > (flatAt G cur.pos).splitval0
  · by_cases hr1 : (flatAt G cur.pos).properties.1 ≥
        (kNumStaticProperties : Int)
    · rw [if_pos hr1]
      have hcp1 : c (flatAt G cur.pos).properties.1 = v := by
        rw [hp1 hr1]; exact hc
      by_cases hs1 : v > (flatAt G cur.pos).splitvals.1
      · refine ⟨⟨(flatAt G cur.pos).splitvals.1, cur.hi,
          (flatAt G cur.pos).childID⟩,
          List.mem_append_left _ (by simp), ⟨hs1, hmhi⟩, ?_⟩
        intro L hL
        rw [flatReach_inner hleaf]
        have hoff : flatOff (flatAt G cur.pos) c = 0 := by
          unfold flatOff
          rw [hcp, if_pos htop, hcp1, if_pos hs1]
        rw [hoff]
        simpa using hL
      · refine ⟨⟨(flatAt G cur.pos).splitval0,
          (flatAt G cur.pos).splitvals.1, (flatAt G cur.pos).childID + 1⟩,
          List.mem_append_left _ (by simp), ⟨htop, by dsimp only; omega⟩, ?_⟩
        intro L hL
        rw [flatReach_inner hleaf]
        have hoff : flatOff (flatAt G cur.pos) c = 1 := by
          unfold flatOff
          rw [hcp, if_pos htop, hcp1, if_neg hs1]
        rw [hoff]
        exact hL
    · rw [if_neg hr1]
      push_neg at hr1
      obtain ⟨heq, hlf⟩ := hd1 hr1
      refine ⟨⟨(flatAt G cur.pos).splitval0, cur.hi,
        (flatAt G cur.pos).childID⟩,
        List.mem_append_left _ (by simp), ⟨htop, hmhi⟩, ?_⟩
      intro L hL
      rw [flatReach_inner hleaf]
      by_cases hs1 : c (flatAt G cur.pos).properties.1 >
          (flatAt G cur.pos).splitvals.1
      · have hoff : flatOff (flatAt G cur.pos) c = 0 := by
          unfold flatOff
          rw [hcp, if_pos htop, if_pos hs1]
        rw [hoff]
        simpa using hL
      · have hoff : flatOff (flatAt G cur.pos) c = 1 := by
          unfold flatOff
          rw [hcp, if_pos htop, if_neg hs1]
        rw [hoff]
        have hLeq : L = flatLeafInfoOf (flatAt G ((flatAt G cur.pos).childID)) :=
          (flatReach_leaf hlf L).mp (by simpa using hL)
        have hlf2 : (flatAt G ((flatAt G cur.pos).childID + 1)).property0 =
            -1 := by
          rw [← heq]; exact hlf
        rw [flatReach_leaf hlf2 L, hLeq, ← heq]
  · by_cases hr2 : (flatAt G cur.pos).properties.2 ≥
        (kNumStaticProperties : Int)
    · rw [if_pos hr2]
      have hcp2 : c (flatAt G cur.pos).properties.2 = v := by
        rw [hp2 hr2]; exact hc
      by_cases hs2 : v > (flatAt G cur.pos).splitvals.2
      · refine ⟨⟨(flatAt G cur.pos).splitvals.2,
          (flatAt G cur.pos).splitval0, (flatAt G cur.pos).childID + 2⟩,
          List.mem_append_right _ (by simp), ⟨hs2, by dsimp only; omega⟩, ?_⟩
        intro L hL
        rw [flatReach_inner hleaf]
        have hoff : flatOff (flatAt G cur.pos) c = 2 := by
          unfold flatOff
          rw [hcp, if_neg htop, hcp2, if_pos hs2]
        rw [hoff]
        exact hL
      · refine ⟨⟨cur.lo, (flatAt G cur.pos).splitvals.2,
          (flatAt G cur.pos).childID + 3⟩,
          List.mem_append_right _ (by simp), ⟨hmlo, by dsimp only; omega⟩, ?_⟩
        intro L hL
        rw [flatReach_inner hleaf]
        have hoff : flatOff (flatAt G cur.pos) c = 3 := by
          unfold flatOff
          rw [hcp, if_neg htop, hcp2, if_neg hs2]
        rw [hoff]
        exact hL
    · rw [if_neg hr2]
      push_neg at hr2
      obtain ⟨heq, hlf⟩ := hd2 hr2
      refine ⟨⟨cur.lo, (flatAt G cur.pos).splitval0,
        (flatAt G cur.pos).childID + 2⟩,
        List.mem_append_right _ (by simp), ⟨hmlo, by dsimp only; omega⟩, ?_⟩
      intro L hL
      rw [flatReach_inner hleaf]
      by_cases hs2 : c (flatAt G cur.pos).properties.2 >
          (flatAt G cur.pos).splitvals.2
      · have hoff : flatOff (flatAt G cur.pos) c = 2 := by
          unfold flatOff
          rw [hcp, if_neg htop, if_pos hs2]
        rw [hoff]
        exact hL
      · have hoff : flatOff (flatAt G cur.pos) c = 3 := by
          unfold flatOff
          rw [hcp, if_neg htop, if_neg hs2]
        rw [hoff]
        have hLeq : L = flatLeafInfoOf
            (flatAt G ((flatAt G cur.pos).childID + 2)) :=
          (flatReach_leaf hlf L).mp hL
        have hlf2 : (flatAt G ((flatAt G cur.pos).childID + 3)).property0 =
            -1 := by
          rw [← heq]; exact hlf
        rw [flatReach_leaf hlf2 L, hLeq, ← heq]

end JxlModular

namespace JxlModular

/-- Table characterization of the decoder's Path-1 walk: on a flat tree
whose real decisions all test the WP property (with duplication and the
learner's nested-split discipline), a completed walk leaves, at every
table position covered by a stacked region, exactly the leaf that flat
lookup reaches with any property vector carrying that value in the WP
slot; positions covered by no region keep their previous contents. -/
theorem decWalk_table (G : FlatTree) (hdup : DupF G) (hB : BoundedFlat G)
    (hG : GoodFlat G)
    (hsh : ∀ k, k < G.length → (flatAt G k).property0 ≠ -1 →
      (flatAt G k).property0 = (kWPProp : Int) ∧
      ((flatAt G k).properties.1 ≥ (kNumStaticProperties : Int) →
        (flatAt G k).properties.1 = (kWPProp : Int)) ∧
      ((flatAt G k).properties.2 ≥ (kNumStaticProperties : Int) →
        (flatAt G k).properties.2 = (kWPProp : Int))) :
    ∀ fuel stack st,
      (decWalk G fuel stack st).fuelOut = false →
      (decWalk G fuel stack st).wpOnly = true →
      (∀ r ∈ stack, r.pos < G.length ∧ NestedP G r.pos r.lo r.hi) →
      List.Pairwise DisjR stack →
      ∀ v : Int, ∀ c : Int → Int, c (kWPProp : Int) = v →
        (∀ r ∈ stack, memR v r →
          ∃ L, flatLookup G c (G.length + 1) r.pos = some L ∧
            (decWalk G fuel stack st).ctxT (v + kWPPropRange) = L.ctx ∧
            (decWalk G fuel stack st).multT (v + kWPPropRange) =
              L.multiplier ∧
            (decWalk G fuel stack st).offT (v + kWPPropRange) =
              L.predictor_offset) ∧
        ((∀ r ∈ stack, ¬memR v r) →
          (decWalk G fuel stack st).ctxT (v + kWPPropRange) =
            st.ctxT (v + kWPPropRange) ∧
          (decWalk G fuel stack st).multT (v + kWPPropRange) =
            st.multT (v + kWPPropRange) ∧
          (decWalk G fuel stack st).offT (v + kWPPropRange) =
            st.offT (v + kWPPropRange)) := by
  intro fuel
  induction fuel with
  | zero =>
    intro stack st hf
    simp [decWalk] at hf
  | succ fuel ih =>
    intro stack st hf hwp hstk hPW v c hc
    match stack with
    | [] =>
      simp only [decWalk] at hf hwp ⊢
      exact ⟨fun r hr => absurd hr (by simp),
        fun _ => ⟨by trivial, by trivial, by trivial⟩⟩
    | cur :: ranges =>
      obtain ⟨hpos, hN⟩ := hstk cur (by simp)
      have hheadD : ∀ b ∈ ranges, DisjR cur b :=
        (List.pairwise_cons.mp hPW).1
      have hPWt : List.Pairwise DisjR ranges :=
        (List.pairwise_cons.mp hPW).2
      simp only [decWalk] at hf hwp ⊢
      by_cases hrf : rangeFails cur
      · simp only [if_pos hrf] at hwp
        simp at hwp
      · simp only [if_neg hrf] at hf hwp ⊢
        by_cases hleaf : (flatAt G cur.pos).property0 = -1
        · simp only [if_pos hleaf] at hf hwp ⊢
          by_cases hok : (flatAt G cur.pos).predictor_offset < -128 ∨
              (flatAt G cur.pos).predictor_offset > 127
          · simp only [if_pos hok] at hwp
            simp at hwp
          · simp only [if_neg hok] at hf hwp ⊢
            obtain ⟨IH1, IH2⟩ := ih ranges _ hf hwp
              (fun r hr => hstk r (List.mem_cons_of_mem _ hr)) hPWt v c hc
            refine ⟨?_, ?_⟩
            · intro r hr hm
              rcases List.mem_cons.mp hr with heq | hr
              · rw [heq] at hm ⊢
                have hnone : ∀ r2 ∈ ranges, ¬memR v r2 :=
                  fun r2 hr2 hm2 => (hheadD r2 hr2) v ⟨hm, hm2⟩
                obtain ⟨e1, e2, e3⟩ := IH2 hnone
                have hcond : cur.lo < v + kWPPropRange - kWPPropRange ∧
                    v + kWPPropRange - kWPPropRange ≤ cur.hi := by
                  obtain ⟨h1, h2⟩ := hm
                  constructor <;> omega
                refine ⟨flatLeafInfoOf (flatAt G cur.pos),
                  flatLookup_leaf_succ hleaf, ?_, ?_, ?_⟩
                · rw [e1]
                  dsimp only
                  rw [if_pos hcond]
                  rfl
                · rw [e2]
                  dsimp only
                  rw [if_pos hcond]
                  rfl
                · rw [e3]
                  dsimp only
                  rw [if_pos hcond]
                  rfl
              · exact IH1 r hr hm
            · intro hnone
              obtain ⟨e1, e2, e3⟩ :=
                IH2 (fun r2 hr2 => hnone r2 (List.mem_cons_of_mem _ hr2))
              have hcond : ¬(cur.lo < v + kWPPropRange - kWPPropRange ∧
                  v + kWPPropRange - kWPPropRange ≤ cur.hi) := by
                intro hcond2
                exact hnone cur (by simp) ⟨by omega, by omega⟩
              refine ⟨?_, ?_, ?_⟩
              · rw [e1]
                dsimp only
                rw [if_neg hcond]
              · rw [e2]
                dsimp only
                rw [if_neg hcond]
              · rw [e3]
                dsimp only
                rw [if_neg hcond]
        · simp only [if_neg hleaf] at hf hwp ⊢
          obtain ⟨hbounds, hPWp⟩ := pushes_invariants hpos hB hleaf hN
          obtain ⟨hp15, hp1, hp2⟩ := hsh cur.pos hpos hleaf
          obtain ⟨hd1, hd2⟩ := hdup cur.pos hpos hleaf
          have hstk2 : ∀ r ∈ (walkPushes (flatAt G cur.pos) cur).reverse ++
              ranges, r.pos < G.length ∧ NestedP G r.pos r.lo r.hi := by
            intro r hr
            rcases List.mem_append.mp hr with hr | hr
            · have := hbounds r (List.mem_reverse.mp hr)
              exact ⟨this.1, this.2.1⟩
            · exact hstk r (List.mem_cons_of_mem _ hr)
          have hPW2 : List.Pairwise DisjR
              ((walkPushes (flatAt G cur.pos) cur).reverse ++ ranges) := by
            rw [List.pairwise_append]
            refine ⟨?_, hPWt, ?_⟩
            · rw [List.pairwise_reverse]
              exact hPWp.imp (fun h => disjR_symm h)
            · intro a ha b hb
              have hab := hbounds a (List.mem_reverse.mp ha)
              exact disjR_subset hab.2.2.1 hab.2.2.2 (hheadD b hb)
          obtain ⟨IH1, IH2⟩ := ih _ _ hf hwp hstk2 hPW2 v c hc
          refine ⟨?_, ?_⟩
          · intro r hr hm
            rcases List.mem_cons.mp hr with heq | hr
            · rw [heq] at hm ⊢
              obtain ⟨r2, hr2mem, hr2v, hlink⟩ :=
                pushes_route hleaf hp15 hp1 hp2 hd1 hd2 hc hm
              obtain ⟨L, hlkL, ht1, ht2, ht3⟩ := IH1 r2
                (List.mem_append_left _ (List.mem_reverse.mpr hr2mem)) hr2v
              have hreach : FlatReach G c cur.pos L :=
                hlink L ⟨G.length + 1, hlkL⟩
              have hs := @flatLookup_isSome G c hG (G.length + 1)
                cur.pos (by omega)
              rcases hl0 : flatLookup G c (G.length + 1) cur.pos with _ | L0
              · rw [hl0] at hs; simp at hs
              · have hLe : L0 = L := flatReach_det ⟨_, hl0⟩ hreach
                subst hLe
                exact ⟨L0, rfl, ht1, ht2, ht3⟩
            · exact IH1 r (List.mem_append_right _ hr) hm
          · intro hnone
            apply IH2
            intro r2 hr2
            rcases List.mem_append.mp hr2 with hr2 | hr2
            · intro hm2
              have hb2 := hbounds r2 (List.mem_reverse.mp hr2)
              exact hnone cur (by simp)
                ⟨by obtain ⟨h1, h2⟩ := hm2; omega,
                 by obtain ⟨h1, h2⟩ := hm2; omega⟩
            · exact hnone r2 (List.mem_cons_of_mem _ hr2)

end JxlModular

namespace JxlModular

instance : Inhabited LeafInfo := ⟨⟨predZero, 0, 1, 0⟩⟩

/-- Modelled from the spec (§4.A–4.F): the per-pixel collaborators of the
channel codec.  All predictions and properties are deterministic functions
of the previously coded pixels of the channel (in raster order) and the
pixel index; the weighted-predictor state is itself such a function, so
`wpGuess`/`wpProp` absorb it, and reference-channel data is absorbed by
capture.  `pred p` is the predictor bank at predictor id `p`; `cprops`
is the combined property vector (static properties first). -/
structure PredOracle where
  wpGuess : List Int → Nat → Int
  wpProp : List Int → Nat → Int
  pred : Nat → List Int → Nat → Int
  cprops : List Int → Nat → Int → Int

/-- Encoder Path 1 (lines 255–275): clamped WP property indexes the
context table; the token is the plain residual against the WP guess. -/
def encSelP1 (O : PredOracle) (ew : EncWalk) : EncSel :=
  fun pre k =>
    (ew.ctxT (min (max (-kWPPropRange) (O.wpProp pre k))
      (kWPPropRange - 1) + kWPPropRange), O.wpGuess pre k, 1)

/-- Encoder Path 2 (lines 277–288): single Zero leaf with unit multiplier
and zero offset; the token is the packed pixel itself. -/
def encSelP2 (F : FlatTree) : EncSel :=
  fun _ _ => ((flatAt F 0).childID, 0, 1)

/-- Encoder Path 3 (lines 289–301): single non-Weighted leaf with unit
multiplier and zero offset. -/
def encSelP3 (O : PredOracle) (F : FlatTree) : EncSel :=
  fun pre k => ((flatAt F 0).childID, O.pred (flatAt F 0).predictor pre k, 1)

/-- Encoder Path 4 (lines 303–331): full tree lookup;
`res.guess = prediction + leaf offset` (modelled from the spec §4.G), and
the residual is divided by the leaf multiplier. -/
def encSelP4 (O : PredOracle) (F : FlatTree) (lf : Nat) : EncSel :=
  fun pre k =>
    let L := (flatLookup F (O.cprops pre k) lf 0).getD default
    (L.ctx, O.pred L.predictor pre k + L.predictor_offset, L.multiplier)

/-- The encoder's path dispatch (`EncodeModularChannelMAANS`). -/
def encChannelSel (O : PredOracle) (F : FlatTree) (filterWpOnly : Bool)
    (ew : EncWalk) (lf : Nat) : EncSel :=
  if filterWpOnly && ew.wpOnly then encSelP1 O ew
  else if F.length = 1 ∧ (flatAt F 0).predictor = predZero ∧
      (flatAt F 0).multiplier = 1 ∧ (flatAt F 0).predictor_offset = 0 then
    encSelP2 F
  else if F.length = 1 ∧ (flatAt F 0).predictor ≠ predWeighted ∧
      (flatAt F 0).multiplier = 1 ∧ (flatAt F 0).predictor_offset = 0 then
    encSelP3 O F
  else encSelP4 O F lf

/-- `EncodeModularChannelMAANS` for one channel: filter the tree, run the
encoder's WP walk, dispatch, and emit one token per pixel. -/
def encodeChannel (O : PredOracle) (t : Tree) (sp : StaticProps)
    (px : List Int) (ff wf lf : Nat) : Option (List Token) :=
  match filterTree t sp ff with
  | none => none
  | some st =>
    some (encFrom
      (encChannelSel O st.output st.wpOnly (encWalkInit st.output wf) lf)
      px 0)

/-- Decoder Path 1 (lines 434–461): clamped WP property indexes the three
tables built by the decoder's walk. -/
def decSelD1 (O : PredOracle) (dw : DecWalk) : DecSel :=
  fun pre k =>
    (dw.ctxT (min (max (-kWPPropRange) (O.wpProp pre k))
        (kWPPropRange - 1) + kWPPropRange),
     dw.multT (min (max (-kWPPropRange) (O.wpProp pre k))
        (kWPPropRange - 1) + kWPPropRange),
     dw.offT (min (max (-kWPPropRange) (O.wpProp pre k))
        (kWPPropRange - 1) + kWPPropRange),
     O.wpGuess pre k)

/-- Decoder fast track for a single Zero leaf (lines 482–491):
`sat_add(unpack(v) * multiplier, offset)`. -/
def decSelD2 (G : FlatTree) : DecSel :=
  fun _ _ => ((flatAt G 0).childID, (flatAt G 0).multiplier, 0,
    (flatAt G 0).predictor_offset)

/-- Decoder tracks for a single non-Zero leaf (lines 493–527): the
prediction (from the plain bank or the WP state) plus the leaf offset. -/
def decSelD34 (O : PredOracle) (G : FlatTree) : DecSel :=
  fun pre k => ((flatAt G 0).childID, (flatAt G 0).multiplier, 0,
    O.pred (flatAt G 0).predictor pre k + (flatAt G 0).predictor_offset)

/-- Decoder generic tracks (lines 528–570): full tree lookup;
`res.guess = prediction + leaf offset` (modelled from the spec §4.G).
The no-WP and with-WP tracks differ only in skipping the WP state, which
this functional model absorbs into the oracle. -/
def decSelD56 (O : PredOracle) (G : FlatTree) (lf : Nat) : DecSel :=
  fun pre k =>
    let L := (flatLookup G (O.cprops pre k) lf 0).getD default
    (L.ctx, L.multiplier, 0, O.pred L.predictor pre k + L.predictor_offset)

/-- Modelled from the spec (§6): `ANSSymbolReader::IsSingleValue(ctx, &v,
count)` recognizes a point-mass histogram, in which case every one of the
`count` upcoming reads in that context returns `v` and consumes nothing.
Operationally on the token stream: the next `count` tokens all carry this
clustered context and one common value. -/
def isSingleValue (cmap : Nat → Nat) (c : Nat) (n : Nat)
    (ts : List Token) : Option Nat :=
  match ts with
  | [] => none
  | t :: _ =>
    if 0 < n ∧ ((ts.take n).all fun t2 =>
        (cmap t2.ctx == c) && (t2.val == t.val)) then
      some t.val
    else none

/-- `DecodeModularChannelMAANS` for one channel: filter the tree, remap
leaf contexts through the context map (lines 362–366), run the decoder's
WP walk, dispatch, and reconstruct one pixel per token (or memset on a
single-value histogram). -/
def decodeChannel (O : PredOracle) (cmap : Nat → Nat) (t : Tree)
    (sp : StaticProps) (n : Nat) (ff wf lf : Nat) (ts : List Token) :
    Option (List Int × List Token) :=
  match filterTree t sp ff with
  | none => none
  | some st =>
    let G := remapFlat cmap st.output
    let dw := decWalkInit G wf
    if st.wpOnly && dw.wpOnly then
      decChanGo cmap (decSelD1 O dw) n ts []
    else if G.length = 1 then
      if (flatAt G 0).predictor = predZero then
        match isSingleValue cmap (flatAt G 0).childID n ts with
        | some u =>
          some (List.replicate n
            (saturatingAdd (unpackSigned u * (flatAt G 0).multiplier)
              (flatAt G 0).predictor_offset), ts.drop n)
        | none => decChanGo cmap (decSelD2 G) n ts []
      else decChanGo cmap (decSelD34 O G) n ts []
    else decChanGo cmap (decSelD56 O G lf) n ts []

end JxlModular

namespace JxlModular

theorem getD_mem_px {px : List Int} {k : Nat} (h : k < px.length) :
    px.getD k 0 ∈ px := by
  rw [List.getD_eq_getElem?_getD, List.getElem?_eq_getElem h]
  exact List.getElem_mem h

theorem encFrom_length (s : EncSel) (px : List Int) :
    ∀ j, (encFrom s px j).length = px.length - j := by
  intro j
  by_cases h : j < px.length
  · rw [encFrom, dif_pos h]
    have := encFrom_length s px (j + 1)
    simp [this]
    omega
  · rw [encFrom, dif_neg h]
    simp
    omega
termination_by j => px.length - j

theorem encFrom_mem (s : EncSel) (px : List Int) :
    ∀ j k, j ≤ k → k < px.length → encTok s px k ∈ encFrom s px j := by
  intro j
  by_cases h : j < px.length
  · intro k hjk hk
    rw [encFrom, dif_pos h]
    by_cases hkj : k = j
    · subst hkj
      exact List.mem_cons_self _ _
    · exact List.mem_cons_of_mem _
        (encFrom_mem s px (j + 1) k (by omega) hk)
  · intro k hjk hk
    omega
termination_by j => px.length - j

/-- A successful flat lookup on a bounded tree returns the data of some
leaf node of the tree. -/
theorem flatLookup_leafSource {F : FlatTree} {c : Int → Int}
    (hB : BoundedFlat F) :
    ∀ n p L, p < F.length → flatLookup F c n p = some L →
      ∃ q, q < F.length ∧ (flatAt F q).property0 = -1 ∧
        L = flatLeafInfoOf (flatAt F q) := by
  intro n
  induction n with
  | zero => intro p L _ h; simp [flatLookup] at h
  | succ n ih =>
    intro p L hp h
    simp only [flatLookup] at h
    by_cases hleaf : (flatAt F p).property0 = -1
    · rw [if_pos hleaf, Option.some.injEq] at h
      exact ⟨p, hp, hleaf, h.symm⟩
    · rw [if_neg hleaf] at h
      have hb := hB p hp hleaf
      apply ih _ _ _ h
      have : (if c (flatAt F p).property0 > (flatAt F p).splitval0 then
          if c (flatAt F p).properties.1 > (flatAt F p).splitvals.1
          then 0 else 1
        else
          if c (flatAt F p).properties.2 > (flatAt F p).splitvals.2
          then 2 else 3) ≤ 3 := by
        split <;> split <;> omega
      omega

/-- Leaf duplication survives the context remap on a bounded tree. -/
theorem remap_dupF (cmap : Nat → Nat) {F : FlatTree} (hB : BoundedFlat F)
    (hd : DupF F) : DupF (remapFlat cmap F) := by
  intro k hk hkin
  rw [remapFlat_length] at hk
  rw [remap_property0 cmap hk] at hkin
  rw [remap_inner cmap hk hkin]
  obtain ⟨hd1, hd2⟩ := hd k hk hkin
  have hb := hB k hk hkin
  constructor
  · intro hdum
    obtain ⟨heq, hlf⟩ := hd1 hdum
    constructor
    · rw [flatAt_remap cmap (by omega), flatAt_remap cmap (by omega), heq]
    · rw [remap_property0 cmap (by omega)]
      exact hlf
  · intro hdum
    obtain ⟨heq, hlf⟩ := hd2 hdum
    constructor
    · rw [flatAt_remap cmap (by omega), flatAt_remap cmap (by omega), heq]
    · rw [remap_property0 cmap (by omega)]
      exact hlf

/-- Consolidated structural facts about `FilterTree` output. -/
theorem filterTree_facts {t : Tree} {sp : StaticProps} {fuel : Nat}
    {st : FilterState} (hWF : WFTree t)
    (hrun : filterTree t sp fuel = some st) :
    GoodFlat st.output ∧ BoundedFlat st.output ∧ ShapeLocal st.output ∧
    DupF st.output ∧ 0 < st.output.length ∧
    st.wpOnly = (flatLeavesWeighted st.output &&
      (flatUsedMask st.output == 1 <<< kWPProp)) := by
  unfold filterTree at hrun
  rcases hgo : filterGo t sp fuel [0] filterInit with _ | st0
  · rw [hgo] at hrun; exact Option.noConfusion hrun
  · rw [hgo] at hrun
    simp only [Option.map] at hrun
    injection hrun with hrun
    subst hrun
    have hq0 : ∀ e ∈ [0], e < t.length := by
      intro e he; simp at he; subst he; exact hWF.1
    have hout : (filterFinish st0).output = st0.output := rfl
    obtain ⟨tail, htail, hwp, hused, -⟩ :=
      filterGo_flags _ _ _ _ hgo
    have htl : st0.output = tail := by simpa [filterInit] using htail
    refine ⟨?_, ?_, ?_, ?_, ?_, ?_⟩
    · rw [hout]
      exact filterGo_goodFlat _ _ _ _ hgo
        (by intro k hk; simp [filterInit] at hk)
    · rw [hout]
      exact filterGo_bounded hWF _ _ _ _ hgo hq0
        (by intro k hk; simp [filterInit] at hk)
    · rw [hout]
      exact filterGo_shapeLocal hWF _ _ _ _ hgo hq0
        (by intro k hk; simp [filterInit] at hk)
    · rw [hout]
      intro k hk hkin
      exact filterGo_dupF hWF _ _ _ _ hgo hq0 k (by simp [filterInit])
        hk hkin
    · rw [hout]
      have := filterGo_length _ _ _ _ hgo
      simp [filterInit] at this
      omega
    · show (st0.wpOnly && (st0.used == 1 <<< kWPProp)) = _
      rw [hout, htl, hwp, hused]
      simp [filterInit, flatUsedMask]

theorem filterChild_len {t : Tree} {sp : StaticProps} {np child : Nat}
    {pa sa : Int} {push : List Nat} {np2 : Nat}
    (h : filterChild t sp np child = some (pa, sa, push, np2)) :
    push.length = 2 := by
  rcases hskip : skipStatic t sp (t.length + 1) child with _ | c0
  · simp only [filterChild, hskip] at h
    exact Option.noConfusion h
  · simp only [filterChild, hskip] at h
    split at h <;>
      · rw [Option.some.injEq, Prod.mk.injEq, Prod.mk.injEq,
          Prod.mk.injEq] at h
        obtain ⟨-, -, hp, -⟩ := h
        rw [← hp]
        rfl

/-- A one-node `FilterTree` output is a single leaf. -/
theorem filterTree_len1 {t : Tree} {sp : StaticProps} {fuel : Nat}
    {st : FilterState} (hrun : filterTree t sp fuel = some st)
    (hlen : st.output.length = 1) :
    (flatAt st.output 0).property0 = -1 := by
  unfold filterTree at hrun
  rcases hgo : filterGo t sp fuel [0] filterInit with _ | st0
  · rw [hgo] at hrun; exact Option.noConfusion hrun
  · rw [hgo] at hrun
    simp only [Option.map] at hrun
    injection hrun with hrun
    subst hrun
    have hout : (filterFinish st0).output = st0.output := rfl
    rw [hout] at hlen ⊢
    match fuel, hgo with
    | fuel + 1, hgo =>
      rcases hskip : skipStatic t sp (t.length + 1) 0 with _ | cur
      · simp only [filterGo, hskip] at hgo
        exact Option.noConfusion hgo
      · simp only [filterGo, hskip] at hgo
        split at hgo <;> rename_i hleaf
        · obtain ⟨tail, htail⟩ := filterGo_output_extend _ _ _ _ hgo
          have hsimp : st0.output =
              { property0 := -1, childID := (treeAt t cur).lchild,
                predictor := (treeAt t cur).predictor,
                predictor_offset := (treeAt t cur).predictor_offset,
                multiplier := (treeAt t cur).multiplier } :: tail := by
            simpa [filterInit] using htail
          rw [hsimp] at hlen ⊢
          have ht : tail = [] := by simpa using hlen
          subst ht
          rfl
        · rcases hcA : filterChild t sp
              (max ((treeAt t cur).property.toNat + 1) filterInit.numProps)
              (treeAt t cur).lchild with _ | resA
          · simp only [hcA] at hgo
            exact Option.noConfusion hgo
          · obtain ⟨pa, sa, pushA, npA⟩ := resA
            simp only [hcA] at hgo
            rcases hcB : filterChild t sp npA (treeAt t cur).rchild
                with _ | resB
            · simp only [hcB] at hgo
              exact Option.noConfusion hgo
            · obtain ⟨pb, sb, pushB, npB⟩ := resB
              simp only [hcB] at hgo
              have := filterGo_length _ _ _ _ hgo
              have hA := filterChild_len hcA
              have hBl := filterChild_len hcB
              simp only [filterInit, List.length_append, List.length_cons,
                List.length_nil] at this hlen
              omega

end JxlModular

namespace JxlModular

theorem recon_exact2 {p g m o : Int} (hdvd : m ∣ (p - g))
    (hlo : pixelMin ≤ p) (hhi : p ≤ pixelMax) (ho : o = g) :
    saturatingAdd (unpackSigned (packSigned ((p - g) / m)) * m) o = p := by
  rw [unpack_pack, Int.ediv_mul_cancel hdvd]
  unfold saturatingAdd clampPixel
  have hv : p - g + o = p := by omega
  rw [hv, min_eq_right hhi, max_eq_right hlo]

/-- Path-1 pairing: the encoder's WP fast path round-trips against the
decoder's WP fast path. -/
theorem roundtrip_P1D1 (O : PredOracle) (cmap : Nat → Nat) {F : FlatTree}
    (px : List Int) (rest : List Token) {wf : Nat}
    (hB : BoundedFlat F) (hlen : 0 < F.length)
    (hewf : (encWalkInit F wf).fuelOut = false)
    (hewp : (encWalkInit F wf).wpOnly = true)
    (hclampP : ∀ pre k, -kWPPropRange ≤ O.wpProp pre k ∧
      O.wpProp pre k ≤ kWPPropRange - 1)
    (hpx : ∀ x ∈ px, pixelMin ≤ x ∧ x ≤ pixelMax) :
    decChanGo cmap (decSelD1 O (decWalkInit (remapFlat cmap F) wf))
      px.length (encFrom (encSelP1 O (encWalkInit F wf)) px 0 ++ rest) [] =
      some (px, rest) := by
  obtain ⟨hdf, hdwp, hwrites, hrel⟩ :=
    walk_lockstep F cmap hB wf [initRange] encInit decInit
      (by intro r hr; simp at hr; subst hr; exact hlen)
      hewf hewp rfl rfl rfl (by intro p hp; simp [encInit] at hp)
  apply engine_roundtrip
  intro k hk
  obtain ⟨hv1, hv2⟩ := hclampP (px.take k) k
  have hclamp : min (max (-kWPPropRange) (O.wpProp (px.take k) k))
      (kWPPropRange - 1) = O.wpProp (px.take k) k := by omega
  have hcov : (O.wpProp (px.take k) k + kWPPropRange) ∈
      (encWalkInit F wf).writes := by
    apply encWalk_coverage F wf [initRange] encInit hewf hewp
    refine ⟨initRange, by simp, ?_, ?_⟩
    · show -kWPPropRange - 1 < _
      omega
    · show _ ≤ kWPPropRange - 1
      omega
  obtain ⟨hctx, hmlt, hoff⟩ := hrel _ hcov
  rw [show decWalk (remapFlat cmap F) wf [initRange] decInit =
    decWalkInit (remapFlat cmap F) wf from rfl] at hmlt hoff
  obtain ⟨hplo, hphi⟩ := hpx _ (getD_mem_px hk)
  constructor
  · show (decSelD1 O (decWalkInit (remapFlat cmap F) wf) (px.take k) k).1 =
      cmap ((encSelP1 O (encWalkInit F wf) (px.take k) k).1)
    unfold decSelD1 encSelP1
    dsimp only
    rw [hclamp]
    exact hctx
  · unfold decSelD1 encSelP1 decStepVal
    dsimp only
    rw [hclamp, hmlt, hoff]
    exact recon_exact (one_dvd _) hplo hphi (by omega)

end JxlModular

namespace JxlModular

/-- Generic pairing: the encoder's full tree path round-trips against the
decoder's generic tracks on the remapped tree. -/
theorem roundtrip_P4D56 (O : PredOracle) (cmap : Nat → Nat) {F : FlatTree}
    (px : List Int) (rest : List Token) {lf : Nat}
    (hB : BoundedFlat F) (hG : GoodFlat F) (hlen : 0 < F.length)
    (hlf : F.length + 1 ≤ lf)
    (hpx : ∀ x ∈ px, pixelMin ≤ x ∧ x ≤ pixelMax)
    (hdiv : ∀ k, k < px.length →
      ((encSelP4 O F lf) (px.take k) k).2.2 ∣
        (px.getD k 0 - ((encSelP4 O F lf) (px.take k) k).2.1)) :
    decChanGo cmap (decSelD56 O (remapFlat cmap F) lf) px.length
      (encFrom (encSelP4 O F lf) px 0 ++ rest) [] = some (px, rest) := by
  apply engine_roundtrip
  intro k hk
  have hs := @flatLookup_isSome F (O.cprops (px.take k) k) hG
    (F.length + 1) 0 (by omega)
  rcases hl0 : flatLookup F (O.cprops (px.take k) k) (F.length + 1) 0
    with _ | L0
  · rw [hl0] at hs; simp at hs
  · have hlfF : flatLookup F (O.cprops (px.take k) k) lf 0 = some L0 :=
      flatLookup_mono F _ _ _ _ _ hl0 hlf
    have hlfG : flatLookup (remapFlat cmap F) (O.cprops (px.take k) k)
        lf 0 = some (remapLeaf cmap L0) := by
      rw [flatLookup_remap cmap hB lf 0 hlen, hlfF]
      rfl
    have hdvd := hdiv k hk
    unfold encSelP4 at hdvd
    rw [hlfF] at hdvd
    obtain ⟨hplo, hphi⟩ := hpx _ (getD_mem_px hk)
    constructor
    · show (decSelD56 O (remapFlat cmap F) lf (px.take k) k).1 =
        cmap ((encSelP4 O F lf (px.take k) k).1)
      unfold decSelD56 encSelP4
      rw [hlfF, hlfG]
      rfl
    · unfold decSelD56 encSelP4 decStepVal
      rw [hlfF, hlfG]
      dsimp only [Option.getD, remapLeaf]
      exact recon_exact hdvd hplo hphi (by omega)

end JxlModular

namespace JxlModular

theorem leavesWeighted_at {F : List FlatDecisionNode}
    (hlw : flatLeavesWeighted F = true) {q : Nat} (hq : q < F.length)
    (hleaf : (flatAt F q).property0 = -1) :
    (flatAt F q).predictor = predWeighted := by
  unfold flatLeavesWeighted at hlw
  rw [List.all_eq_true] at hlw
  have hfa : flatAt F q = F[q] := by
    unfold flatAt
    rw [List.getD_eq_getElem?_getD, List.getElem?_eq_getElem hq]
    rfl
  have h2 := hlw _ (List.getElem_mem hq)
  rw [← hfa] at h2
  simp only [hleaf, beq_self_eq_true, Bool.not_true, Bool.false_or,
    beq_iff_eq] at h2
  exact h2

/-- WP-only pairing across paths: when the decoder takes the WP fast path
but the encoder fell back to the full tree path (e.g. a leaf with a
nonzero offset), the decoder's tables still reproduce the encoder's
lookup, clustered. -/
theorem roundtrip_P4D1 (O : PredOracle) (cmap : Nat → Nat) {F : FlatTree}
    (px : List Int) (rest : List Token) {wf lf : Nat}
    (hB : BoundedFlat F) (hG : GoodFlat F) (hdup : DupF F)
    (hlen : 0 < F.length)
    (hsh : ∀ k, k < F.length → (flatAt F k).property0 ≠ -1 →
      (flatAt F k).property0 = (kWPProp : Int) ∧
      ((flatAt F k).properties.1 ≥ (kNumStaticProperties : Int) →
        (flatAt F k).properties.1 = (kWPProp : Int)) ∧
      ((flatAt F k).properties.2 ≥ (kNumStaticProperties : Int) →
        (flatAt F k).properties.2 = (kWPProp : Int)))
    (hlw : flatLeavesWeighted F = true)
    (hlf : F.length + 1 ≤ lf)
    (hdwf : (decWalkInit (remapFlat cmap F) wf).fuelOut = false)
    (hdwp : (decWalkInit (remapFlat cmap F) wf).wpOnly = true)
    (hnest : NestedP (remapFlat cmap F) 0 (-kWPPropRange - 1)
      (kWPPropRange - 1))
    (hclampP : ∀ pre k, -kWPPropRange ≤ O.wpProp pre k ∧
      O.wpProp pre k ≤ kWPPropRange - 1)
    (hwpp : ∀ pre k, O.cprops pre k (kWPProp : Int) = O.wpProp pre k)
    (hwpg : ∀ pre k, O.pred predWeighted pre k = O.wpGuess pre k)
    (hpx : ∀ x ∈ px, pixelMin ≤ x ∧ x ≤ pixelMax)
    (hdiv : ∀ k, k < px.length →
      ((encSelP4 O F lf) (px.take k) k).2.2 ∣
        (px.getD k 0 - ((encSelP4 O F lf) (px.take k) k).2.1)) :
    decChanGo cmap (decSelD1 O (decWalkInit (remapFlat cmap F) wf))
      px.length (encFrom (encSelP4 O F lf) px 0 ++ rest) [] =
      some (px, rest) := by
  have hBG := remap_boundedFlat cmap hB
  have hGG := remap_goodFlat cmap hG
  have hdupG := remap_dupF cmap hB hdup
  have hlenG : (remapFlat cmap F).length = F.length := remapFlat_length _ _
  have hshG : ∀ k, k < (remapFlat cmap F).length →
      (flatAt (remapFlat cmap F) k).property0 ≠ -1 →
      (flatAt (remapFlat cmap F) k).property0 = (kWPProp : Int) ∧
      ((flatAt (remapFlat cmap F) k).properties.1 ≥
          (kNumStaticProperties : Int) →
        (flatAt (remapFlat cmap F) k).properties.1 = (kWPProp : Int)) ∧
      ((flatAt (remapFlat cmap F) k).properties.2 ≥
          (kNumStaticProperties : Int) →
        (flatAt (remapFlat cmap F) k).properties.2 = (kWPProp : Int)) := by
    intro k hk hkin
    rw [hlenG] at hk
    rw [remap_property0 cmap hk] at hkin
    rw [remap_inner cmap hk hkin]
    exact hsh k hk hkin
  apply engine_roundtrip
  intro k hk
  obtain ⟨hv1, hv2⟩ := hclampP (px.take k) k
  have hclamp : min (max (-kWPPropRange) (O.wpProp (px.take k) k))
      (kWPPropRange - 1) = O.wpProp (px.take k) k := by omega
  have hc : O.cprops (px.take k) k (kWPProp : Int) = O.wpProp (px.take k) k :=
    hwpp _ _
  obtain ⟨htab, -⟩ := decWalk_table (remapFlat cmap F) hdupG hBG hGG hshG
    wf [initRange] decInit hdwf hdwp
    (by
      intro r hr
      simp only [List.mem_singleton] at hr
      subst hr
      exact ⟨by rw [hlenG]; exact hlen, hnest⟩)
    (List.pairwise_singleton _ _)
    (O.wpProp (px.take k) k) (O.cprops (px.take k) k) hc
  obtain ⟨L, hlkG, ht1, ht2, ht3⟩ := htab initRange (by simp)
    ⟨by show -kWPPropRange - 1 < _; omega,
     by show _ ≤ kWPPropRange - 1; omega⟩
  rw [show decWalk (remapFlat cmap F) wf [initRange] decInit =
    decWalkInit (remapFlat cmap F) wf from rfl] at ht1 ht2 ht3
  have hs := @flatLookup_isSome F (O.cprops (px.take k) k) hG
    (F.length + 1) 0 (by omega)
  rcases hl0 : flatLookup F (O.cprops (px.take k) k) (F.length + 1) 0
    with _ | L0
  · rw [hl0] at hs; simp at hs
  · have hlfF : flatLookup F (O.cprops (px.take k) k) lf 0 = some L0 :=
      flatLookup_mono F _ _ _ _ _ hl0 hlf
    have hlkG2 : flatLookup (remapFlat cmap F) (O.cprops (px.take k) k)
        ((remapFlat cmap F).length + 1) 0 = some (remapLeaf cmap L0) := by
      rw [flatLookup_remap cmap hB _ 0 hlen]
      rw [hlenG, hl0]
      rfl
    have hLeq : L = remapLeaf cmap L0 := by
      have h2 : flatLookup (remapFlat cmap F) (O.cprops (px.take k) k)
          ((remapFlat cmap F).length + 1) initRange.pos =
          some (remapLeaf cmap L0) := hlkG2
      rw [hlkG] at h2
      exact (Option.some.injEq _ _).mp h2
    obtain ⟨q, hq, hqleaf, hqinfo⟩ :=
      flatLookup_leafSource hB (F.length + 1) 0 L0 hlen hl0
    have hqw : (flatAt F q).predictor = predWeighted :=
      leavesWeighted_at hlw hq hqleaf
    have hpredW : L0.predictor = predWeighted := by
      rw [hqinfo]
      exact hqw
    have hdvd := hdiv k hk
    unfold encSelP4 at hdvd
    rw [hlfF] at hdvd
    simp only [Option.getD] at hdvd
    rw [hpredW, hwpg] at hdvd
    obtain ⟨hplo, hphi⟩ := hpx _ (getD_mem_px hk)
    constructor
    · show (decSelD1 O (decWalkInit (remapFlat cmap F) wf)
        (px.take k) k).1 = cmap ((encSelP4 O F lf (px.take k) k).1)
      unfold decSelD1 encSelP4
      dsimp only
      rw [hclamp, ht1, hLeq, hlfF]
      rfl
    · unfold decSelD1 encSelP4 decStepVal
      dsimp only
      rw [hclamp, ht2, ht3, hLeq, hlfF]
      dsimp only [Option.getD, remapLeaf]
      rw [hpredW, hwpg]
      exact recon_exact hdvd hplo hphi (by omega)

end JxlModular

namespace JxlModular

/-- Single-value fast path: when the reader recognizes a point-mass
histogram on the encoder's token stream, the memset reconstruction equals
the original pixels. -/
theorem roundtrip_singlevalue (cmap : Nat → Nat) (es : EncSel)
    (px : List Int) (rest : List Token) {c : Nat} {m off : Int} {u : Nat}
    (hisv : isSingleValue cmap c px.length (encFrom es px 0 ++ rest) =
      some u)
    (hrec : ∀ k, k < px.length →
      saturatingAdd (unpackSigned (packSigned ((px.getD k 0 -
        (es (px.take k) k).2.1) / (es (px.take k) k).2.2)) * m) off =
        px.getD k 0) :
    List.replicate px.length (saturatingAdd (unpackSigned u * m) off) =
        px ∧
      (encFrom es px 0 ++ rest).drop px.length = rest := by
  have hl := encFrom_length es px 0
  simp only [Nat.sub_zero] at hl
  constructor
  · rcases hts : encFrom es px 0 ++ rest with _ | ⟨t0, ts2⟩
    · rw [hts] at hisv
      simp [isSingleValue] at hisv
    · rw [hts] at hisv
      simp only [isSingleValue] at hisv
      split at hisv <;> rename_i hcond
      case _ =>
        injection hisv with hu
        obtain ⟨hn, hall⟩ := hcond
        have htake : (t0 :: ts2).take px.length = encFrom es px 0 := by
          rw [← hts, ← hl]
          exact List.take_left _ _
        rw [htake, List.all_eq_true] at hall
        have hvals : ∀ k, k < px.length →
            px.getD k 0 = saturatingAdd (unpackSigned u * m) off := by
          intro k hk
          have hmem := encFrom_mem es px 0 k (by omega) hk
          have h2 := hall _ hmem
          simp only [Bool.and_eq_true, beq_iff_eq] at h2
          have hval : packSigned ((px.getD k 0 - (es (px.take k) k).2.1) /
              (es (px.take k) k).2.2) = u := by
            have h3 := h2.2
            rw [hu] at h3
            exact h3
          rw [← hrec k hk, hval]
        have hmem2 : ∀ b ∈ px, b = saturatingAdd (unpackSigned u * m) off := by
          intro b hb
          obtain ⟨k, hk, hkb⟩ := List.mem_iff_getElem.mp hb
          have : px.getD k 0 = b := by
            rw [List.getD_eq_getElem?_getD, List.getElem?_eq_getElem hk, hkb]
            rfl
          rw [← this]
          exact hvals k hk
        exact (List.eq_replicate_of_mem hmem2).symm
      case _ =>
        exact Option.noConfusion hisv
  · rw [← hl]
    exact List.drop_left _ _

end JxlModular

namespace JxlModular

theorem flatLookup_leaf_any {G : FlatTree} {c : Int → Int} {n p : Nat}
    (hn : 1 ≤ n) (hleaf : (flatAt G p).property0 = -1) :
    flatLookup G c n p = some (flatLeafInfoOf (flatAt G p)) := by
  obtain ⟨n2, rfl⟩ : ∃ n2, n = n2 + 1 := ⟨n - 1, by omega⟩
  exact flatLookup_leaf_succ hleaf

/-- **Channel round trip**: for every channel, every well-formed authoring
tree, and collaborators satisfying their spec contracts, decoding the
encoder's token stream reproduces the original pixels and leaves the rest
of the stream untouched, whichever of the encoder's four and the decoder's
six paths are taken. -/
theorem channel_roundtrip (O : PredOracle) (cmap : Nat → Nat) (t : Tree)
    (sp : StaticProps) (px : List Int) (rest : List Token)
    (ff wf lf : Nat) (st : FilterState)
    (hWF : WFTree t) (hrun : filterTree t sp ff = some st)
    (hlf : st.output.length + 1 ≤ lf)
    (hewf : (encWalkInit st.output wf).fuelOut = false)
    (hdwf : (decWalkInit (remapFlat cmap st.output) wf).fuelOut = false)
    (hnest : st.wpOnly = true →
      NestedP (remapFlat cmap st.output) 0 (-kWPPropRange - 1)
        (kWPPropRange - 1))
    (hclampP : ∀ pre k, -kWPPropRange ≤ O.wpProp pre k ∧
      O.wpProp pre k ≤ kWPPropRange - 1)
    (hzero : ∀ pre k, O.pred predZero pre k = 0)
    (hwpp : ∀ pre k, O.cprops pre k (kWPProp : Int) = O.wpProp pre k)
    (hwpg : ∀ pre k, O.pred predWeighted pre k = O.wpGuess pre k)
    (hpx : ∀ x ∈ px, pixelMin ≤ x ∧ x ≤ pixelMax)
    (hdiv : ∀ k, k < px.length →
      ((encChannelSel O st.output st.wpOnly (encWalkInit st.output wf) lf)
          (px.take k) k).2.2 ∣
        (px.getD k 0 -
          ((encChannelSel O st.output st.wpOnly
            (encWalkInit st.output wf) lf) (px.take k) k).2.1)) :
    ∃ ts, encodeChannel O t sp px ff wf lf = some ts ∧
      decodeChannel O cmap t sp px.length ff wf lf (ts ++ rest) =
        some (px, rest) := by
  obtain ⟨hGf, hBf, hSf, hDf, hlenf, hflag⟩ := filterTree_facts hWF hrun
  have hGlen : (remapFlat cmap st.output).length = st.output.length :=
    remapFlat_length _ _
  refine ⟨encFrom (encChannelSel O st.output st.wpOnly
    (encWalkInit st.output wf) lf) px 0, ?_, ?_⟩
  · simp only [encodeChannel, hrun]
  · simp only [decodeChannel, hrun]
    by_cases hD1 : (st.wpOnly &&
        (decWalkInit (remapFlat cmap st.output) wf).wpOnly) = true
    · rw [if_pos hD1]
      obtain ⟨hstw, hdwp⟩ := Bool.and_eq_true_iff.mp hD1
      by_cases hE1 : (st.wpOnly &&
          (encWalkInit st.output wf).wpOnly) = true
      · have hsel : encChannelSel O st.output st.wpOnly
            (encWalkInit st.output wf) lf =
            encSelP1 O (encWalkInit st.output wf) := by
          unfold encChannelSel
          rw [if_pos hE1]
        rw [hsel]
        exact roundtrip_P1D1 O cmap px rest hBf hlenf hewf
          (Bool.and_eq_true_iff.mp hE1).2 hclampP hpx
      · have hlw : flatLeavesWeighted st.output = true := by
          rw [hstw] at hflag
          exact (Bool.and_eq_true_iff.mp hflag.symm).1
        have hmask : flatUsedMask st.output = 1 <<< kWPProp := by
          rw [hstw] at hflag
          have := (Bool.and_eq_true_iff.mp hflag.symm).2
          exact beq_iff_eq.mp this
        have hne1 : st.output.length ≠ 1 := by
          intro h1
          have hleaf0 := filterTree_len1 hrun h1
          obtain ⟨a, ha⟩ := List.length_eq_one.mp h1
          have hfa : flatAt st.output 0 = a := by
            rw [ha]; rfl
          have : flatUsedMask st.output = 0 := by
            rw [ha]
            unfold flatUsedMask
            simp only [List.foldl_cons, List.foldl_nil]
            unfold maskStep
            rw [if_pos (by rw [← hfa]; exact hleaf0)]
          rw [this] at hmask
          exact absurd hmask.symm (by decide)
        have hsel : encChannelSel O st.output st.wpOnly
            (encWalkInit st.output wf) lf = encSelP4 O st.output lf := by
          unfold encChannelSel
          rw [if_neg hE1, if_neg (by intro hc; exact hne1 hc.1),
            if_neg (by intro hc; exact hne1 hc.1)]
        rw [hsel]
        rw [hsel] at hdiv
        exact roundtrip_P4D1 O cmap px rest hBf hGf hDf hlenf
          (mask_shape hmask hSf) hlw hlf hdwf hdwp (hnest hstw)
          hclampP hwpp hwpg hpx hdiv
    · rw [if_neg hD1]
      have hE1 : ¬(st.wpOnly && (encWalkInit st.output wf).wpOnly) = true := by
        intro hc
        obtain ⟨hstw, hewp⟩ := Bool.and_eq_true_iff.mp hc
        obtain ⟨-, hdwp2, -, -⟩ :=
          walk_lockstep st.output cmap hBf wf [initRange] encInit decInit
            (by intro r hr; simp at hr; subst hr; exact hlenf)
            hewf hewp rfl rfl rfl (by intro p hp; simp [encInit] at hp)
        exact hD1 (by
          rw [hstw, show (decWalkInit (remapFlat cmap st.output) wf) =
            decWalk (remapFlat cmap st.output) wf [initRange] decInit
            from rfl, hdwp2]
          rfl)
      by_cases hL1 : (remapFlat cmap st.output).length = 1
      · rw [if_pos hL1]
        have hF1 : st.output.length = 1 := by rw [← hGlen]; exact hL1
        have hlen0 : (0 : Nat) < st.output.length := by omega
        have hleaf0 := filterTree_len1 hrun hF1
        have hGleaf0 : (flatAt (remapFlat cmap st.output) 0).property0 =
            -1 := by
          rw [remap_property0 cmap hlen0]; exact hleaf0
        have hGm : (flatAt (remapFlat cmap st.output) 0).multiplier =
            (flatAt st.output 0).multiplier := remap_mult cmap hlen0
        have hGo : (flatAt (remapFlat cmap st.output) 0).predictor_offset =
            (flatAt st.output 0).predictor_offset := remap_offset cmap hlen0
        have hGp : (flatAt (remapFlat cmap st.output) 0).predictor =
            (flatAt st.output 0).predictor := remap_predictor cmap hlen0
        have hGc : (flatAt (remapFlat cmap st.output) 0).childID =
            cmap ((flatAt st.output 0).childID) :=
          remap_leaf_childID cmap hlen0 hleaf0
        have hlkF : ∀ c2 : Int → Int, flatLookup st.output c2 lf 0 =
            some (flatLeafInfoOf (flatAt st.output 0)) :=
          fun c2 => flatLookup_leaf_any (by omega) hleaf0
        by_cases hZ : (flatAt (remapFlat cmap st.output) 0).predictor =
            predZero
        · rw [if_pos hZ]
          have hZF : (flatAt st.output 0).predictor = predZero := by
            rw [← hGp]; exact hZ
          by_cases hm1 : (flatAt st.output 0).multiplier = 1 ∧
              (flatAt st.output 0).predictor_offset = 0
          · have hsel : encChannelSel O st.output st.wpOnly
                (encWalkInit st.output wf) lf = encSelP2 st.output := by
              unfold encChannelSel
              rw [if_neg hE1, if_pos ⟨hF1, hZF, hm1.1, hm1.2⟩]
            rw [hsel]
            rcases hisv : isSingleValue cmap
                ((flatAt (remapFlat cmap st.output) 0).childID) px.length
                (encFrom (encSelP2 st.output) px 0 ++ rest) with _ | u
            · apply engine_roundtrip
              intro k hk
              obtain ⟨hplo, hphi⟩ := hpx _ (getD_mem_px hk)
              constructor
              · show (decSelD2 (remapFlat cmap st.output) (px.take k) k).1 =
                  cmap ((encSelP2 st.output (px.take k) k).1)
                unfold decSelD2 encSelP2
                exact hGc
              · unfold decSelD2 encSelP2 decStepVal
                dsimp only
                rw [hGm, hGo, hm1.1, hm1.2]
                exact recon_exact (one_dvd _) hplo hphi (by omega)
            · obtain ⟨hrep, hdrop⟩ := @roundtrip_singlevalue cmap
                (encSelP2 st.output) px rest
                ((flatAt (remapFlat cmap st.output) 0).childID)
                ((flatAt (remapFlat cmap st.output) 0).multiplier)
                ((flatAt (remapFlat cmap st.output) 0).predictor_offset)
                u hisv
                (by
                  intro k hk
                  obtain ⟨hplo, hphi⟩ := hpx _ (getD_mem_px hk)
                  unfold encSelP2
                  dsimp only
                  rw [hGm, hGo, hm1.1, hm1.2]
                  exact recon_exact2 (one_dvd _) hplo hphi rfl)
              show some (List.replicate px.length
                  (saturatingAdd (unpackSigned u *
                    (flatAt (remapFlat cmap st.output) 0).multiplier)
                    (flatAt (remapFlat cmap st.output) 0).predictor_offset),
                  List.drop px.length
                    (encFrom (encSelP2 st.output) px 0 ++ rest)) =
                some (px, rest)
              rw [hrep, hdrop]
          · have hsel : encChannelSel O st.output st.wpOnly
                (encWalkInit st.output wf) lf =
                encSelP4 O st.output lf := by
              unfold encChannelSel
              rw [if_neg hE1,
                if_neg (by intro hc; exact hm1 ⟨hc.2.2.1, hc.2.2.2⟩),
                if_neg (by intro hc; exact hm1 ⟨hc.2.2.1, hc.2.2.2⟩)]
            rw [hsel]
            rw [hsel] at hdiv
            have hselred : ∀ pre k, encSelP4 O st.output lf pre k =
                ((flatAt st.output 0).childID,
                  O.pred (flatAt st.output 0).predictor pre k +
                    (flatAt st.output 0).predictor_offset,
                  (flatAt st.output 0).multiplier) := by
              intro pre k
              unfold encSelP4
              rw [hlkF]
              rfl
            rcases hisv : isSingleValue cmap
                ((flatAt (remapFlat cmap st.output) 0).childID) px.length
                (encFrom (encSelP4 O st.output lf) px 0 ++ rest) with _ | u
            · apply engine_roundtrip
              intro k hk
              obtain ⟨hplo, hphi⟩ := hpx _ (getD_mem_px hk)
              have hdvd := hdiv k hk
              rw [hselred] at hdvd
              constructor
              · show (decSelD2 (remapFlat cmap st.output) (px.take k) k).1 =
                  cmap ((encSelP4 O st.output lf (px.take k) k).1)
                unfold decSelD2
                rw [hselred]
                exact hGc
              · unfold decSelD2 decStepVal
                dsimp only
                rw [hselred, hGm, hGo]
                dsimp only at hdvd ⊢
                rw [hZF, hzero] at hdvd ⊢
                exact recon_exact hdvd hplo hphi (by omega)
            · obtain ⟨hrep, hdrop⟩ := @roundtrip_singlevalue cmap
                (encSelP4 O st.output lf) px rest
                ((flatAt (remapFlat cmap st.output) 0).childID)
                ((flatAt (remapFlat cmap st.output) 0).multiplier)
                ((flatAt (remapFlat cmap st.output) 0).predictor_offset)
                u hisv
                (by
                  intro k hk
                  obtain ⟨hplo, hphi⟩ := hpx _ (getD_mem_px hk)
                  have hdvd := hdiv k hk
                  rw [hselred] at hdvd
                  rw [hselred]
                  dsimp only at hdvd ⊢
                  rw [hZF, hzero] at hdvd ⊢
                  rw [hGm, hGo]
                  exact recon_exact2 hdvd hplo hphi (by omega))
              show some (List.replicate px.length
                  (saturatingAdd (unpackSigned u *
                    (flatAt (remapFlat cmap st.output) 0).multiplier)
                    (flatAt (remapFlat cmap st.output) 0).predictor_offset),
                  List.drop px.length
                    (encFrom (encSelP4 O st.output lf) px 0 ++ rest)) =
                some (px, rest)
              rw [hrep, hdrop]
        · rw [if_neg hZ]
          have hZF : (flatAt st.output 0).predictor ≠ predZero := by
            rw [← hGp]; exact hZ
          by_cases hP3 : (flatAt st.output 0).predictor ≠ predWeighted ∧
              (flatAt st.output 0).multiplier = 1 ∧
              (flatAt st.output 0).predictor_offset = 0
          · have hsel : encChannelSel O st.output st.wpOnly
                (encWalkInit st.output wf) lf =
                encSelP3 O st.output := by
              unfold encChannelSel
              rw [if_neg hE1, if_neg (by intro hc; exact hZF hc.2.1),
                if_pos ⟨hF1, hP3.1, hP3.2.1, hP3.2.2⟩]
            rw [hsel]
            apply engine_roundtrip
            intro k hk
            obtain ⟨hplo, hphi⟩ := hpx _ (getD_mem_px hk)
            constructor
            · show (decSelD34 O (remapFlat cmap st.output) (px.take k) k).1 =
                cmap ((encSelP3 O st.output (px.take k) k).1)
              unfold decSelD34 encSelP3
              exact hGc
            · unfold decSelD34 encSelP3 decStepVal
              dsimp only
              rw [hGm, hGo, hGp, hP3.2.1, hP3.2.2]
              exact recon_exact (one_dvd _) hplo hphi (by omega)
          · have hsel : encChannelSel O st.output st.wpOnly
                (encWalkInit st.output wf) lf =
                encSelP4 O st.output lf := by
              unfold encChannelSel
              rw [if_neg hE1, if_neg (by intro hc; exact hZF hc.2.1),
                if_neg (by intro hc; exact hP3 ⟨hc.2.1, hc.2.2.1, hc.2.2.2⟩)]
            rw [hsel]
            rw [hsel] at hdiv
            have hselred : ∀ pre k, encSelP4 O st.output lf pre k =
                ((flatAt st.output 0).childID,
                  O.pred (flatAt st.output 0).predictor pre k +
                    (flatAt st.output 0).predictor_offset,
                  (flatAt st.output 0).multiplier) := by
              intro pre k
              unfold encSelP4
              rw [hlkF]
              rfl
            apply engine_roundtrip
            intro k hk
            obtain ⟨hplo, hphi⟩ := hpx _ (getD_mem_px hk)
            have hdvd := hdiv k hk
            rw [hselred] at hdvd
            constructor
            · show (decSelD34 O (remapFlat cmap st.output) (px.take k) k).1 =
                cmap ((encSelP4 O st.output lf (px.take k) k).1)
              unfold decSelD34
              rw [hselred]
              exact hGc
            · unfold decSelD34 decStepVal
              dsimp only
              rw [hselred, hGm, hGo, hGp]
              dsimp only at hdvd ⊢
              exact recon_exact hdvd hplo hphi (by omega)
      · rw [if_neg hL1]
        have hne1 : st.output.length ≠ 1 := by
          intro h1
          exact hL1 (by rw [hGlen]; exact h1)
        have hsel : encChannelSel O st.output st.wpOnly
            (encWalkInit st.output wf) lf = encSelP4 O st.output lf := by
          unfold encChannelSel
          rw [if_neg hE1, if_neg (by intro hc; exact hne1 hc.1),
            if_neg (by intro hc; exact hne1 hc.1)]
        rw [hsel]
        rw [hsel] at hdiv
        exact roundtrip_P4D56 O cmap px rest hBf hGf hlenf hlf hpx hdiv

end JxlModular

namespace JxlModular

/-! ## Image-level round trip (`ModularEncode` / `ModularDecode`) -/

theorem getD_set {α : Type} (d a : α) :
    ∀ (l : List α) (i j : Nat),
    (l.set i a).getD j d =
      if i = j ∧ i < l.length then a else l.getD j d := by
  intro l
  induction l with
  | nil =>
    intro i j
    simp
  | cons b bs ih =>
    intro i j
    cases i with
    | zero =>
      cases j with
      | zero => simp
      | succ j2 => simp
    | succ i2 =>
      cases j with
      | zero => simp
      | succ j2 =>
        simp only [List.set, List.getD_cons_succ, ih i2 j2, List.length_cons]
        by_cases h : i2 = j2 ∧ i2 < bs.length
        · rw [if_pos h, if_pos ⟨by omega, by omega⟩]
        · rw [if_neg h, if_neg (by intro hc; exact h ⟨by omega, by omega⟩)]

theorem getD_len_le {α : Type} (d : α) :
    ∀ (l : List α) (i : Nat), l.length ≤ i → l.getD i d = d := by
  intro l
  induction l with
  | nil => intro i _; simp
  | cons b bs ih =>
    intro i hi
    cases i with
    | zero => simp at hi
    | succ i2 =>
      simp only [List.getD_cons_succ]
      exact ih i2 (by simpa using hi)

theorem listEqOfGetD {α : Type} (d : α) :
    ∀ (l1 l2 : List α), l1.length = l2.length →
    (∀ i, l1.getD i d = l2.getD i d) → l1 = l2 := by
  intro l1
  induction l1 with
  | nil =>
    intro l2 h _
    cases l2 with
    | nil => rfl
    | cons b bs => simp at h
  | cons a as ih =>
    intro l2 h hg
    cases l2 with
    | nil => simp at h
    | cons b bs =>
      have h0 := hg 0
      simp only [List.getD_cons_zero] at h0
      have hrest : as = bs :=
        ih bs (by simpa using h) (fun i => by
          have := hg (i + 1)
          simpa using this)
      rw [h0, hrest]

/-- Modelled from the spec (§4.A–4.F): the collaborator contracts — the WP
property is pre-clamped to the table range (§4.B), the Zero predictor
predicts 0, property `kWPProp` of the gathered vector is the WP property,
and the Weighted prediction equals the WP guess. -/
def OracleOK (O : PredOracle) : Prop :=
  (∀ pre k, -kWPPropRange ≤ O.wpProp pre k ∧
    O.wpProp pre k ≤ kWPPropRange - 1) ∧
  (∀ pre k, O.pred predZero pre k = 0) ∧
  (∀ pre k, O.cprops pre k (kWPProp : Int) = O.wpProp pre k) ∧
  (∀ pre k, O.pred predWeighted pre k = O.wpGuess pre k)

/-- Per-channel acceptance and well-formedness side conditions: the filter
terminates within fuel, the lookup and walk fuels suffice, decision-range
splits on the remapped tree nest inside their parent interval when the
channel is WP-only (spec §4.H), and each residual is divisible by its
leaf's multiplier (the encoder's own `JXL_DASSERT`, lines 318–320). -/
def ChannelOK (O : PredOracle) (cmap : Nat → Nat) (t : Tree)
    (sp : StaticProps) (px : List Int) (ff wf lf : Nat) : Prop :=
  ∃ st, filterTree t sp ff = some st ∧
    st.output.length + 1 ≤ lf ∧
    (encWalkInit st.output wf).fuelOut = false ∧
    (decWalkInit (remapFlat cmap st.output) wf).fuelOut = false ∧
    (st.wpOnly = true → NestedP (remapFlat cmap st.output) 0
      (-kWPPropRange - 1) (kWPPropRange - 1)) ∧
    ∀ k, k < px.length →
      ((encChannelSel O st.output st.wpOnly (encWalkInit st.output wf) lf)
          (px.take k) k).2.2 ∣
        (px.getD k 0 -
          ((encChannelSel O st.output st.wpOnly
            (encWalkInit st.output wf) lf) (px.take k) k).2.1)

/-- `ModularEncode` (lines 762–903): after the tree pass, iterate the coded
channels in order, run `EncodeModularChannelMAANS` on each, and emit the
channels' token runs in sequence into one stream. Cross-channel predictor
inputs are carried by the per-channel oracle. -/
def encodeImage (O : Nat → PredOracle) (t : Tree) (spOf : Nat → StaticProps)
    (chans : List (List Int)) (ff wf lf : Nat) :
    List Nat → Option (List Token)
  | [] => some []
  | i :: is =>
    match encodeChannel (O i) t (spOf i) (chans.getD i []) ff wf lf with
    | none => none
    | some ts =>
      match encodeImage O t spOf chans ff wf lf is with
      | none => none
      | some ts2 => some (ts ++ ts2)

/-- `ModularDecode` (lines 905–1006): iterate the coded channels, run
`DecodeModularChannelMAANS` on each against the shared token stream, and
store the decoded pixels back into that channel of the image. -/
def decodeImage (O : Nat → PredOracle) (cmap : Nat → Nat) (t : Tree)
    (spOf : Nat → StaticProps) (ff wf lf : Nat) :
    List (List Int) → List Nat → List Token →
      Option (List (List Int) × List Token)
  | acc, [], ts => some (acc, ts)
  | acc, i :: is, ts =>
    match decodeChannel (O i) cmap t (spOf i) ((acc.getD i []).length)
        ff wf lf ts with
    | none => none
    | some (pxs, ts2) =>
      decodeImage O cmap t spOf ff wf lf (acc.set i pxs) is ts2

theorem image_loop (O : Nat → PredOracle) (cmap : Nat → Nat) (t : Tree)
    (spOf : Nat → StaticProps) (chans : List (List Int)) (ff wf lf : Nat)
    (hWF : WFTree t)
    (hpx : ∀ i, ∀ x ∈ chans.getD i [], pixelMin ≤ x ∧ x ≤ pixelMax) :
    ∀ (coded : List Nat) (acc : List (List Int)) (rest : List Token),
    (∀ i ∈ coded, OracleOK (O i)) →
    (∀ i ∈ coded,
      ChannelOK (O i) cmap t (spOf i) (chans.getD i []) ff wf lf) →
    acc.length = chans.length →
    (∀ i, i ∉ coded → acc.getD i [] = chans.getD i []) →
    (∀ i ∈ coded, (acc.getD i []).length = (chans.getD i []).length) →
    ∃ ts, encodeImage O t spOf chans ff wf lf coded = some ts ∧
      decodeImage O cmap t spOf ff wf lf acc coded (ts ++ rest) =
        some (chans, rest) := by
  intro coded
  induction coded with
  | nil =>
    intro acc rest _ _ hlen hoff _
    refine ⟨[], rfl, ?_⟩
    have hacc : acc = chans :=
      listEqOfGetD [] acc chans hlen (fun i => hoff i (by simp))
    show some (acc, rest) = some (chans, rest)
    rw [hacc]
  | cons i is ih =>
    intro acc rest hO hok hlen hoff hlens
    obtain ⟨st, hrun, hlf, hewf, hdwf, hnest, hdiv⟩ :=
      hok i (List.mem_cons_self i is)
    obtain ⟨hclampP, hzero, hwpp, hwpg⟩ := hO i (List.mem_cons_self i is)
    obtain ⟨ts2, henc2, hdec2⟩ := ih (acc.set i (chans.getD i [])) rest
      (fun j hj => hO j (List.mem_cons_of_mem i hj))
      (fun j hj => hok j (List.mem_cons_of_mem i hj))
      (by rw [List.length_set]; exact hlen)
      (by
        intro j hj
        rw [getD_set]
        by_cases hc : i = j ∧ i < acc.length
        · rw [if_pos hc, hc.1]
        · rw [if_neg hc]
          by_cases hji : j = i
          · have hge : acc.length ≤ i := by
              rcases Nat.lt_or_ge i acc.length with h | h
              · exact absurd ⟨hji.symm, h⟩ hc
              · exact h
            rw [hji]
            rw [getD_len_le [] acc i hge,
              getD_len_le [] chans i (by omega)]
          · exact hoff j (by
              intro hm
              rcases List.mem_cons.mp hm with h | h
              · exact hji h
              · exact hj h))
      (by
        intro j hj
        rw [getD_set]
        by_cases hc : i = j ∧ i < acc.length
        · rw [if_pos hc, hc.1]
        · rw [if_neg hc]
          exact hlens j (List.mem_cons_of_mem i hj))
    obtain ⟨ts1, henc1, hdec1⟩ := channel_roundtrip (O i) cmap t (spOf i)
      (chans.getD i []) (ts2 ++ rest) ff wf lf st hWF hrun hlf hewf hdwf
      hnest hclampP hzero hwpp hwpg (hpx i) hdiv
    refine ⟨ts1 ++ ts2, ?_, ?_⟩
    · simp only [encodeImage, henc1, henc2]
    · rw [List.append_assoc]
      simp only [decodeImage]
      rw [hlens i (List.mem_cons_self i is), hdec1]
      exact hdec2

end JxlModular

namespace JxlModular

/-- **C1**: the round-trip law. For every well-formed authoring tree,
every image whose channels lie in pixel range and satisfy the encoder's
per-channel acceptance conditions, and collaborators satisfying their
spec contracts, `ModularDecode` applied to the token stream produced by
`ModularEncode` (same options, same channel ordering, no global tree),
starting from any image of the right shape that agrees on the uncoded
channels, reconstructs the original image pixel for pixel and consumes
exactly the encoded tokens. -/
theorem modular_roundtrip (O : Nat → PredOracle) (cmap : Nat → Nat)
    (t : Tree) (spOf : Nat → StaticProps) (dims : List (Nat × Nat))
    (chans init : List (List Int)) (rest : List Token)
    (skip nbMeta maxSize ff wf lf : Nat)
    (hWF : WFTree t)
    (hpx : ∀ i, ∀ x ∈ chans.getD i [], pixelMin ≤ x ∧ x ≤ pixelMax)
    (hO : ∀ i ∈ encodeCodedChannels dims skip nbMeta maxSize,
      OracleOK (O i))
    (hok : ∀ i ∈ encodeCodedChannels dims skip nbMeta maxSize,
      ChannelOK (O i) cmap t (spOf i) (chans.getD i []) ff wf lf)
    (hlen : init.length = chans.length)
    (hoff : ∀ i, i ∉ encodeCodedChannels dims skip nbMeta maxSize →
      init.getD i [] = chans.getD i [])
    (hlens : ∀ i ∈ encodeCodedChannels dims skip nbMeta maxSize,
      (init.getD i []).length = (chans.getD i []).length) :
    ∃ ts, encodeImage O t spOf chans ff wf lf
        (encodeCodedChannels dims skip nbMeta maxSize) = some ts ∧
      decodeImage O cmap t spOf ff wf lf init
        (decodeCodedChannels dims skip nbMeta maxSize) (ts ++ rest) =
        some (chans, rest) := by
  have hl : decodeCodedChannels dims skip nbMeta maxSize =
      encodeCodedChannels dims skip nbMeta maxSize := by
    unfold encodeCodedChannels decodeCodedChannels
    exact (encode_decode_loop_eq dims nbMeta maxSize skip).symm
  rw [hl]
  exact image_loop O cmap t spOf chans ff wf lf hWF hpx
    (encodeCodedChannels dims skip nbMeta maxSize) init rest hO hok hlen
    hoff hlens

def wO1 : PredOracle :=
  ⟨fun _ _ => 0, fun _ _ => 0, fun _ _ _ => 0, fun _ _ _ => 0⟩

def wT1 : Tree := [{}]

theorem modular_roundtrip_witness :
    ∃ ts, encodeImage (fun _ => wO1) wT1 (fun _ => ((0, 0) : StaticProps))
        [[0, 1]] 10 20 5 (encodeCodedChannels [(1, 2)] 0 0 2) = some ts ∧
      decodeImage (fun _ => wO1) (fun c => c) wT1
        (fun _ => ((0, 0) : StaticProps)) 10 20 5 [[0, 1]]
        (decodeCodedChannels [(1, 2)] 0 0 2) (ts ++ []) =
        some ([[0, 1]], []) :=
  modular_roundtrip (fun _ => wO1) (fun c => c) wT1
    (fun _ => ((0, 0) : StaticProps)) [(1, 2)] [[0, 1]] [[0, 1]] []
    0 0 2 10 20 5
    (by decide)
    (by
      intro i x hx
      have hx2 : x = 0 ∨ x = 1 := by
        match i with
        | 0 => simpa using hx
        | n + 1 =>
          simp only [List.getD_cons_succ, List.getD_nil] at hx
          simp at hx
      rcases hx2 with rfl | rfl
      · exact ⟨by decide, by decide⟩
      · exact ⟨by decide, by decide⟩)
    (fun i _ =>
      ⟨fun pre k =>
        ⟨show -kWPPropRange ≤ (0 : Int) from by decide,
          show (0 : Int) ≤ kWPPropRange - 1 from by decide⟩,
        fun pre k => rfl, fun pre k => rfl, fun pre k => rfl⟩)
    (by
      intro i hi
      have hi0 : i = 0 := by
        rw [show encodeCodedChannels [(1, 2)] 0 0 2 = [0] from by
          unfold encodeCodedChannels
          rw [encode_loop_spec]
          rfl] at hi
        simpa using hi
      subst hi0
      exact ⟨_, rfl, by decide, by decide, by decide,
        fun h => absurd h (by decide), fun k hk => one_dvd _⟩)
    rfl
    (fun i _ => rfl)
    (fun i _ => rfl)

end JxlModular
